import Mathlib

/-!
# ADDA: FFT grid fitting, sine/cosine integrals, Green's tensor and the matrix-vector product

A shallow embedding of `src/src/fft.c`, `src/src/sinint.c` and
`src/branches/sparse/src/matvec.c`.

Conventions of the embedding

* C `int` and `size_t` values are unbounded (`Int`, `Nat`); `/` and `%` on `int` are the
  truncating `Int.tdiv` and `Int.tmod` of C99.
* `double` is an arbitrary linearly ordered field `R` (exact arithmetic); the elementary
  functions of `<math.h>` and the constants of `<float.h>` are fields of `MathEnv`.
* A C array is a total function from offsets to values; a store is `Function.update`.
* A loop that may not terminate takes fuel and returns `none` when the fuel is used up.
* A fatal `LogError` ends the run: the function returns `Except.error`.
-/

namespace ADDA

/-! ## Control flow -/

/-- The loop `for (i=0;i<n;i++) body(i)`, acting on the state `s`. -/
def forLoop {σ : Type} (n : Nat) (body : Nat → σ → σ) (s : σ) : σ :=
  match n with
  | 0 => s
  | m + 1 => body m (forLoop m body s)

/-- The loop `for (i=lo;i<hi;i++) body(i)`, acting on the state `s`. -/
def forRange {σ : Type} (lo hi : Nat) (body : Nat → σ → σ) (s : σ) : σ :=
  forLoop (hi - lo) (fun n => body (lo + n)) s

/-- The loop `for (i=0;i<n;i++) body(i)` whose body may end the run with a fatal error. -/
def forLoopM {σ ε : Type} (n : Nat) (body : Nat → σ → Except ε σ) (s : σ) : Except ε σ :=
  match n with
  | 0 => .ok s
  | m + 1 => (forLoopM m body s).bind (body m)

/-- The loop `for (i=lo;i<hi;i++) body(i)` whose body may end the run with a fatal error. -/
def forRangeM {σ ε : Type} (lo hi : Nat) (body : Nat → σ → Except ε σ) (s : σ) : Except ε σ :=
  forLoopM (hi - lo) (fun n => body (lo + n)) s

/-- A loop `for (i=i0; ...; i++) { ...; if (...) break; ... }` limited to `count` passes:
`body i s` is the state after pass `i` together with whether that pass ended in `break`. The
result is the final state and the value of the counter when the loop is left (on `break` the
counter keeps the value of the pass, otherwise it is `i0 + count`). -/
def forBreak {σ : Type} (body : Nat → σ → σ × Bool) : Nat → Nat → σ → σ × Nat
  | 0, i, s => (s, i)
  | count + 1, i, s =>
    match body i s with
    | (s', true) => (s', i)
    | (s', false) => forBreak body count (i + 1) s'

/-! ## `fft.c`: grid sizes -/

/-- The FFT backend chosen at build time (`#ifdef FFTW3`, `#elif defined(FFT_TEMPERTON)`). -/
inductive FFTBackend where
  | FFTW3
  | FFT_TEMPERTON
  deriving DecidableEq, Repr

/-- The macro `IS_EVEN(a)` of the project headers (not among the sources at hand): the
remainder of `a` by 2 is zero. -/
def IS_EVEN (a : Int) : Bool := a.tmod 2 == 0

/-- The loop `while (y%p==0) y/=p;` run for at most `fuel` tests of the condition. -/
def removeDivisorFuel (p : Int) : Nat → Int → Option Int
  | 0, _ => none
  | fuel + 1, y => if y.tmod p = 0 then removeDivisorFuel p fuel (y.tdiv p) else some y

/-- The loop `while (y%p==0) y/=p;`. For `y ≠ 0` and `p ≥ 2` it ends within `|y|` tests; for
`y = 0` it never ends and the result is `none`. -/
def removeDivisor (p : Int) (y : Int) : Option Int := removeDivisorFuel p y.natAbs y

/-- The statement `if (y%11==0) y/=11; else if (y%13==0) y/=13;`. -/
def removeOne11or13 (y : Int) : Int :=
  if y.tmod 11 = 0 then y.tdiv 11 else if y.tmod 13 = 0 then y.tdiv 13 else y

/-- The value of `y` after the divisor-removal statements shared by `CheckNprocs` and `fftFit`
(without the optional factors of 7, 11, 13): `y` starts as the tested number. -/
def removeSimpleDivisors (x : Int) : Option Int :=
  (removeDivisor 2 x).bind fun y => (removeDivisor 3 y).bind fun y => removeDivisor 5 y

/-- The value of `y` in `fftFit` just before the test `y==1 && ...`. -/
def fftFitResidue (backend : FFTBackend) (x : Int) : Option Int :=
  match backend with
  | .FFT_TEMPERTON => removeSimpleDivisors x
  | .FFTW3 =>
    (removeSimpleDivisors x).bind fun y => (removeDivisor 7 y).map removeOne11or13

/-- The loop `while (true) { ... if (y==1 && IS_EVEN(x) && x%divis==0) return(x); x++; }` of
`fftFit`, run for at most `fuel` candidates. A remainder by `divis = 0` has no result. -/
def fftFitLoop (backend : FFTBackend) (divis : Int) : Nat → Int → Option Int
  | 0, _ => none
  | fuel + 1, x =>
    (fftFitResidue backend x).bind fun y =>
      if y = 1 ∧ IS_EVEN x = true then
        if divis = 0 then none
        else if x.tmod divis = 0 then some x
        else fftFitLoop backend divis fuel (x + 1)
      else fftFitLoop backend divis fuel (x + 1)

/-- The function `fftFit(x,divis)`; `weird_nprocs` is the file-level flag set by `CheckNprocs`. -/
def fftFit (backend : FFTBackend) (weird_nprocs : Bool) (fuel : Nat) (x divis : Int) :
    Option Int :=
  if weird_nprocs then
    let divis := if !IS_EVEN divis then divis * 2 else divis
    if divis = 0 then none else some (divis * ((x + divis - 1).tdiv divis))
  else fftFitLoop backend divis fuel x

/-- The sizes the backend transforms efficiently: products of powers of 2, 3 and 5, in the
FFTW3 build times a power of 7 and at most one factor 11 or 13. -/
def AllowedSize (backend : FFTBackend) (n : Int) : Prop :=
  match backend with
  | .FFT_TEMPERTON => ∃ a b c : Nat, n = 2 ^ a * 3 ^ b * 5 ^ c
  | .FFTW3 => ∃ a b c d : Nat, ∃ e : Int,
      (e = 1 ∨ e = 11 ∨ e = 13) ∧ n = 2 ^ a * 3 ^ b * 5 ^ c * 7 ^ d * e

/-! ## Numbers -/

/-- The constants of `<float.h>`, the functions of `<math.h>` and the numeric constants of
`const.h` that the embedded code uses, over the exact field `R`. -/
structure MathEnv (R : Type) where
  /-- library function `sqrt` -/
  sqrt : R → R
  /-- library function `log` -/
  log : R → R
  /-- library function `cos` -/
  cos : R → R
  /-- library function `sin` -/
  sin : R → R
  DBL_EPSILON : R
  DBL_MAX : R
  DBL_MIN : R
  PI : R
  PI_OVER_TWO : R
  TWO_OVER_PI : R
  INV_PI : R
  ONE_THIRD : R
  EULER : R
  /-- the marker `UNDEF` for an unset numeric option -/
  UNDEF : R
  G_BOUND_CLOSE : R
  G_BOUND_MEDIAN : R
  /-- the largest distance (in dipoles) covered by the tables of the second-order mode -/
  TAB_RMAX : Int

/-- The type `doublecomplex`: a pair of doubles addressed by `RE` and `IM`. -/
structure Cplx (R : Type) where
  re : R
  im : R
  deriving DecidableEq, Repr

/-- The fatal errors raised through `LogError` in the embedded code. -/
inductive Fatal (R : Type) where
  /-- The error of `cisi`, "Failed to converge during calculation of sine integral of", with
  the argument. -/
  | sinintNotConverged (x : R)
  /-- The error "Incompatibility error in MatVec". -/
  | matVecIncompatibility
  /-- The error "Incompatibility error in CalcInterTerm". -/
  | calcInterTermIncompatibility
  /-- The error "Not enough table size (available only up to R/d=%d)", with `TAB_RMAX`. -/
  | notEnoughTableSize (rmax : Int)
  deriving DecidableEq, Repr

/-- The text each fatal error is reported with (format directives left as written). -/
def Fatal.message {R : Type} : Fatal R → String
  | .sinintNotConverged _ => "Failed to converge during calculation of sine integral of %g"
  | .matVecIncompatibility => "Incompatibility error in MatVec"
  | .calcInterTermIncompatibility => "Incompatibility error in CalcInterTerm"
  | .notEnoughTableSize _ => "Not enough table size (available only up to R/d=%d)"

section Numeric

variable {R : Type} [LinearOrderedField R]

/-- The zero of `doublecomplex`, as stored by `a[RE]=a[IM]=0`. -/
def Cplx.zero : Cplx R := ⟨0, 0⟩

/-- Modelled from the spec: `cAdd(a,b,c)` of `cmplx.h` (absent from the sources), `c=a+b`. -/
def cAdd (a b : Cplx R) : Cplx R := ⟨a.re + b.re, a.im + b.im⟩

/-- Modelled from the spec: `cSubtr(a,b,c)` of `cmplx.h` (absent from the sources), `c=a-b`. -/
def cSubtr (a b : Cplx R) : Cplx R := ⟨a.re - b.re, a.im - b.im⟩

/-- Modelled from the spec: `cMult(a,b,c)` of `cmplx.h` (absent from the sources), `c=a*b`. -/
def cMult (a b : Cplx R) : Cplx R := ⟨a.re * b.re - a.im * b.im, a.im * b.re + a.re * b.im⟩

/-- Modelled from the spec: `cMultReal(a,b,c)` of `cmplx.h` (absent from the sources), the
complex `b` times the real `a`. -/
def cMultReal (a : R) (b : Cplx R) : Cplx R := ⟨a * b.re, a * b.im⟩

/-- Modelled from the spec: `cInv(a,b)` of `cmplx.h` (absent from the sources), `b=1/a`. -/
def cInv (a : Cplx R) : Cplx R :=
  let tmp := 1 / (a.re * a.re + a.im * a.im)
  ⟨a.re * tmp, -a.im * tmp⟩

/-- Modelled from the spec: `cSquare(a,b)` of `cmplx.h` (absent from the sources), `b=a^2`. -/
def cSquare (a : Cplx R) : Cplx R := ⟨a.re * a.re - a.im * a.im, 2 * a.im * a.re⟩

/-- Modelled from the spec: `cMult_i(a)` of `cmplx.h` (absent from the sources), `a` times the
imaginary unit. -/
def cMult_i (a : Cplx R) : Cplx R := ⟨-a.im, a.re⟩

/-- Modelled from the spec: `cInvSign(a)` and `cInvSign2(a,b)` of `cmplx.h` (absent from the
sources), the negated complex number. -/
def cInvSign (a : Cplx R) : Cplx R := ⟨-a.re, -a.im⟩

/-- Modelled from the spec: the body of `nConj` of `linalg.c` (absent from the sources) for one
element, `a[IM]=-a[IM]`, as the direct pairwise `MatVec` writes it inline. -/
def cConj (a : Cplx R) : Cplx R := ⟨a.re, -a.im⟩

/-- Modelled from the spec: `cAbs2(a)` of `cmplx.h` (absent from the sources), the squared
modulus `a[RE]*a[RE]+a[IM]*a[IM]`, as the direct pairwise `MatVec` writes it inline. -/
def cAbs2 (a : Cplx R) : R := a.re * a.re + a.im * a.im

/-- Modelled from the spec: `imExp(arg,c)` of `cmplx.h` (absent from the sources),
`c=exp(i*arg)`, with real part `cos(arg)` and imaginary part `sin(arg)`. -/
def imExp (env : MathEnv R) (arg : R) : Cplx R := ⟨env.cos arg, env.sin arg⟩

/-- Modelled from the spec: `DotProd(a,b)` of `cmplx.h` (absent from the sources), the scalar
product of two real 3-vectors. -/
def DotProd (a b : Nat → R) : R := a 0 * b 0 + a 1 * b 1 + a 2 * b 2

/-- Modelled from the spec: `MultScal(a,b,c)` of `cmplx.h` (absent from the sources), the real
3-vector `b` times the scalar `a`. -/
def MultScal (a : R) (b : Nat → R) : Nat → R := fun n => a * b n

/-- Modelled from the spec: `vMult(a,b,c)` of `cmplx.h` (absent from the sources), the
component-wise product of two real 3-vectors. -/
def vMult (a b : Nat → R) : Nat → R := fun n => a n * b n

/-- Modelled from the spec: `TrSym(a)` of `cmplx.h` (absent from the sources), the trace of a
symmetric matrix stored as six reals in the order `{{0,1,3},{1,2,4},{3,4,5}}`. -/
def TrSym (a : Nat → R) : R := a 0 + a 2 + a 5

/-- Modelled from the spec: `cvNorm2(a)` of `cmplx.h` (absent from the sources), the squared
norm of a complex 3-vector. -/
def cvNorm2 (a : Nat → Cplx R) : R := cAbs2 (a 0) + cAbs2 (a 1) + cAbs2 (a 2)

/-- Modelled from the spec: `cSymMatrVec(matr,vec,res)` of `cmplx.h` (absent from the sources),
the product of a symmetric complex matrix, stored as its six components in the order
`{{0,1,2},{1,3,4},{2,4,5}}`, with a complex 3-vector; the same products `AijProd` writes out. -/
def cSymMatrVec (matr : Nat → Cplx R) (vec : Nat → Cplx R) : Nat → Cplx R := fun n =>
  match n with
  | 0 => cAdd (cAdd (cMult (matr 0) (vec 0)) (cMult (matr 1) (vec 1))) (cMult (matr 2) (vec 2))
  | 1 => cAdd (cAdd (cMult (matr 1) (vec 0)) (cMult (matr 3) (vec 1))) (cMult (matr 4) (vec 2))
  | _ => cAdd (cAdd (cMult (matr 2) (vec 0)) (cMult (matr 4) (vec 1))) (cMult (matr 5) (vec 2))

/-- Modelled from the spec: `cMultSelf(a,b)` of `cmplx.h` (absent from the sources), `a*=b`. -/
def cMultSelf (a b : Cplx R) : Cplx R := cMult a b

/-! ## `sinint.c` -/

/-- The constant `EPS`, defined as `DBL_EPSILON`. -/
def EPS (env : MathEnv R) : R := env.DBL_EPSILON

/-- The constant `MAXIT`, defined as 100. -/
def MAXIT : Nat := 100

/-- The constant `TMIN`, defined as 2.0. -/
def TMIN : R := 2

/-- The constant `BIG`, defined as `DBL_MAX*EPS`. -/
def BIG (env : MathEnv R) : R := env.DBL_MAX * EPS env

/-- The constant `FPMIN`, defined as `DBL_MIN*4`. -/
def FPMIN (env : MathEnv R) : R := env.DBL_MIN * 4

/-- Which part of `cisi` produced the result (an observation of the control flow, not a value the
C function stores). -/
inductive CisiBranch where
  /-- the block `if (x==0) { ... return; }` -/
  | special
  /-- the block `if (t>TMIN) { ... }` -/
  | continuedFraction
  /-- the block `if (t<sqrt(FPMIN)) { ... }` inside the `else` -/
  | underflow
  /-- the series loop inside the `else` -/
  | series
  deriving DecidableEq, Repr

/-- The outputs `*ci` and `*si` of `cisi` and the branch that computed them. -/
structure CisiResult (R : Type) where
  ci : R
  si : R
  branch : CisiBranch
  deriving DecidableEq, Repr

/-- The variables `b`, `c`, `d`, `h` of the continued fraction in `cisi`. -/
structure LentzState (R : Type) where
  b : Cplx R
  c : Cplx R
  d : Cplx R
  h : Cplx R

/-- One pass of `for (i=1;i<MAXIT;i++) { ... }` in `cisi`; the flag is the `break` test
`fabs(del[RE]-1)+fabs(del[IM])<=EPS`. -/
def lentzStep (env : MathEnv R) (i : Nat) (s : LentzState R) : LentzState R × Bool :=
  let a : R := ((-(i : Int) * (i : Int) : Int) : R)
  let b : Cplx R := ⟨s.b.re + 2, s.b.im⟩
  let d := cInv (cAdd b (cMultReal a s.d))
  let c := cAdd b (cMultReal a (cInv s.c))
  let del := cMult c d
  let h := cMultSelf s.h del
  (⟨b, c, d, h⟩, decide (|del.re - 1| + |del.im| ≤ EPS env))

/-- The variables of the series loop in `cisi`. -/
structure SeriesState (R : Type) where
  sum : R
  sums : R
  sumc : R
  sign : R
  fact : R
  odd : Bool

/-- One pass of `for (k=1;k<=MAXIT;k++) { ... }` in `cisi`; the flag is the `break` test
`err<EPS`, and `odd=!odd` runs only when the loop goes on. -/
def seriesStep (env : MathEnv R) (t : R) (k : Nat) (s : SeriesState R) :
    SeriesState R × Bool :=
  let fact := s.fact * (t / (k : R))
  let term := fact / (k : R)
  let sum := s.sum + s.sign * term
  let err := term / |sum|
  let s1 : SeriesState R :=
    if s.odd then ⟨s.sumc, sum, s.sumc, -s.sign, fact, s.odd⟩
    else ⟨s.sums, s.sums, sum, s.sign, fact, s.odd⟩
  if err < EPS env then (s1, true) else ({ s1 with odd := !s1.odd }, false)

/-- The function `cisi(x,&ci,&si)`. -/
def cisi (env : MathEnv R) (x : R) : Except (Fatal R) (CisiResult R) :=
  let t := |x|
  if x = 0 then .ok ⟨-env.DBL_MAX * EPS env, 0, .special⟩
  else
    let res : Except (Fatal R) (CisiResult R) :=
      if t > TMIN then
        let b : Cplx R := ⟨1, t⟩
        let c : Cplx R := ⟨BIG env, 0⟩
        let d := cInv b
        let h := d
        match forBreak (lentzStep env) (MAXIT - 1) 1 ⟨b, c, d, h⟩ with
        | (s, i) =>
          if i ≥ MAXIT then .error (.sinintNotConverged x)
          else
            let tmp := imExp env (-t)
            let h := cMultSelf s.h tmp
            .ok ⟨-h.re, env.PI_OVER_TWO + h.im, .continuedFraction⟩
      else if t < env.sqrt (FPMIN env) then
        .ok ⟨0 + env.log t + env.EULER, t, .underflow⟩
      else
        match forBreak (seriesStep env t) MAXIT 1 ⟨0, 0, 0, 1, 1, true⟩ with
        | (s, k) =>
          if k > MAXIT then .error (.sinintNotConverged x)
          else .ok ⟨s.sumc + env.log t + env.EULER, s.sums, .series⟩
    res.map fun r => if x < 0 then { r with si := -r.si } else r

/-! ## `fft.c`: the interaction term -/

/-- Modelled from the spec: the constant `NDCOMP` of `const.h` (absent from the sources), the
number of independent components of the symmetric interaction tensor, 6. -/
def NDCOMP : Nat := 6

/-- Modelled from the spec: the values of `IntRelation` (the enumeration is in `const.h`, absent
from the sources): point dipoles, filtered coupled dipoles (full and static), integration of
Green's tensor, second order. -/
inductive InterMode where
  | G_POINT_DIP
  | G_FCD
  | G_FCD_ST
  | G_IGT
  | G_SO
  deriving DecidableEq, Repr

/-- The process-wide variables and the build flag read by `CalcInterTerm`. -/
structure InterConfig (R : Type) where
  IntRelation : InterMode
  /-- the build flag `DISABLE_IGT` -/
  DISABLE_IGT : Bool
  gridspace : R
  WaveNum : R
  kd : R
  igt_lim : R
  igt_eps : R
  anisotropy : Bool
  /-- the entry `ref_index[0]` -/
  ref_index0 : Cplx R
  /-- the Fortran routine `propaespacelibreintadda_(Rij,ka,arretecube,relreq,result)`: the six
  components it stores -/
  propaespacelibreintadda_ : (Nat → R) → R → R → R → Nat → Cplx R
  tab1 : Int → R
  tab2 : Int → R
  tab3 : Int → R
  tab4 : Int → R
  tab5 : Int → R
  tab6 : Int → R
  tab7 : Int → R
  tab8 : Int → R
  tab9 : Int → R
  tab10 : Int → R
  tab_index : Int → Int → Int

/-- The loop head `for (mu=0,comp=0;mu<3;mu++) for (nu=mu;nu<3;nu++,comp++)`: the body is run
for `(mu,nu,comp)` = (0,0,0), (0,1,1), (0,2,2), (1,1,3), (1,2,4), (2,2,5) in this order. -/
def forMuNu {σ : Type} (body : Nat → Nat → Nat → σ → σ) (s : σ) : σ :=
  body 2 2 5 (body 1 2 4 (body 1 1 3 (body 0 2 2 (body 0 1 1 (body 0 0 0 s)))))

/-- A real 3-vector given by its entries, as filled by `v[0]=a; v[1]=b; v[2]=c;`. -/
def vec3 (a b c : R) : Nat → R := fun n =>
  match n with
  | 0 => a
  | 1 => b
  | _ => c

/-- A pointer into a table moved by an offset: `tab+ind`. -/
def tabAt (tab : Int → R) (ind : Int) : Nat → R := fun n => tab (ind + (n : Int))

/-- The arrays filled by the loop that computes `Gp` in `CalcInterTerm`. -/
structure GpState (R : Type) where
  dmunu : Nat → R
  qmunu : Nat → R
  result : Nat → Cplx R

/-- The body of the loop under `//====== calculate Gp ========`. -/
def gpBody (qvec : Nat → R) (kr kr2 : R) (expval : Cplx R) (mu nu comp : Nat)
    (s : GpState R) : GpState R :=
  let dmunu := Function.update s.dmunu comp (if mu = nu then 1 else 0)
  let qmunu := Function.update s.qmunu comp (qvec mu * qvec nu)
  let br : Cplx R := ⟨(3 - kr2) * qmunu comp, -3 * kr * qmunu comp⟩
  let br : Cplx R := if dmunu comp ≠ 0 then ⟨br.re + (kr2 - 1), br.im + kr⟩ else br
  ⟨dmunu, qmunu, Function.update s.result comp (cMult br expval)⟩

/-- The loop `for (ic=0;ic<3;ic++)` under `// transformation of negative coordinates`, acting on
`(sigV, qvec, ivec)`; the copy `av` of the propagation vector is used only when `inter_avg` is
false, which the constant declaration `const bool inter_avg=true` excludes. -/
def soSignBody (ic : Nat) (s : (Nat → Int) × (Nat → R) × (Nat → Int)) :
    (Nat → Int) × (Nat → R) × (Nat → Int) :=
  if s.2.2 ic < 0 then
    (Function.update s.1 ic (-1), Function.update s.2.1 ic (s.2.1 ic * -1),
      Function.update s.2.2 ic (s.2.2 ic * -1))
  else (Function.update s.1 ic 1, s.2.1, s.2.2)

/-- The nested tests under `// building of ord`: `ord[x]` for the coordinates `i`, `j`, `k`. -/
def soOrd (i j k : Int) : Nat → Int :=
  let ord : Nat → Int := fun _ => 0
  if i ≥ j then
    if i ≥ k then
      let ord := Function.update ord 0 0
      if j ≥ k then Function.update (Function.update ord 1 1) 2 2
      else Function.update (Function.update ord 1 2) 2 1
    else Function.update (Function.update (Function.update ord 0 2) 1 0) 2 1
  else
    if i ≥ k then Function.update (Function.update (Function.update ord 0 1) 1 0) 2 2
    else
      let ord := Function.update ord 2 0
      if j ≥ k then Function.update (Function.update ord 0 1) 1 2
      else Function.update (Function.update ord 0 2) 1 1

/-- Modelled from the spec: `Permutate(vec,ord)` of `cmplx.h` (absent from the sources), the
vector with entries `vec[ord[0]]`, `vec[ord[1]]`, `vec[ord[2]]`. -/
def Permutate (vec : Nat → R) (ord : Nat → Int) : Nat → R := fun x =>
  if x < 3 then vec (ord x).toNat else vec x

/-- Modelled from the spec: `Permutate_i(vec,ord)` of `cmplx.h` (absent from the sources), the
integer vector with entries `vec[ord[0]]`, `vec[ord[1]]`, `vec[ord[2]]`. -/
def Permutate_i (vec : Nat → Int) (ord : Nat → Int) : Nat → Int := fun x =>
  if x < 3 then vec (ord x).toNat else vec x

/-- The statements under `// compute inverse permutation`. -/
def soInvord (ord : Nat → Int) : Nat → Int :=
  let invord := Permutate_i ord ord
  if invord 0 = 0 ∧ invord 1 = 1 ∧ invord 2 = 2 then ord else invord

/-- The body of the loop under `// cycle over tensor components` of the branch `G close`, with
`inter_avg` true; `i`, `j`, `k` and `qvec` are the sorted values, `temp` is `kr/24`. -/
def soCloseBody (env : MathEnv R) (cfg : InterConfig R) (i j k : Int) (sigV invord : Nat → Int)
    (qvec dmunu qmunu : Nat → R) (kr kr2 kd2 temp : R) (m2 expval : Cplx R)
    (mu nu comp : Nat) (result : Nat → Cplx R) : Nat → Cplx R :=
  let sig : R := ((sigV mu * sigV nu : Int) : R)
  let mu1 := invord mu
  let nu1 := invord nu
  let indmunu := mu1 + nu1
  let indmunu := if mu1 = 2 ∨ nu1 = 2 then indmunu + 1 else indmunu
  let ind0 := cfg.tab_index i j + k
  let ind1 := 3 * ind0
  let ind2m := 6 * ind0
  let ind2 := ind2m + indmunu
  let ind3 := 3 * ind2
  let ind4 := 6 * ind2
  let t3q := DotProd qvec (tabAt cfg.tab3 ind1)
  let t4q := DotProd qvec (tabAt cfg.tab4 ind3)
  let t5tr := TrSym (tabAt cfg.tab5 ind2m)
  let t6tr := TrSym (tabAt cfg.tab6 ind4)
  let t5aa := env.ONE_THIRD * t5tr
  let t6aa := env.ONE_THIRD * t6tr
  -- Gc0
  let br : Cplx R :=
    ⟨sig * (3 * (cfg.tab10 ind2 / 2 + cfg.tab8 ind2) - 2 * t4q - t6tr) + temp * qmunu comp * kr,
      3 * temp * qmunu comp⟩
  let br : Cplx R :=
    if dmunu comp ≠ 0 then
      ⟨br.re + (2 * t3q + t5tr - temp * kr - cfg.tab9 ind0 / 2 - cfg.tab7 ind0), br.im - temp⟩
    else br
  let br := cMultReal kd2 br
  let br : Cplx R :=
    ⟨br.re + sig * cfg.tab2 ind2 * (3 - kr2), br.im - sig * cfg.tab2 ind2 * 3 * kr⟩
  let br : Cplx R :=
    if dmunu comp ≠ 0 then ⟨br.re + cfg.tab1 ind0 * (kr2 - 1), br.im + cfg.tab1 ind0 * kr⟩
    else br
  let result := Function.update result comp (cMult expval br)
  -- Gc2
  let br : Cplx R := ⟨-kr * qmunu comp, -3 * qmunu comp⟩
  let br : Cplx R := if dmunu comp ≠ 0 then ⟨br.re + kr, br.im + 1⟩ else br
  let br := cMultReal (-2 * temp) br
  let br : Cplx R := ⟨br.re - 3 * sig * t6aa, br.im⟩
  let br : Cplx R := if dmunu comp ≠ 0 then ⟨br.re + t5aa, br.im⟩ else br
  let Gc2 := cMult m2 br
  let Gc2 := cMultReal (kd2 / 2) Gc2
  let Gc2 := cMultSelf Gc2 expval
  Function.update result comp (cAdd Gc2 (result comp))

/-- The body of the loop under `//===== G median ========`, with `inter_avg` true. -/
def soMedianBody (q2 qmunu : Nat → R) (q4 invrn4 kr : R) (expval : Cplx R)
    (mu nu comp : Nat) (result : Nat → Cplx R) : Nat → Cplx R :=
  let temp := qmunu comp * (33 * q4 - 7 - 12 * (q2 mu + q2 nu))
  let temp := if mu = nu then temp + (1 - 3 * q4 + 4 * q2 mu) else temp
  let temp := temp * (7 * invrn4 / 64)
  let br : Cplx R := ⟨-1, kr⟩
  let Gm0 := cMultReal temp br
  let Gm0 := cMultSelf Gm0 expval
  Function.update result comp (cAdd Gm0 (result comp))

/-- The block `else if (IntRelation==G_SO) { ... }` of `CalcInterTerm`, with the constant
`inter_avg` true (the statements guarded by `!inter_avg` never run). The arguments are the
values the variables hold when the block is entered. -/
def soBranch (env : MathEnv R) (cfg : InterConfig R) (i j k : Int) (qvec dmunu qmunu : Nat → R)
    (kr kr2 rn : R) (expval : Cplx R) (result : Nat → Cplx R) :
    Except (Fatal R) (Nat → Cplx R) :=
  if cfg.anisotropy then .error .calcInterTermIncompatibility
  else
    let kd2 := cfg.kd * cfg.kd
    let m := cfg.ref_index0
    let m2 := cSquare m
    if kr * rn < env.G_BOUND_CLOSE then
      if i * i + j * j + k * k > env.TAB_RMAX * env.TAB_RMAX then
        .error (.notEnoughTableSize env.TAB_RMAX)
      else
        let ivec : Nat → Int := Function.update (Function.update (Function.update
          (fun _ => 0) 0 i) 1 j) 2 k
        match forLoop 3 soSignBody ((fun _ => 0), qvec, ivec) with
        | (sigV, qvec, ivec) =>
          let ord := soOrd (ivec 0) (ivec 1) (ivec 2)
          let qvec := Permutate qvec ord
          let ivec := Permutate_i ivec ord
          let invord := soInvord ord
          let temp := kr / 24
          .ok (forMuNu (soCloseBody env cfg (ivec 0) (ivec 1) (ivec 2) sigV invord qvec dmunu
            qmunu kr kr2 kd2 temp m2 expval) result)
    else
      let temp := kd2 / 24
      let br : Cplx R := ⟨1 - (1 + m2.re) * temp, -m2.im * temp⟩
      let result := forLoop NDCOMP (fun comp r => Function.update r comp (cMultSelf (r comp) br))
        result
      if kr < env.G_BOUND_MEDIAN then
        let q2 := vMult qvec qvec
        let q4 := DotProd q2 q2
        let invrn := 1 / rn
        let invrn2 := invrn * invrn
        let invrn4 := invrn2 * invrn2
        .ok (forMuNu (soMedianBody q2 qmunu q4 invrn4 kr expval) result)
      else .ok result

/-- The function `CalcInterTerm(i,j,k,result)`: `result` holds the six components the pointer
addresses before the call, the value is what they hold afterwards. -/
def CalcInterTerm (env : MathEnv R) (cfg : InterConfig R) (i j k : Int)
    (result : Nat → Cplx R) : Except (Fatal R) (Nat → Cplx R) :=
  -- `if (i==0 && j==0 && k==0) for (comp=0;comp<NDCOMP;comp++) { ...=0; return; }`
  let self : (Nat → Cplx R) × Nat :=
    if i = 0 ∧ j = 0 ∧ k = 0 then
      forBreak (fun comp r => (Function.update r comp Cplx.zero, true)) NDCOMP 0 result
    else (result, NDCOMP)
  if self.2 < NDCOMP then .ok self.1
  else
    let result := self.1
    let rtemp := vec3 ((i : R) * cfg.gridspace) ((j : R) * cfg.gridspace)
      ((k : R) * cfg.gridspace)
    let rr2 := DotProd rtemp rtemp
    let rr := env.sqrt rr2
    let rn := rr / cfg.gridspace
    if cfg.DISABLE_IGT = false ∧ cfg.IntRelation = .G_IGT ∧
        (cfg.igt_lim = env.UNDEF ∨ rn ≤ cfg.igt_lim) then
      .ok fun comp =>
        if comp < NDCOMP then
          cfg.propaespacelibreintadda_ rtemp cfg.WaveNum cfg.gridspace cfg.igt_eps comp
        else result comp
    else
      let invr := 1 / rr
      let invr3 := invr * invr * invr
      let qvec := MultScal invr rtemp
      let kr := cfg.WaveNum * rr
      let kr2 := kr * kr
      let kfr := env.PI * rn
      let expval := imExp env kr
      let cov := expval.re
      let siv := expval.im
      let expval := cMultReal invr3 expval
      match forMuNu (gpBody qvec kr kr2 expval) ⟨fun _ => 0, fun _ => 0, result⟩ with
      | ⟨dmunu, qmunu, result⟩ =>
        match cfg.IntRelation with
        | .G_FCD_ST =>
          (cisi env kfr).map fun cs =>
            let brd := env.TWO_OVER_PI * env.ONE_THIRD *
              (3 * cs.si + kfr * env.cos kfr - 4 * env.sin kfr)
            forLoop NDCOMP (fun comp r => Function.update r comp (cMultReal brd (r comp))) result
        | .G_FCD =>
          (cisi env (kfr + kr)).bind fun cs1 =>
            (cisi env (kfr - kr)).map fun cs2 =>
              let ci := cs1.ci - cs2.ci
              let si := env.PI - cs1.si - cs2.si
              let g0 := env.INV_PI * (siv * ci + cov * si)
              let g2 := env.INV_PI * (kr * (cov * ci - siv * si) +
                2 * env.ONE_THIRD * (kfr * env.cos kfr - 4 * env.sin kfr)) - g0
              let temp := g0 * kr2
              forLoop NDCOMP (fun comp r =>
                let brd := qmunu comp * (temp + 3 * g2)
                let brd := if dmunu comp ≠ 0 then brd - (temp + g2) else brd
                let brd := brd * invr3
                Function.update r comp ⟨(r comp).re + brd, (r comp).im⟩) result
        | .G_SO => soBranch env cfg i j k qvec dmunu qmunu kr kr2 rn expval result
        | _ => .ok result

/-! ## `fft.c`: the transposition of a slice -/

/-- The constant `TR_BLOCK`, defined as 64, the value of the static variable `blockTr`. -/
def TR_BLOCK : Nat := 64

/-- A store through a pointer given as a signed offset from the start of the array; a store
before the start of the array is outside the array and leaves it as it is. -/
def storeAt {α : Type} (a : Nat → α) (p : Int) (v : α) : Nat → α :=
  if 0 ≤ p then Function.update a p.toNat v else a

/-- The loop nest `for(i=0;i<=y1;i++) { ... for(j=0;j<=z1;j++) { ... for (y=0;y<y0;y++) { ...
for (z=0;z<z0;z++) ... } } }` written twice in `fft.c`, in `TransposeYZ` and in
`transposeYZ_Dm`: `w1` and `t1` are the pointers of these names as offsets into the source array
`src` and the target array `dst`. -/
def transposeBlocks {α : Type} (blockTr Y Z : Nat) (src : Nat → α) (w1 : Nat) (t1 : Int)
    (dst : Nat → α) : Nat → α :=
  let y1 := Y / blockTr
  let y2 := Y % blockTr
  let z1 := Z / blockTr
  let z2 := Z % blockTr
  (forLoop (y1 + 1) (fun i (s : Nat × Int × (Nat → α)) =>
    let y0 := if i = y1 then y2 else blockTr
    let inner := forLoop (z1 + 1) (fun j (s2 : Nat × Int × (Nat → α)) =>
      let z0 := if j = z1 then z2 else blockTr
      let rows := forLoop y0 (fun y (s3 : Nat × (Nat → α)) =>
        let t4 : Int := s2.2.1 + (y : Int)
        let cells := forLoop z0 (fun z (s4 : Int × (Nat → α)) =>
          let t4 := s4.1 + (Y : Int)
          (t4, storeAt s4.2 t4 (src (s3.1 + z)))) (t4, s3.2)
        (s3.1 + Z, cells.2)) (s2.1, s2.2.2)
      (s2.1 + blockTr, s2.2.1 + ((blockTr * Y : Nat) : Int), rows.2)) (s.1, s.2.1, s.2.2)
    (s.1 + blockTr * Z, s.2.1 + (blockTr : Int), inner.2.2)) (w1, t1, dst)).2.2

/-- Modelled from the spec: the values `FFT_FORWARD` and `FFT_BACKWARD` of `fft.h` (absent from
the sources), the direction of a transform. -/
inductive Direction where
  | FFT_FORWARD
  | FFT_BACKWARD
  deriving DecidableEq, Repr

/-- The function `TransposeYZ(direction)` on the pair of arrays `(slices, slices_tr)`. -/
def TransposeYZ {α : Type} (gridY gridZ gridYZ : Nat) (direction : Direction)
    (slices slices_tr : Nat → α) : (Nat → α) × (Nat → α) :=
  match direction with
  | .FFT_FORWARD =>
    let Y := gridY
    let Z := gridZ
    (slices, forLoop 3 (fun Xcomp dst =>
      transposeBlocks TR_BLOCK Y Z slices (Xcomp * gridYZ)
        (-(Y : Int) + ((Xcomp * gridYZ : Nat) : Int)) dst) slices_tr)
  | .FFT_BACKWARD =>
    let Y := gridZ
    let Z := gridY
    (forLoop 3 (fun Xcomp dst =>
      transposeBlocks TR_BLOCK Y Z slices_tr (Xcomp * gridYZ)
        (-(Y : Int) + ((Xcomp * gridYZ : Nat) : Int)) dst) slices, slices_tr)

/-- The function `transposeYZ_Dm(data,trans)`: the array `trans` after the call. -/
def transposeYZ_Dm {α : Type} (gridY gridZ : Nat) (data trans : Nat → α) : Nat → α :=
  transposeBlocks TR_BLOCK gridY gridZ data 0 (-(gridY : Int)) trans

/-! ## `matvec.c`: the matrix-vector product -/

/-- The process-wide variables and the build flag read by `MatVec`. -/
structure MatVecGlobals (R : Type) where
  /-- the build flag `PARALLEL` -/
  PARALLEL : Bool
  gridX : Nat
  gridY : Nat
  gridZ : Nat
  gridYZ : Nat
  smallY : Nat
  smallZ : Nat
  boxY : Nat
  boxZ : Nat
  local_Nsmall : Nat
  local_x0 : Nat
  local_x1 : Nat
  local_Nx : Nat
  local_Nz : Nat
  local_nvoid_Ndip : Nat
  nvoid_Ndip : Nat
  nlocalRows : Nat
  local_d0 : Nat
  DsizeY : Nat
  DsizeZ : Nat
  DsizeYZ : Nat
  reduced_FFT : Bool
  ipr_required : Bool
  material : Nat → Nat
  position : Nat → Nat
  material_full : Nat → Nat
  position_full : Nat → Nat
  /-- the entry `cc_sqrt[mat][Xcomp]` -/
  cc_sqrt : Nat → Nat → Cplx R
  Dmatrix : Nat → Cplx R

/-- The routines `MatVec` calls that are implemented outside the embedded code: the transforms
run by `fftX`, `fftY`, `fftZ` (library plans acting on `Xmatrix`, `slices_tr`, `slices`), and
`BlockTranspose`, `MyInnerProduct`, `SyncArgvec` of `comm.c`. -/
structure MatVecExtern (R : Type) where
  fftX : Direction → (Nat → Cplx R) → (Nat → Cplx R)
  fftY : Direction → (Nat → Cplx R) → (Nat → Cplx R)
  fftZ : Direction → (Nat → Cplx R) → (Nat → Cplx R)
  BlockTranspose : (Nat → Cplx R) → (Nat → Cplx R)
  /-- the reduction of one double over all processes -/
  MyInnerProduct : R → R
  /-- the full argument vector `arg_full` assembled from the local parts -/
  SyncArgvec : (Nat → Cplx R) → (Nat → Cplx R)

/-- The memory `MatVec` of the FFT build writes: its two vector arguments, the cell `inprod`
points to (`none` for a NULL pointer), the work arrays, and the call counter. -/
structure MatVecState (R : Type) where
  argvec : Nat → Cplx R
  resultvec : Nat → Cplx R
  inprod : Option R
  Xmatrix : Nat → Cplx R
  slices : Nat → Cplx R
  slices_tr : Nat → Cplx R
  TotalMatVec : Nat

/-- The function `IndexSliceZY(y,z)`. -/
def IndexSliceZY (g : MatVecGlobals R) (y z : Nat) : Nat := z * g.gridY + y

/-- The function `IndexSliceYZ(y,z)`. -/
def IndexSliceYZ (g : MatVecGlobals R) (y z : Nat) : Nat := y * g.gridZ + z

/-- The function `IndexGarbledX(x,y,z)`. -/
def IndexGarbledX (g : MatVecGlobals R) (x y z : Nat) : Nat :=
  if g.PARALLEL then
    ((z % g.local_Nz) * g.smallY + y) * g.gridX + (z / g.local_Nz) * g.local_Nx + x % g.local_Nx
  else (z * g.smallY + y) * g.gridX + x

/-- The function `IndexXmatrix(x,y,z)`. -/
def IndexXmatrix (g : MatVecGlobals R) (x y z : Nat) : Nat := (z * g.smallY + y) * g.gridX + x

/-- The function `IndexDmatrix_mv(x,y,z,transposed)`. -/
def IndexDmatrix_mv (g : MatVecGlobals R) (x y z : Nat) (transposed : Bool) : Nat :=
  let x := if transposed then (if x > 0 then g.gridX - x else x) else x
  let y := if transposed then (if y > 0 then g.gridY - y else y)
    else (if y ≥ g.DsizeY then g.gridY - y else y)
  let z := if transposed then (if z > 0 then g.gridZ - z else z)
    else (if z ≥ g.DsizeZ then g.gridZ - z else z)
  NDCOMP * (x * g.DsizeYZ + z * g.DsizeY + y)

/-- The loop `for (j=0;j<n;j++) a[j][IM] = -a[j][IM];`. -/
def conjLoop (n : Nat) (a : Nat → Cplx R) : Nat → Cplx R :=
  forLoop n (fun j a => Function.update a j (cConj (a j))) a

/-- Modelled from the spec: `nConj(a)` of `linalg.c` (absent from the sources), the conjugation
of the `nlocalRows` entries of a vector, the loop the direct pairwise `MatVec` writes inline. -/
def nConj (g : MatVecGlobals R) (a : Nat → Cplx R) : Nat → Cplx R := conjLoop g.nlocalRows a

/-- The body of the loop `for (i=0;i<local_nvoid_Ndip;i++)` under `// fill grid with
argvec*sqrt_cc`, acting on `Xmatrix`. -/
def scatterBody (g : MatVecGlobals R) (argvec : Nat → Cplx R) (i : Nat)
    (Xmatrix : Nat → Cplx R) : Nat → Cplx R :=
  let j := 3 * i
  let mat := g.material i
  let index := IndexXmatrix g (g.position j) (g.position (j + 1)) (g.position (j + 2))
  forLoop 3 (fun Xcomp X =>
    Function.update X (index + Xcomp * g.local_Nsmall)
      (cMult (g.cc_sqrt mat Xcomp) (argvec (j + Xcomp)))) Xmatrix

/-- The two loops `for(y=0;y<boxY_st;y++) for(z=0;z<boxZ_st;z++)` under `// fill slices with
values from Xmatrix`, acting on `slices`. -/
def fillSlices (g : MatVecGlobals R) (x : Nat) (Xmatrix slices : Nat → Cplx R) :
    Nat → Cplx R :=
  forLoop g.boxY (fun y sl => forLoop g.boxZ (fun z sl =>
    let i := IndexSliceYZ g y z
    let j := IndexGarbledX g x y z
    forLoop 3 (fun Xcomp sl =>
      Function.update sl (i + Xcomp * g.gridYZ) (Xmatrix (j + Xcomp * g.local_Nsmall))) sl) sl)
    slices

/-- The statements of `MatVec` that change the sign of components of `fmat` when `reduced_FFT`
is set. -/
def flipSigns (g : MatVecGlobals R) (y z : Nat) (fmat : Nat → Cplx R) : Nat → Cplx R :=
  if g.reduced_FFT then
    if y > g.smallY then
      let fmat := Function.update fmat 1 (cInvSign (fmat 1))
      if z > g.smallZ then Function.update fmat 2 (cInvSign (fmat 2))
      else Function.update fmat 4 (cInvSign (fmat 4))
    else if z > g.smallZ then
      let fmat := Function.update fmat 2 (cInvSign (fmat 2))
      Function.update fmat 4 (cInvSign (fmat 4))
    else fmat
  else fmat

/-- The two loops `for(z=0;z<gridZ;z++) for(y=0;y<gridY;y++)` under `// do the product D~*X~`,
acting on `slices_tr`. -/
def multiplySlices (g : MatVecGlobals R) (x : Nat) (transposed : Bool)
    (slices_tr : Nat → Cplx R) : Nat → Cplx R :=
  forLoop g.gridZ (fun z st => forLoop g.gridY (fun y st =>
    let i := IndexSliceZY g y z
    let xv : Nat → Cplx R := fun Xcomp => st (i + Xcomp * g.gridYZ)
    let j := IndexDmatrix_mv g (x - g.local_x0) y z transposed
    let fmat : Nat → Cplx R := fun c => g.Dmatrix (j + c)
    let fmat := flipSigns g y z fmat
    let yv := cSymMatrVec fmat xv
    forLoop 3 (fun Xcomp st => Function.update st (i + Xcomp * g.gridYZ) (yv Xcomp)) st) st)
    slices_tr

/-- The two loops `for(y=0;y<boxY_st;y++) for(z=0;z<boxZ_st;z++)` under `// copy slice back to
Xmatrix`, acting on `Xmatrix`. -/
def copyBack (g : MatVecGlobals R) (x : Nat) (slices Xmatrix : Nat → Cplx R) : Nat → Cplx R :=
  forLoop g.boxY (fun y X => forLoop g.boxZ (fun z X =>
    let i := IndexSliceYZ g y z
    let j := IndexGarbledX g x y z
    forLoop 3 (fun Xcomp X =>
      Function.update X (j + Xcomp * g.local_Nsmall) (slices (i + Xcomp * g.gridYZ))) X) X)
    Xmatrix

/-- The body of the loop `for(x=local_x0;x<local_x1;x++)` of `MatVec`, acting on
`(Xmatrix, slices, slices_tr)`. -/
def sliceBody (g : MatVecGlobals R) (ext : MatVecExtern R) (transposed : Bool) (x : Nat)
    (s : (Nat → Cplx R) × (Nat → Cplx R) × (Nat → Cplx R)) :
    (Nat → Cplx R) × (Nat → Cplx R) × (Nat → Cplx R) :=
  let Xmatrix := s.1
  let slices := forLoop (3 * g.gridYZ) (fun i sl => Function.update sl i Cplx.zero) s.2.1
  let slices := fillSlices g x Xmatrix slices
  let slices := ext.fftZ .FFT_FORWARD slices
  let tr := TransposeYZ g.gridY g.gridZ g.gridYZ .FFT_FORWARD slices s.2.2
  let slices_tr := ext.fftY .FFT_FORWARD tr.2
  let slices_tr := multiplySlices g x transposed slices_tr
  let slices_tr := ext.fftY .FFT_BACKWARD slices_tr
  let tr := TransposeYZ g.gridY g.gridZ g.gridYZ .FFT_BACKWARD tr.1 slices_tr
  let slices := ext.fftZ .FFT_BACKWARD tr.1
  (copyBack g x slices Xmatrix, slices, tr.2)

/-- The body of the loop `for (i=0;i<local_nvoid_Ndip;i++)` under `// fill resultvec`, acting on
`resultvec` and the cell `*inprod`. -/
def gatherBody (g : MatVecGlobals R) (argvec Xmatrix : Nat → Cplx R) (i : Nat)
    (s : (Nat → Cplx R) × Option R) : (Nat → Cplx R) × Option R :=
  let j := 3 * i
  let mat := g.material i
  let index := IndexXmatrix g (g.position j) (g.position (j + 1)) (g.position (j + 2))
  let resultvec := forLoop 3 (fun Xcomp res =>
    let temp := cMult (g.cc_sqrt mat Xcomp) (Xmatrix (index + Xcomp * g.local_Nsmall))
    Function.update res (j + Xcomp) (cAdd (argvec (j + Xcomp)) temp)) s.1
  (resultvec, s.2.map fun v => v + cvNorm2 fun c => resultvec (j + c))

/-- The function `MatVec(argvec,resultvec,inprod,her,comm_timing)` of the FFT build (neither
`ADDA_SPARSE` nor `OPENCL` nor `PRECISE_TIMING` defined). A fatal error is returned together
with the memory as it is when the error is raised. -/
def MatVec (g : MatVecGlobals R) (ext : MatVecExtern R) (her : Bool) (s : MatVecState R) :
    Except (Fatal R × MatVecState R) (MatVecState R) :=
  let transposed := (!g.reduced_FFT) && her
  let ipr := s.inprod.isSome
  if ipr && !g.ipr_required then .error (.matVecIncompatibility, s)
  else
    let inprod : Option R := s.inprod.map fun _ => 0
    let Xmatrix := forLoop (3 * g.local_Nsmall) (fun i X => Function.update X i Cplx.zero)
      s.Xmatrix
    let argvec := if her then nConj g s.argvec else s.argvec
    let Xmatrix := forLoop g.local_nvoid_Ndip (scatterBody g argvec) Xmatrix
    let Xmatrix := ext.fftX .FFT_FORWARD Xmatrix
    let Xmatrix := ext.BlockTranspose Xmatrix
    let sl := forRange g.local_x0 g.local_x1 (sliceBody g ext transposed)
      (Xmatrix, s.slices, s.slices_tr)
    let Xmatrix := ext.BlockTranspose sl.1
    let Xmatrix := ext.fftX .FFT_BACKWARD Xmatrix
    let res := forLoop g.local_nvoid_Ndip (gatherBody g argvec Xmatrix) (s.resultvec, inprod)
    let resultvec := if her then nConj g res.1 else res.1
    let argvec := if her then nConj g argvec else argvec
    let inprod := res.2.map ext.MyInnerProduct
    .ok ⟨argvec, resultvec, inprod, Xmatrix, sl.2.1, sl.2.2, s.TotalMatVec + 1⟩

/-- The memory `MatVec` of the direct pairwise build writes: its two vector arguments, the cell
`inprod` points to (`none` for a NULL pointer), the vector `arg_full` addresses, the static
array `iterm` of `AijProd`, and the call counter. -/
structure SparseState (R : Type) where
  argvec : Nat → Cplx R
  resultvec : Nat → Cplx R
  inprod : Option R
  arg_full : Nat → Cplx R
  iterm : Nat → Cplx R
  TotalMatVec : Nat

/-- The type of `CalcInterTerm(i,j,k,result)` as the direct pairwise build declares it in
`interaction.h` (absent from the sources). -/
abbrev InterTerm (R : Type) := Int → Int → Int → (Nat → Cplx R) → Except (Fatal R) (Nat → Cplx R)

/-- The function `AijProd(argvec,resultvec,i,j)`, acting on `resultvec` and the static array
`iterm`. -/
def AijProd (g : MatVecGlobals R) (interTerm : InterTerm R) (argvec : Nat → Cplx R)
    (i j : Nat) (s : (Nat → Cplx R) × (Nat → Cplx R)) :
    Except (Fatal R) ((Nat → Cplx R) × (Nat → Cplx R)) :=
  let resultvec := s.1
  let i3 := 3 * i
  let j3 := 3 * j
  let argX := cMult (argvec j3) (g.cc_sqrt (g.material_full j) 0)
  let argY := cMult (argvec (j3 + 1)) (g.cc_sqrt (g.material_full j) 1)
  let argZ := cMult (argvec (j3 + 2)) (g.cc_sqrt (g.material_full j) 2)
  (interTerm ((g.position i3 : Int) - (g.position_full j3 : Int))
    ((g.position (i3 + 1) : Int) - (g.position_full (j3 + 1) : Int))
    ((g.position (i3 + 2) : Int) - (g.position_full (j3 + 2) : Int)) s.2).map fun iterm =>
    let resX := cMult argX (iterm 0)
    let tmp1 := cMult argY (iterm 1)
    let resX := cAdd resX tmp1
    let tmp1 := cMult argZ (iterm 2)
    let resX := cAdd resX tmp1
    let resY := cMult argX (iterm 1)
    let tmp1 := cMult argY (iterm 3)
    let resY := cAdd resY tmp1
    let tmp1 := cMult argZ (iterm 4)
    let resY := cAdd resY tmp1
    let resZ := cMult argX (iterm 2)
    let tmp1 := cMult argY (iterm 4)
    let resZ := cAdd resZ tmp1
    let tmp1 := cMult argZ (iterm 5)
    let resZ := cAdd resZ tmp1
    let argX := cMult resX (g.cc_sqrt (g.material i) 0)
    let resultvec := Function.update resultvec i3 (cAdd argX (resultvec i3))
    let argY := cMult resY (g.cc_sqrt (g.material i) 1)
    let resultvec := Function.update resultvec (i3 + 1) (cAdd argY (resultvec (i3 + 1)))
    let argZ := cMult resZ (g.cc_sqrt (g.material i) 2)
    let resultvec := Function.update resultvec (i3 + 2) (cAdd argZ (resultvec (i3 + 2)))
    (resultvec, iterm)

/-- The body of the loop `for (unsigned int i=0; i<local_nvoid_Ndip; i++)` of the direct
pairwise `MatVec`, acting on `resultvec` and `iterm`. -/
def sparseRow (g : MatVecGlobals R) (interTerm : InterTerm R) (arg_full : Nat → Cplx R)
    (i : Nat) (s : (Nat → Cplx R) × (Nat → Cplx R)) :
    Except (Fatal R) ((Nat → Cplx R) × (Nat → Cplx R)) :=
  let i3 := 3 * i
  let resultvec := Function.update s.1 i3 Cplx.zero
  let resultvec := Function.update resultvec (i3 + 1) Cplx.zero
  let resultvec := Function.update resultvec (i3 + 2) Cplx.zero
  (forLoopM (g.local_d0 + i) (fun j => AijProd g interTerm arg_full i j)
    (resultvec, s.2)).bind fun s1 =>
    forRangeM (g.local_d0 + i + 1) g.nvoid_Ndip (fun j => AijProd g interTerm arg_full i j) s1

/-- The function `MatVec(argvec,resultvec,inprod,her,comm_timing)` of the direct pairwise build
(`ADDA_SPARSE` defined). -/
def MatVecSparse (g : MatVecGlobals R) (ext : MatVecExtern R) (interTerm : InterTerm R)
    (her : Bool) (s : SparseState R) : Except (Fatal R) (SparseState R) :=
  let ipr := s.inprod.isSome
  let argvec :=
    if her then forLoop g.nlocalRows (fun j a => Function.update a j (cConj (a j))) s.argvec
    else s.argvec
  let arg_full := if g.PARALLEL then ext.SyncArgvec argvec else argvec
  (forLoopM g.local_nvoid_Ndip (sparseRow g interTerm arg_full) (s.resultvec, s.iterm)).map
    fun rows =>
      let local_c0 := 3 * g.local_d0
      let resultvec := forLoop g.nlocalRows (fun i res =>
        Function.update res i (cSubtr (arg_full (local_c0 + i)) (res i))) rows.1
      let va : (Nat → Cplx R) × (Nat → Cplx R) :=
        if her then
          forLoop g.nlocalRows (fun i (p : (Nat → Cplx R) × (Nat → Cplx R)) =>
            (Function.update p.1 i (cConj (p.1 i)), Function.update p.2 i (cConj (p.2 i))))
            (resultvec, argvec)
        else (resultvec, argvec)
      let inprod : Option R :=
        if ipr then
          some (ext.MyInnerProduct (forLoop g.nlocalRows (fun i v =>
            v + ((va.1 i).re * (va.1 i).re + (va.1 i).im * (va.1 i).im)) 0))
        else s.inprod
      ⟨va.2, va.1, inprod, if g.PARALLEL then arg_full else va.2, rows.2, s.TotalMatVec + 1⟩

end Numeric

/-! ## Sample data over the rationals -/

/-- A sample environment over `ℚ`: rational stand-ins for the library functions (one Newton
step for `sqrt`, Taylor polynomials for `log`, `cos`, `sin`) and rounded constants. -/
def sampleEnv : MathEnv ℚ where
  sqrt := fun x => (x + 1) / 2
  log := fun x => x - 1
  cos := fun x => 1 - x * x / 2
  sin := fun x => x - x * x * x / 6
  DBL_EPSILON := 1 / 1000000
  DBL_MAX := 1000000000000
  DBL_MIN := 1 / 1000000000000
  PI := 22 / 7
  PI_OVER_TWO := 11 / 7
  TWO_OVER_PI := 7 / 11
  INV_PI := 7 / 22
  ONE_THIRD := 1 / 3
  EULER := 577 / 1000
  UNDEF := -1
  G_BOUND_CLOSE := 1
  G_BOUND_MEDIAN := 1
  TAB_RMAX := 10

/-- A sample configuration of `CalcInterTerm` over `ℚ` for the interaction mode `mode`: unit
lattice spacing and wave number, empty tables. -/
def sampleInter (mode : InterMode) : InterConfig ℚ where
  IntRelation := mode
  DISABLE_IGT := false
  gridspace := 1
  WaveNum := 1
  kd := 1
  igt_lim := -1
  igt_eps := 1 / 100
  anisotropy := false
  ref_index0 := ⟨3 / 2, 0⟩
  propaespacelibreintadda_ := fun _ _ _ _ _ => ⟨0, 0⟩
  tab1 := fun _ => 0
  tab2 := fun _ => 0
  tab3 := fun _ => 0
  tab4 := fun _ => 0
  tab5 := fun _ => 0
  tab6 := fun _ => 0
  tab7 := fun _ => 0
  tab8 := fun _ => 0
  tab9 := fun _ => 0
  tab10 := fun _ => 0
  tab_index := fun _ _ => 0

/-- Sample globals of `MatVec` over `ℚ`: two dipoles at (0,0,0) and (1,0,0) in a 2x2x2 grid on
one process, unit coupling constants, and the flag `ipr_required` as given. -/
def sampleGlobals (ipr_required : Bool) : MatVecGlobals ℚ where
  PARALLEL := false
  gridX := 2
  gridY := 2
  gridZ := 2
  gridYZ := 4
  smallY := 1
  smallZ := 1
  boxY := 1
  boxZ := 1
  local_Nsmall := 1
  local_x0 := 0
  local_x1 := 2
  local_Nx := 2
  local_Nz := 1
  local_nvoid_Ndip := 2
  nvoid_Ndip := 2
  nlocalRows := 6
  local_d0 := 0
  DsizeY := 2
  DsizeZ := 2
  DsizeYZ := 4
  reduced_FFT := false
  ipr_required := ipr_required
  material := fun _ => 0
  position := fun n => if n = 3 then 1 else 0
  material_full := fun _ => 0
  position_full := fun n => if n = 3 then 1 else 0
  cc_sqrt := fun _ _ => ⟨1, 0⟩
  Dmatrix := fun _ => ⟨0, 0⟩

/-- Sample external routines over `ℚ`: every transform and exchange leaves its array as it is
and the reduction over a single process is the identity. -/
def sampleExtern : MatVecExtern ℚ where
  fftX := fun _ a => a
  fftY := fun _ a => a
  fftZ := fun _ a => a
  BlockTranspose := fun a => a
  MyInnerProduct := fun v => v
  SyncArgvec := fun a => a

/-- A sample state of the FFT `MatVec` over `ℚ`: every array entry is `1+i`, the inner product
cell is as given. -/
def sampleState (inprod : Option ℚ) : MatVecState ℚ :=
  ⟨fun _ => ⟨1, 1⟩, fun _ => ⟨1, 1⟩, inprod, fun _ => ⟨1, 1⟩, fun _ => ⟨1, 1⟩,
    fun _ => ⟨1, 1⟩, 0⟩

/-- A sample state of the direct pairwise `MatVec` over `ℚ`: every array entry is `1+i`, the
inner product cell is as given. -/
def sampleSparseState (inprod : Option ℚ) : SparseState ℚ :=
  ⟨fun _ => ⟨1, 1⟩, fun _ => ⟨1, 1⟩, inprod, fun _ => ⟨1, 1⟩, fun _ => ⟨1, 1⟩, 0⟩

/-! ## `fft.c`: the check of the number of processes -/

/-- What a call of `CheckNprocs` ends with: the fatal `PrintError` of the Temperton build, or a
return with the value stored in `weird_nprocs` and whether the warning was logged. -/
inductive NprocsCheck where
  | fatal
  | done (weird_nprocs : Bool) (warning : Bool)
  deriving DecidableEq, Repr

/-- The function `CheckNprocs()` for the value `nprocs`; `none` when a divisor-removal loop does
not end. -/
def CheckNprocs (backend : FFTBackend) (nprocs : Int) : Option NprocsCheck :=
  (removeSimpleDivisors nprocs).bind fun y =>
    match backend with
    | .FFT_TEMPERTON => some (if y ≠ 1 then .fatal else .done false false)
    | .FFTW3 =>
      (removeDivisor 7 y).map fun y =>
        let y := removeOne11or13 y
        if y ≠ 1 then .done true true else .done false false

/-! ## Loops over signed counters -/

/-- The loop `for (i=lo;i<hi;i++) body(i)` with a signed counter, acting on the state `s`. -/
def forIntRange {σ : Type} (lo hi : Int) (body : Int → σ → σ) (s : σ) : σ :=
  forLoop (hi - lo).toNat (fun n => body (lo + (n : Int))) s

/-- The loop `for (i=lo;i<hi;i++) body(i)` with a signed counter whose body may end the run
with a fatal error. -/
def forIntRangeM {σ ε : Type} (lo hi : Int) (body : Int → σ → Except ε σ) (s : σ) :
    Except ε σ :=
  forLoopM (hi - lo).toNat (fun n => body (lo + (n : Int))) s

section Kernel

variable {R : Type} [LinearOrderedField R]

/-! ## `fft.c`: the mirror statements of `InitDmatrix` -/

/-- The statement of the loop `// mirror along y` of `InitDmatrix`: what is stored in the cell of
`-j` for the component `Dcomp`, given the value in the cell of `j`. -/
def mirrorAlongY (Dcomp : Nat) (v : Cplx R) : Cplx R :=
  if Dcomp = 1 ∨ Dcomp = 4 then cInvSign v else v

/-- The statement of the loop `// mirror along z` of `InitDmatrix`: what is stored in the cell of
`-k` for the component `Dcomp`, given the value in the cell of `k`. -/
def mirrorAlongZ (Dcomp : Nat) (v : Cplx R) : Cplx R :=
  if Dcomp = 2 ∨ Dcomp = 4 then cInvSign v else v

/-! ## `doublecomplex` as a commutative ring -/

/-- The zero of `doublecomplex` written `0` is `Cplx.zero`. -/
instance : Zero (Cplx R) := ⟨Cplx.zero⟩

/-- The unit of `doublecomplex` written `1` is `1+0i`. -/
instance : One (Cplx R) := ⟨⟨1, 0⟩⟩

/-- The sum of two `doublecomplex` written `a + b` is `cAdd`. -/
instance : Add (Cplx R) := ⟨cAdd⟩

/-- The negation of a `doublecomplex` written `-a` is `cInvSign`. -/
instance : Neg (Cplx R) := ⟨cInvSign⟩

/-- The difference of two `doublecomplex` written `a - b` is `cSubtr`. -/
instance : Sub (Cplx R) := ⟨cSubtr⟩

/-- The product of two `doublecomplex` written `a * b` is `cMult`. -/
instance : Mul (Cplx R) := ⟨cMult⟩

/-- The operations `cAdd`, `cSubtr`, `cMult`, `cInvSign` make `doublecomplex` over exact reals
a commutative ring. -/
instance : CommRing (Cplx R) where
  add := (· + ·)
  zero := 0
  neg := fun a => -a
  sub := (· - ·)
  mul := (· * ·)
  one := 1
  nsmul := nsmulRec
  zsmul := zsmulRec
  add_assoc := fun a b c => by
    show cAdd (cAdd a b) c = cAdd a (cAdd b c)
    simp [cAdd, add_assoc]
  zero_add := fun a => by
    show cAdd Cplx.zero a = a
    simp [cAdd, Cplx.zero]
  add_zero := fun a => by
    show cAdd a Cplx.zero = a
    simp [cAdd, Cplx.zero]
  add_comm := fun a b => by
    show cAdd a b = cAdd b a
    simp [cAdd, add_comm]
  neg_add_cancel := fun a => by
    show cAdd (cInvSign a) a = Cplx.zero
    simp [cAdd, cInvSign, Cplx.zero]
  sub_eq_add_neg := fun a b => by
    show cSubtr a b = cAdd a (cInvSign b)
    simp [cSubtr, cAdd, cInvSign, sub_eq_add_neg]
  mul_assoc := fun a b c => by
    show cMult (cMult a b) c = cMult a (cMult b c)
    simp only [cMult, Cplx.mk.injEq]
    constructor <;> ring
  one_mul := fun a => by
    show cMult ⟨1, 0⟩ a = a
    simp [cMult]
  mul_one := fun a => by
    show cMult a ⟨1, 0⟩ = a
    simp [cMult]
  left_distrib := fun a b c => by
    show cMult a (cAdd b c) = cAdd (cMult a b) (cMult a c)
    simp only [cMult, cAdd, Cplx.mk.injEq]
    constructor <;> ring
  right_distrib := fun a b c => by
    show cMult (cAdd a b) c = cAdd (cMult a c) (cMult b c)
    simp only [cMult, cAdd, Cplx.mk.injEq]
    constructor <;> ring
  zero_mul := fun a => by
    show cMult Cplx.zero a = Cplx.zero
    simp [cMult, Cplx.zero]
  mul_zero := fun a => by
    show cMult a Cplx.zero = Cplx.zero
    simp [cMult, Cplx.zero]
  mul_comm := fun a b => by
    show cMult a b = cMult b a
    simp only [cMult, Cplx.mk.injEq]
    constructor <;> ring

/-! ## `matvec.c`: the direct pairwise product as the specification writes it -/

/-- The position of the component `(mu,nu)` of a symmetric tensor in its array of six
components, in the order `{{0,1,2},{1,3,4},{2,4,5}}` in which `CalcInterTerm` stores them and
`AijProd` reads them. -/
def symIdx (mu nu : Nat) : Nat :=
  match mu, nu with
  | 0, 0 => 0
  | 0, 1 => 1
  | 1, 0 => 1
  | 0, _ => 2
  | _, 0 => 2
  | 1, 1 => 3
  | 1, _ => 4
  | _, 1 => 4
  | _, _ => 5

/-- The coupling sum of the direct pairwise product as the specification writes it, for the
local dipole `i` and the component `mu`: `cc_sqrt[material[i]][mu]` times the sum over all `j`
in `[0,nvoid_Ndip)` other than `local_d0+i` and over `nu` of
`G_mu,nu(position[i]-position_full[j]) * cc_sqrt[material_full[j]][nu] * arg_full[3j+nu]`. -/
def pairwiseCoupling (g : MatVecGlobals R) (G : Int → Int → Int → Nat → Cplx R)
    (arg_full : Nat → Cplx R) (i mu : Nat) : Cplx R :=
  g.cc_sqrt (g.material i) mu *
    ∑ j in (Finset.range g.nvoid_Ndip).filter (fun j => j ≠ g.local_d0 + i),
      ∑ nu in Finset.range 3,
        G ((g.position (3 * i) : Int) - (g.position_full (3 * j) : Int))
          ((g.position (3 * i + 1) : Int) - (g.position_full (3 * j + 1) : Int))
          ((g.position (3 * i + 2) : Int) - (g.position_full (3 * j + 2) : Int)) (symIdx mu nu) *
          g.cc_sqrt (g.material_full j) nu * arg_full (3 * j + nu)

/-- The tensor `G(i,j,k)` of an interaction-term routine: the six components it stores when
called on a zeroed array (zero when the call ends with a fatal error); `CalcInterTerm` stores all
six for a displacement other than zero. -/
def interTensor (interTerm : InterTerm R) (i j k : Int) (c : Nat) : Cplx R :=
  match interTerm i j k (fun _ => Cplx.zero) with
  | .ok r => r c
  | .error _ => Cplx.zero

/-! ## `fft.c`: the transforms along the axes -/

/-- The one-dimensional transform of the FFT library (`cfft99_` of the Temperton code, a plan of
FFTW3; both outside the sources): for a direction and a length `nn`, the transform of a vector
of `nn` complex numbers. -/
abbrev Transform1D (R : Type) := Direction → Nat → (Nat → Cplx R) → (Nat → Cplx R)

/-- One transform in place: the `nn` entries of the array from `start` on are replaced by their
transform, the other entries are kept. -/
def transformRow (T : Transform1D R) (isign : Direction) (nn start : Nat) (a : Nat → Cplx R) :
    Nat → Cplx R := fun k =>
  if start ≤ k ∧ k < start + nn then
    T isign nn (fun m => if m < nn then a (start + m) else Cplx.zero) (k - start)
  else a k

/-- The call `cfft99_(a+start,work,trigs,ifax,&inc,&jump,&nn,&lot,&isign)` with `inc=1`: `lot`
transforms of length `nn` in place, the vectors `jump` entries apart. -/
def cfft99 (T : Transform1D R) (a : Nat → Cplx R) (start jump nn lot : Nat)
    (isign : Direction) : Nat → Cplx R :=
  forLoop lot (fun b a => transformRow T isign nn (start + b * jump) a) a

/-- The function `fftX(isign)`, acting on `Xmatrix`: in the FFTW3 build the plan `planXf` or
`planXb` made in `fftInitAfterD` (transforms of length `gridX`, `3*local_Nz` times `boxY` of
them, `smallY*gridX` and `gridX` apart), in the Temperton build the loop over `z` of calls of
`cfft99_`. -/
def fftX (backend : FFTBackend) (g : MatVecGlobals R) (T : Transform1D R) (isign : Direction)
    (Xmatrix : Nat → Cplx R) : Nat → Cplx R :=
  match backend with
  | .FFTW3 =>
    forLoop (3 * g.local_Nz) (fun i0 X => forLoop g.boxY (fun i1 X =>
      transformRow T isign g.gridX (i0 * (g.smallY * g.gridX) + i1 * g.gridX) X) X) Xmatrix
  | .FFT_TEMPERTON =>
    forLoop (3 * g.local_Nz) (fun z X =>
      cfft99 T X (z * g.gridX * g.smallY) g.gridX g.gridX g.boxY isign) Xmatrix

/-- The function `fftY(isign)`, acting on `slices_tr`: in the FFTW3 build the plan `planYf` or
`planYb` (`3*gridZ` transforms of length `gridY`, `gridY` apart), in the Temperton build the
loop `for(j=0;j<6;j++)` of calls of `cfft99_` with `lot=smallZ`. -/
def fftY (backend : FFTBackend) (g : MatVecGlobals R) (T : Transform1D R) (isign : Direction)
    (slices_tr : Nat → Cplx R) : Nat → Cplx R :=
  match backend with
  | .FFTW3 =>
    forLoop (3 * g.gridZ) (fun i a => transformRow T isign g.gridY (i * g.gridY) a) slices_tr
  | .FFT_TEMPERTON =>
    forLoop 6 (fun j a =>
      cfft99 T a (j * g.gridY * g.smallZ) g.gridY g.gridY g.smallZ isign) slices_tr

/-- The function `fftZ(isign)`, acting on `slices`: in the FFTW3 build the plan `planZf` or
`planZb` (transforms of length `gridZ`, 3 times `boxY` of them, `gridZ*gridY` and `gridZ`
apart), in the Temperton build the loop over `Xcomp` of calls of `cfft99_` with `lot=boxY`. -/
def fftZ (backend : FFTBackend) (g : MatVecGlobals R) (T : Transform1D R) (isign : Direction)
    (slices : Nat → Cplx R) : Nat → Cplx R :=
  match backend with
  | .FFTW3 =>
    forLoop 3 (fun i0 a => forLoop g.boxY (fun i1 a =>
      transformRow T isign g.gridZ (i0 * (g.gridZ * g.gridY) + i1 * g.gridZ) a) a) slices
  | .FFT_TEMPERTON =>
    forLoop 3 (fun Xcomp a =>
      cfft99 T a (g.gridYZ * Xcomp) g.gridZ g.gridZ g.boxY isign) slices

/-! ## `fft.c`: the sizes and index functions of `InitDmatrix` -/

/-- The function `IndexDmatrix(x,y,z)`, the index into `Dmatrix` used to store the kernel. -/
def IndexDmatrix (g : MatVecGlobals R) (x y z : Nat) : Nat :=
  let y := if y ≥ g.DsizeY then g.gridY - y else y
  let z := if z ≥ g.DsizeZ then g.gridZ - z else z
  NDCOMP * (x * g.DsizeYZ + z * g.DsizeY + y)

/-- The statements of `InitDmatrix` under `// initialize sizes of D and D2 matrices` that set
`DsizeY`, `DsizeZ` and `DsizeYZ` (the other globals are as before; `local_Nsmall`, which is
computed from `nprocs`, is left as given). -/
def InitDmatrix_sizes (g : MatVecGlobals R) : MatVecGlobals R :=
  { g with
    DsizeY := if g.reduced_FFT then g.gridY / 2 + 1 else g.gridY
    DsizeZ := if g.reduced_FFT then g.gridZ / 2 + 1 else g.gridZ
    DsizeYZ := (if g.reduced_FFT then g.gridY / 2 + 1 else g.gridY) *
      (if g.reduced_FFT then g.gridZ / 2 + 1 else g.gridZ) }

/-- The number of complex entries `Dsize` allocated for `Dmatrix` in `InitDmatrix`,
`NDCOMP*local_Nx*DsizeYZ` (the product `MultOverflow` checks). -/
def Dsize (g : MatVecGlobals R) : Nat := NDCOMP * g.local_Nx * g.DsizeYZ

/-- The file-level variables `D2sizeX`, `D2sizeY`, `D2sizeZ` and the local variables `nnn`,
`jstart`, `kstart`, `lengthN` of `InitDmatrix`. -/
structure D2Vars where
  D2sizeX : Nat
  D2sizeY : Nat
  D2sizeZ : Nat
  nnn : Nat
  jstart : Int
  kstart : Int
  lengthN : Nat
  deriving DecidableEq, Repr

/-- The file-level variables `boxX`, `local_z0`, `local_z1` that `InitDmatrix` reads besides
those of `MatVec`. -/
structure InitGlobals where
  boxX : Nat
  local_z0 : Nat
  local_z1 : Nat
  deriving DecidableEq, Repr

/-- The statements of `InitDmatrix` under `// initialize sizes of D and D2 matrices` and
`// auxiliary parameters` that set `D2sizeX`, `D2sizeY`, `D2sizeZ`, `nnn`, `jstart`, `kstart`
and `lengthN`. -/
def InitDmatrix_D2 (g : MatVecGlobals R) : D2Vars :=
  if g.reduced_FFT then
    { D2sizeX := g.gridX, D2sizeY := g.gridY / 2, D2sizeZ := g.gridZ / 2, nnn := 1,
      jstart := 0, kstart := 0, lengthN := 1 * g.local_Nz }
  else
    { D2sizeX := g.gridX, D2sizeY := g.gridY, D2sizeZ := g.gridZ, nnn := 2,
      jstart := 1 - (g.boxY : Int), kstart := 1 - (g.boxZ : Int), lengthN := 2 * g.local_Nz }

/-- The number of complex entries `D2sizeTot` allocated for `D2matrix` in `InitDmatrix`. -/
def D2sizeTot (g : MatVecGlobals R) (d : D2Vars) : Nat :=
  d.nnn * g.local_Nz * d.D2sizeY * d.D2sizeX

/-- The function `IndexD2matrix(x,y,z,nnn)` over unbounded integers (for the arguments
`InitDmatrix` passes every intermediate value is non-negative). -/
def IndexD2matrix (g : MatVecGlobals R) (d : D2Vars) (ig : InitGlobals) (x y z : Int)
    (nnn : Int) : Int :=
  let x := if x < 0 then x + (g.gridX : Int) else x
  let y := if y < 0 then y + (d.D2sizeY : Int) else y
  ((z - nnn * (ig.local_z0 : Int)) * (d.D2sizeY : Int) + y) * (g.gridX : Int) + x

/-! ## `sinint.c`: the partial sums of the series as the specification writes them -/

/-- The partial sum of the series of Si up to the power `K`: the sum over the odd `m ≤ K` of
`(-1)^((m-1)/2) * t^m/(m*m!)`. -/
def SiPartial (t : R) (K : Nat) : R :=
  ∑ m in (Finset.range (K + 1)).filter (fun m => m % 2 = 1),
    (-1) ^ ((m - 1) / 2) * t ^ m / ((m : R) * (m.factorial : R))

/-- The partial sum of the series of Ci (without `log(t)+EULER`) up to the power `K`: the sum
over the even `m` with `2 ≤ m ≤ K` of `(-1)^(m/2) * t^m/(m*m!)`. -/
def CiPartial (t : R) (K : Nat) : R :=
  ∑ m in (Finset.range (K + 1)).filter (fun m => m % 2 = 0 ∧ 2 ≤ m),
    (-1) ^ (m / 2) * t ^ m / ((m : R) * (m.factorial : R))

/-! ## `fft.c`: the loops of `InitDmatrix` -/

/-- A call `f(...,a+index)` of a routine that works on the array it is given a pointer to: the
routine sees the entries of `a` from `index` on, and what it leaves is stored back there. -/
def callAt (f : (Nat → Cplx R) → Except (Fatal R) (Nat → Cplx R)) (index : Nat)
    (a : Nat → Cplx R) : Except (Fatal R) (Nat → Cplx R) :=
  (f (fun c => a (index + c))).map fun r n => if index ≤ n then r (n - index) else a n

/-- The statements of `InitDmatrix` from `for (ind=0;ind<Dsize;ind++) Dmatrix[ind]...=0;` to the
end of the loop under `// fill Dmatrix with values of Green's tensor`, acting on `Dmatrix`; the
globals `g` hold the sizes set before (`InitDmatrix_sizes`), `d` the values of
`InitDmatrix_D2`. -/
def fillDmatrix (env : MathEnv R) (cfg : InterConfig R) (g : MatVecGlobals R)
    (ig : InitGlobals) (d : D2Vars) (Dmatrix : Nat → Cplx R) :
    Except (Fatal R) (Nat → Cplx R) :=
  let Dmatrix := forLoop (Dsize g) (fun ind D => Function.update D ind Cplx.zero) Dmatrix
  forIntRangeM ((d.nnn : Int) * (ig.local_z0 : Int)) ((d.nnn : Int) * (ig.local_z1 : Int))
    (fun k D =>
      let kcor := if k > (g.smallZ : Int) then k - (g.gridZ : Int) else k
      forIntRangeM d.jstart (g.boxY : Int) (fun j D =>
        forIntRangeM (1 - (ig.boxX : Int)) (ig.boxX : Int) (fun i D =>
          let index := (NDCOMP : Int) * IndexD2matrix g d ig i j k (d.nnn : Int)
          callAt (CalcInterTerm env cfg i j kcor) index.toNat D) D) D) Dmatrix

/-- The function `IndexGarbledD(x,y,z,lengthN)` over unbounded integers (for the arguments
`InitDmatrix` passes every intermediate value is non-negative). -/
def IndexGarbledD (g : MatVecGlobals R) (d : D2Vars) (x : Nat) (y z : Int) (lengthN : Nat) :
    Int :=
  let y := if y < 0 then y + (d.D2sizeY : Int) else y
  let z := if z < 0 then z + (d.D2sizeZ : Int) else z
  if g.PARALLEL then
    ((z.tmod (lengthN : Int)) * (d.D2sizeY : Int) + y) * (g.gridX : Int) +
      (z.tdiv (lengthN : Int)) * (g.local_Nx : Int) + ((x % g.local_Nx : Nat) : Int)
  else (z * (d.D2sizeY : Int) + y) * (g.gridX : Int) + (x : Int)

/-- The function `IndexSliceD2matrix(y,z)` over unbounded integers. -/
def IndexSliceD2matrix (g : MatVecGlobals R) (y z : Int) : Int :=
  let y := if y < 0 then y + (g.gridY : Int) else y
  let z := if z < 0 then z + (g.gridZ : Int) else z
  y * (g.gridZ : Int) + z

/-- The statements of the loop over `x` in `InitDmatrix` from `// fill slice with 0.0` to the
end of the loop that copies `D2matrix` into `slice`, acting on `slice`. -/
def fillSlice (g : MatVecGlobals R) (d : D2Vars) (x : Nat) (D2matrix slice : Nat → Cplx R) :
    Nat → Cplx R :=
  let slice := forLoop g.gridYZ (fun ind s => Function.update s ind Cplx.zero) slice
  forIntRange d.jstart (g.boxY : Int) (fun j s =>
    forIntRange d.kstart (g.boxZ : Int) (fun k s =>
      let indexfrom := IndexGarbledD g d x j k d.lengthN
      let indexto := IndexSliceD2matrix g j k
      Function.update s indexto.toNat (D2matrix indexfrom.toNat)) s) slice

/-- The block `if (reduced_FFT) { ... }` of the loop over `x` in `InitDmatrix` with the two
mirror loops, acting on `slice`, for the component `Dcomp`. -/
def mirrorSlice (g : MatVecGlobals R) (Dcomp : Nat) (slice : Nat → Cplx R) : Nat → Cplx R :=
  if g.reduced_FFT then
    let slice := forIntRange 1 (g.boxY : Int) (fun j s =>
      forIntRange 0 (g.boxZ : Int) (fun k s =>
        let indexfrom := IndexSliceD2matrix g j k
        let indexto := IndexSliceD2matrix g (-j) k
        Function.update s indexto.toNat (mirrorAlongY Dcomp (s indexfrom.toNat))) s) slice
    forIntRange (1 - (g.boxY : Int)) (g.boxY : Int) (fun j s =>
      forIntRange 1 (g.boxZ : Int) (fun k s =>
        let indexfrom := IndexSliceD2matrix g j k
        let indexto := IndexSliceD2matrix g j (-k)
        Function.update s indexto.toNat (mirrorAlongZ Dcomp (s indexfrom.toNat))) s) slice
  else slice

/-! ## `matvec.c`: the run of `MatVec` on several processes -/

/-- Modelled from the spec: what `BlockTranspose` of `comm.c` (absent from the sources) leaves
in `Xmatrix` of the process that owns the slices from `local_x0` on, the all-to-all exchange
among the processes. `X q` is `Xmatrix` of process `q` when the routine is called. Each of the
three components (`local_Nsmall` entries) is made of rows of `gridX` entries, a row of blocks
of `local_Nx` entries; block `q` of a row is received from process `q`, which sends from the
same row its block for this process (the entries from `local_x0` on). With one process that
owns all slices the array is left as it is. -/
def BlockTransposeExchange (g : MatVecGlobals R) (X : Nat → Nat → Cplx R) : Nat → Cplx R :=
  fun n =>
    let comp := n / g.local_Nsmall
    let row := (n % g.local_Nsmall) / g.gridX
    let col := (n % g.local_Nsmall) % g.gridX
    X (col / g.local_Nx)
      (comp * g.local_Nsmall + row * g.gridX + g.local_x0 + col % g.local_Nx)

/-- The array `Xmatrix` when `MatVec` calls `BlockTranspose` the first time: the statements of
`MatVec` from `// fill Xmatrix with 0.0` to `fftX(FFT_FORWARD)`. -/
def MatVec_Xmatrix1 (g : MatVecGlobals R) (ext : MatVecExtern R) (her : Bool)
    (s : MatVecState R) : Nat → Cplx R :=
  let Xmatrix := forLoop (3 * g.local_Nsmall) (fun i X => Function.update X i Cplx.zero)
    s.Xmatrix
  let argvec := if her then nConj g s.argvec else s.argvec
  let Xmatrix := forLoop g.local_nvoid_Ndip (scatterBody g argvec) Xmatrix
  ext.fftX .FFT_FORWARD Xmatrix

/-- The array `Xmatrix` when `MatVec` calls `BlockTranspose` the second time: the statements of
`MatVec` up to the end of the loop over the slices. -/
def MatVec_Xmatrix2 (g : MatVecGlobals R) (ext : MatVecExtern R) (her : Bool)
    (s : MatVecState R) : Nat → Cplx R :=
  let transposed := (!g.reduced_FFT) && her
  let Xmatrix := ext.BlockTranspose (MatVec_Xmatrix1 g ext her s)
  (forRange g.local_x0 g.local_x1 (sliceBody g ext transposed)
    (Xmatrix, s.slices, s.slices_tr)).1

end Kernel

/-- Sample globals of `MatVec` over `ℚ` in `reduced_FFT` mode: a 4x4x4 grid on one process with
the kernel stored for `y, z ≤ 2`, and the kernel entry at offset `n` equal to `n`. -/
def sampleReducedGlobals : MatVecGlobals ℚ :=
  { sampleGlobals true with
    gridX := 4, gridY := 4, gridZ := 4, gridYZ := 16, smallY := 2, smallZ := 2,
    local_Nsmall := 8, local_x1 := 4, local_Nx := 4, local_Nz := 2,
    DsizeY := 3, DsizeZ := 3, DsizeYZ := 9, reduced_FFT := true,
    Dmatrix := fun n => ⟨(n : ℚ), 0⟩ }

/-- Sample globals of the FFT `MatVec` over `ℚ` for a sequential run with a kernel of zeros:
the two sample dipoles in a 2x2x2 grid with `local_Nsmall = gridX*smallY*local_Nz`. -/
def sampleDenseGlobals : MatVecGlobals ℚ :=
  { sampleGlobals true with local_Nsmall := 2 }

/-- A sample one-dimensional transform over `ℚ`: the transform of length 2, which sends
`(v0, v1)` to `(v0 + v1, v0 - v1)` in both directions. -/
def sampleTransform : Transform1D ℚ := fun _ _ v m =>
  cAdd (v 0) (if m = 0 then v 1 else cInvSign (v 1))

/-- Sample external routines of a sequential run over `ℚ`: the transforms of `fft.c` in the
FFTW3 build with the sample transform, no exchange between processes. -/
def sampleFFTExtern : MatVecExtern ℚ where
  fftX := fftX .FFTW3 sampleDenseGlobals sampleTransform
  fftY := fftY .FFTW3 sampleDenseGlobals sampleTransform
  fftZ := fftZ .FFTW3 sampleDenseGlobals sampleTransform
  BlockTranspose := fun a => a
  MyInnerProduct := fun v => v
  SyncArgvec := fun a => a

/-- Sample globals of `MatVec` over `ℚ` for the first of two processes: a 4x2x2 grid without
`reduced_FFT`, of which this process owns the slices `x = 0, 1`. -/
def sampleParallelGlobals : MatVecGlobals ℚ :=
  { sampleGlobals true with
    PARALLEL := true, gridX := 4, local_x0 := 0, local_x1 := 2, local_Nx := 2 }

/-- Sample globals of `InitDmatrix` over `ℚ` in `reduced_FFT` mode: the 4x4x4 sample grid with a
box of two dipoles along y and along z. -/
def sampleMirrorGlobals : MatVecGlobals ℚ :=
  { sampleReducedGlobals with boxY := 2, boxZ := 2 }

/-- Sample globals of process `p` of a run of `MatVec` on two processes over `ℚ`: a 2x2x4 grid
with `local_Nx = 1` and `local_Nz = 1`, process `p` owning the slice `x = p` and the layer
`z = p`, with the two sample dipoles in its layer and a kernel of zeros. -/
def sampleSplitGlobals (p : Nat) : MatVecGlobals ℚ :=
  { sampleGlobals true with
    PARALLEL := true, gridZ := 4, gridYZ := 8, smallZ := 2, boxZ := 2, local_Nsmall := 2,
    local_x0 := p, local_x1 := p + 1, local_Nx := 1 }

/-- Sample external routines of process `p` of the run on two processes over `ℚ`: the
transforms of `fft.c` in the FFTW3 build with the sample transform, and for `BlockTranspose`
the exchange with processes that hold the same array as this one. -/
def sampleSplitExtern (p : Nat) : MatVecExtern ℚ where
  fftX := fftX .FFTW3 (sampleSplitGlobals p) sampleTransform
  fftY := fftY .FFTW3 (sampleSplitGlobals p) sampleTransform
  fftZ := fftZ .FFTW3 (sampleSplitGlobals p) sampleTransform
  BlockTranspose := fun a => BlockTransposeExchange (sampleSplitGlobals p) (fun _ => a)
  MyInnerProduct := fun v => v
  SyncArgvec := fun a => a

/-! ## Theorems -/

section Theorems

variable {R : Type} [LinearOrderedField R]

/-- For non-negative operands the C remainder is zero exactly when the divisor divides. -/
theorem tmod_eq_zero_iff_dvd {y p : Int} (hy : 0 ≤ y) (hp : 0 ≤ p) : y.tmod p = 0 ↔ p ∣ y := by
  rw [Int.tmod_eq_emod hy hp]
  exact Int.dvd_iff_emod_eq_zero.symm

/-- A result of the divisor-removal loop on a positive number is what is left after a power of `p` is divided out, and is not divisible by `p`. -/
theorem removeDivisorFuel_sound {p : Int} (hp : 1 < p) :
    ∀ (fuel : Nat) (y y' : Int), 0 < y → removeDivisorFuel p fuel y = some y' →
      ∃ k : Nat, y = p ^ k * y' ∧ 0 < y' ∧ ¬ p ∣ y' := by
  intro fuel
  induction fuel with
  | zero => intro y y' _ h; simp [removeDivisorFuel] at h
  | succ fuel ih =>
    intro y y' hy h
    unfold removeDivisorFuel at h
    by_cases hd : y.tmod p = 0
    · rw [if_pos hd] at h
      have hdvd : p ∣ y := (tmod_eq_zero_iff_dvd hy.le (by omega)).1 hd
      rw [Int.tdiv_eq_ediv hy.le (by omega)] at h
      obtain ⟨q, rfl⟩ := hdvd
      have hq : 0 < q := by
        rcases lt_trichotomy q 0 with h0 | h0 | h0
        · nlinarith
        · subst h0; simp at hy
        · exact h0
      rw [Int.mul_ediv_cancel_left q (by omega)] at h
      obtain ⟨k, hk, hpos, hnd⟩ := ih q y' hq h
      exact ⟨k + 1, by rw [hk]; ring, hpos, hnd⟩
    · rw [if_neg hd] at h
      have h' : y = y' := by simpa using h
      subst h'
      exact ⟨0, by simp, hy, fun hdv => hd ((tmod_eq_zero_iff_dvd hy.le (by omega)).2 hdv)⟩

/-- With more fuel than the exponent, the divisor-removal loop strips `p ^ k` from `p ^ k * m` when `p` does not divide `m`. -/
theorem removeDivisorFuel_complete {p : Int} (hp : 1 < p) {m : Int} (hm : 0 < m)
    (hndvd : ¬ p ∣ m) :
    ∀ (k fuel : Nat), k < fuel → removeDivisorFuel p fuel (p ^ k * m) = some m := by
  intro k
  induction k with
  | zero =>
    intro fuel hf
    obtain ⟨f, rfl⟩ : ∃ f, fuel = f + 1 := ⟨fuel - 1, by omega⟩
    unfold removeDivisorFuel
    have : ¬ (p ^ 0 * m).tmod p = 0 := by
      simpa using fun h => hndvd ((tmod_eq_zero_iff_dvd hm.le (by omega)).1 h)
    rw [if_neg this]; simp
  | succ k ih =>
    intro fuel hf
    obtain ⟨f, rfl⟩ : ∃ f, fuel = f + 1 := ⟨fuel - 1, by omega⟩
    unfold removeDivisorFuel
    have hpos : 0 < p ^ (k + 1) * m := by positivity
    have hd : (p ^ (k + 1) * m).tmod p = 0 :=
      (tmod_eq_zero_iff_dvd hpos.le (by omega)).2 ⟨p ^ k * m, by ring⟩
    rw [if_pos hd, Int.tdiv_eq_ediv hpos.le (by omega)]
    have : p ^ (k + 1) * m = p * (p ^ k * m) := by ring
    rw [this, Int.mul_ediv_cancel_left _ (by omega)]
    exact ih f (by omega)

/-- Soundness of `removeDivisor` on positive numbers. -/
theorem removeDivisor_sound {p : Int} (hp : 1 < p) {y y' : Int} (hy : 0 < y)
    (h : removeDivisor p y = some y') : ∃ k : Nat, y = p ^ k * y' ∧ 0 < y' ∧ ¬ p ∣ y' :=
  removeDivisorFuel_sound hp _ y y' hy h

/-- The loop `while (y%p==0) y/=p;` ends on `p ^ k * m` with `m`, when `p` does not divide `m`. -/
theorem removeDivisor_complete {p : Int} (hp : 1 < p) {m : Int} (hm : 0 < m)
    (hndvd : ¬ p ∣ m) (k : Nat) : removeDivisor p (p ^ k * m) = some m := by
  unfold removeDivisor
  apply removeDivisorFuel_complete hp hm hndvd
  have h1 : (2:Int) ^ k ≤ p ^ k := pow_le_pow_left₀ (by norm_num) (by omega) k
  have h2 : (k : Int) < 2 ^ k := by exact_mod_cast Nat.lt_two_pow k
  have h3 : p ^ k * 1 ≤ p ^ k * m := by
    apply mul_le_mul_of_nonneg_left (by omega) (by positivity)
  have h4 : 0 ≤ p ^ k * m := by positivity
  omega

/-- A prime that divides neither `q` nor `m` does not divide `q ^ n * m`. -/
theorem not_dvd_pow_mul {p q m : Int} (hp : Prime p) (hq : ¬ p ∣ q) (hm : ¬ p ∣ m) (n : Nat) :
    ¬ p ∣ q ^ n * m := by
  intro h
  rcases hp.dvd_mul.1 h with h1 | h1
  · exact hq (hp.dvd_of_dvd_pow h1)
  · exact hm h1

/-- The integer 5 is prime. -/
theorem prime_int_five : Prime (5 : Int) := Nat.prime_iff_prime_int.mp (by norm_num)

/-- The integer 7 is prime. -/
theorem prime_int_seven : Prime (7 : Int) := Nat.prime_iff_prime_int.mp (by norm_num)

/-- What the three loops for 2, 3 and 5 leave of a positive number. -/
theorem removeSimpleDivisors_sound {x y : Int} (hx : 0 < x)
    (h : removeSimpleDivisors x = some y) :
    ∃ a b c : Nat, x = 2 ^ a * 3 ^ b * 5 ^ c * y ∧ 0 < y := by
  unfold removeSimpleDivisors at h
  rcases h2 : removeDivisor 2 x with _ | y2
  · simp [h2] at h
  rw [h2, Option.some_bind] at h
  rcases h3 : removeDivisor 3 y2 with _ | y3
  · simp [h3] at h
  rw [h3, Option.some_bind] at h
  obtain ⟨a, ha, hy2, -⟩ := removeDivisor_sound (by norm_num) hx h2
  obtain ⟨b, hb, hy3, -⟩ := removeDivisor_sound (by norm_num) hy2 h3
  obtain ⟨c, hc, hy, -⟩ := removeDivisor_sound (by norm_num) hy3 h
  exact ⟨a, b, c, by rw [ha, hb, hc]; ring, hy⟩

/-- The three loops for 2, 3 and 5 strip exactly the powers of 2, 3 and 5. -/
theorem removeSimpleDivisors_complete (a b c : Nat) {m : Int} (hm : 0 < m)
    (h2 : ¬ (2 : Int) ∣ m) (h3 : ¬ (3 : Int) ∣ m) (h5 : ¬ (5 : Int) ∣ m) :
    removeSimpleDivisors (2 ^ a * 3 ^ b * 5 ^ c * m) = some m := by
  unfold removeSimpleDivisors
  have e1 : (2 : Int) ^ a * 3 ^ b * 5 ^ c * m = 2 ^ a * (3 ^ b * (5 ^ c * m)) := by ring
  have n5 : ¬ (2 : Int) ∣ 5 ^ c * m := not_dvd_pow_mul Int.prime_two (by omega) h2 c
  have n3 : ¬ (2 : Int) ∣ 3 ^ b * (5 ^ c * m) := not_dvd_pow_mul Int.prime_two (by omega) n5 b
  have m5 : ¬ (3 : Int) ∣ 5 ^ c * m := not_dvd_pow_mul Int.prime_three (by omega) h3 c
  rw [e1, removeDivisor_complete (by norm_num) (by positivity) n3 a, Option.some_bind,
    removeDivisor_complete (by norm_num) (by positivity) m5 b, Option.some_bind,
    removeDivisor_complete (by norm_num) hm h5 c]

/-- The statement removing one factor 11 or 13 ends with 1 exactly on 1, 11 and 13. -/
theorem removeOne11or13_eq_one {y : Int} (hy : 0 < y) :
    removeOne11or13 y = 1 ↔ (y = 1 ∨ y = 11 ∨ y = 13) := by
  unfold removeOne11or13
  rw [Int.tmod_eq_emod hy.le (by norm_num), Int.tmod_eq_emod hy.le (by norm_num),
    Int.tdiv_eq_ediv hy.le (by norm_num), Int.tdiv_eq_ediv hy.le (by norm_num)]
  split_ifs <;> omega

/-- If `y` is 1 before the test of `fftFit`, the candidate has the allowed form. -/
theorem fftFitResidue_sound (backend : FFTBackend) {x : Int} (hx : 0 < x)
    (h : fftFitResidue backend x = some 1) : AllowedSize backend x := by
  cases backend with
  | FFT_TEMPERTON =>
    obtain ⟨a, b, c, hx', -⟩ := removeSimpleDivisors_sound hx h
    exact ⟨a, b, c, by rw [hx']; ring⟩
  | FFTW3 =>
    simp only [fftFitResidue] at h
    rcases h1 : removeSimpleDivisors x with _ | y
    · simp [h1] at h
    rw [h1, Option.some_bind] at h
    rcases h7 : removeDivisor 7 y with _ | y7
    · simp [h7] at h
    rw [h7, Option.map_some', Option.some.injEq] at h
    obtain ⟨a, b, c, hx', hy⟩ := removeSimpleDivisors_sound hx h1
    obtain ⟨d, hd, hy7, -⟩ := removeDivisor_sound (by norm_num) hy h7
    exact ⟨a, b, c, d, y7, (removeOne11or13_eq_one hy7).1 h, by rw [hx', hd]; ring⟩

/-- If the candidate has the allowed form, `y` is 1 before the test of `fftFit`. -/
theorem fftFitResidue_complete (backend : FFTBackend) {x : Int} (h : AllowedSize backend x) :
    fftFitResidue backend x = some 1 := by
  cases backend with
  | FFT_TEMPERTON =>
    obtain ⟨a, b, c, rfl⟩ := h
    have := removeSimpleDivisors_complete a b c (m := 1) (by norm_num) (by omega) (by omega)
      (by omega)
    simpa [fftFitResidue] using this
  | FFTW3 =>
    obtain ⟨a, b, c, d, e, he, rfl⟩ := h
    have he0 : 0 < e := by omega
    have e2 : ¬ (2 : Int) ∣ e := by omega
    have e3 : ¬ (3 : Int) ∣ e := by omega
    have e5 : ¬ (5 : Int) ∣ e := by omega
    have e7 : ¬ (7 : Int) ∣ e := by omega
    have r : (2 : Int) ^ a * 3 ^ b * 5 ^ c * 7 ^ d * e = 2 ^ a * 3 ^ b * 5 ^ c * (7 ^ d * e) := by
      ring
    have s := removeSimpleDivisors_complete a b c (m := 7 ^ d * e) (by positivity)
      (not_dvd_pow_mul Int.prime_two (by omega) e2 d)
      (not_dvd_pow_mul Int.prime_three (by omega) e3 d)
      (not_dvd_pow_mul prime_int_five (by omega) e5 d)
    simp only [fftFitResidue]
    rw [r, s, Option.some_bind, removeDivisor_complete (by norm_num) he0 e7 d, Option.map_some',
      (removeOne11or13_eq_one he0).2 he]

/-- On non-negative numbers `IS_EVEN` is divisibility by 2. -/
theorem IS_EVEN_iff {x : Int} (hx : 0 ≤ x) : IS_EVEN x = true ↔ (2 : Int) ∣ x := by
  unfold IS_EVEN
  rw [beq_iff_eq]
  exact tmod_eq_zero_iff_dvd hx (by norm_num)

/-- The loop of `fftFit` started at a positive `x` returns the first candidate from `x` on that is of the allowed form, even and a multiple of `divis`. -/
theorem fftFitLoop_spec (backend : FFTBackend) {divis : Int} (hd : 0 < divis) :
    ∀ (fuel : Nat) (x r : Int), 0 < x → fftFitLoop backend divis fuel x = some r →
      x ≤ r ∧ (AllowedSize backend r ∧ (2 : Int) ∣ r ∧ divis ∣ r) ∧
        ∀ n : Int, x ≤ n → n < r → ¬ (AllowedSize backend n ∧ (2 : Int) ∣ n ∧ divis ∣ n) := by
  intro fuel
  induction fuel with
  | zero => intro x r _ h; simp [fftFitLoop] at h
  | succ fuel ih =>
    intro x r hx h
    unfold fftFitLoop at h
    rcases hres : fftFitResidue backend x with _ | y
    · simp [hres] at h
    rw [hres, Option.some_bind] at h
    have step : fftFitLoop backend divis fuel (x + 1) = some r →
        ¬ (AllowedSize backend x ∧ (2 : Int) ∣ x ∧ divis ∣ x) →
        x ≤ r ∧ (AllowedSize backend r ∧ (2 : Int) ∣ r ∧ divis ∣ r) ∧
          ∀ n : Int, x ≤ n → n < r →
            ¬ (AllowedSize backend n ∧ (2 : Int) ∣ n ∧ divis ∣ n) := by
      intro hloop hfail
      obtain ⟨hle, hfit, hmin⟩ := ih (x + 1) r (by omega) hloop
      refine ⟨by omega, hfit, fun n hn hnr => ?_⟩
      rcases eq_or_lt_of_le hn with heq | hlt
      · subst heq; exact hfail
      · exact hmin n (by omega) hnr
    by_cases htest : y = 1 ∧ IS_EVEN x = true
    · rw [if_pos htest, if_neg (by omega)] at h
      by_cases hdiv : x.tmod divis = 0
      · rw [if_pos hdiv] at h
        have hxr : x = r := by simpa using h
        subst hxr
        refine ⟨le_refl _, ⟨fftFitResidue_sound backend hx (htest.1 ▸ hres),
          (IS_EVEN_iff hx.le).1 htest.2, (tmod_eq_zero_iff_dvd hx.le hd.le).1 hdiv⟩, ?_⟩
        intro n hn hnr; omega
      · rw [if_neg hdiv] at h
        exact step h fun hf => hdiv ((tmod_eq_zero_iff_dvd hx.le hd.le).2 hf.2.2)
    · rw [if_neg htest] at h
      refine step h fun hf => htest ⟨?_, (IS_EVEN_iff hx.le).2 hf.2.1⟩
      have := fftFitResidue_complete backend hf.1
      rw [hres] at this
      simpa using this

/-- C1. With `weird_nprocs` false, whenever `fftFit(x,divis)` returns `r` for `x ≥ 1` and
`divis ≥ 1`, the value `r` is at least `x`, even, a multiple of `divis`, and a product of the
primes allowed for the backend (2, 3, 5; for FFTW3 also powers of 7 and at most one factor 11 or
13). -/
theorem fftFit_result_fits (backend : FFTBackend) (fuel : Nat) (x divis r : Int)
    (hx : 1 ≤ x) (hd : 1 ≤ divis) (h : fftFit backend false fuel x divis = some r) :
    x ≤ r ∧ (2 : Int) ∣ r ∧ divis ∣ r ∧ AllowedSize backend r := by
  have h' : fftFitLoop backend divis fuel x = some r := by simpa [fftFit] using h
  obtain ⟨hle, ⟨ha, h2, hdv⟩, -⟩ := fftFitLoop_spec backend (by omega) fuel x r (by omega) h'
  exact ⟨hle, h2, hdv, ha⟩

/-- Witness for C1: in the FFTW3 build `fftFit(17,4)` returns 20, which is even, a multiple of
4 and of the allowed form. -/
theorem fftFit_result_fits_witness :
    fftFit .FFTW3 false 100 17 4 = some 20 ∧
      ((17 : Int) ≤ 20 ∧ (2 : Int) ∣ 20 ∧ (4 : Int) ∣ 20 ∧ AllowedSize .FFTW3 20) :=
  ⟨by decide, fftFit_result_fits .FFTW3 100 17 4 20 (by decide) (by decide) (by decide)⟩

/-- C2. With `weird_nprocs` false, the value `r` returned by `fftFit(x,divis)` for `x ≥ 1` and
`divis ≥ 1` is minimal: no `n` with `x ≤ n < r` is even, a multiple of `divis` and a product of
the allowed primes. -/
theorem fftFit_result_minimal (backend : FFTBackend) (fuel : Nat) (x divis r : Int)
    (hx : 1 ≤ x) (hd : 1 ≤ divis) (h : fftFit backend false fuel x divis = some r) :
    ∀ n : Int, x ≤ n → n < r → ¬ ((2 : Int) ∣ n ∧ divis ∣ n ∧ AllowedSize backend n) := by
  have h' : fftFitLoop backend divis fuel x = some r := by simpa [fftFit] using h
  obtain ⟨-, -, hmin⟩ := fftFitLoop_spec backend (by omega) fuel x r (by omega) h'
  exact fun n hn hnr hf => hmin n hn hnr ⟨hf.2.2, hf.1, hf.2.1⟩

/-- Witness for C2: in the FFTW3 build `fftFit(17,4)` returns 20, and 18, which lies between
17 and 20, does not fit. -/
theorem fftFit_result_minimal_witness :
    fftFit .FFTW3 false 100 17 4 = some 20 ∧
      ¬ ((2 : Int) ∣ 18 ∧ (4 : Int) ∣ 18 ∧ AllowedSize .FFTW3 18) :=
  ⟨by decide, fftFit_result_minimal .FFTW3 100 17 4 20 (by decide) (by decide) (by decide) 18
    (by decide) (by decide)⟩

/-- For the displacement (0,0,0) `CalcInterTerm` returns from inside the first pass of its loop:
component 0 is set to zero and the other components keep their values. -/
theorem CalcInterTerm_self (env : MathEnv R) (cfg : InterConfig R) (result : Nat → Cplx R) :
    CalcInterTerm env cfg 0 0 0 result = .ok (Function.update result 0 Cplx.zero) := by
  simp [CalcInterTerm, forBreak, NDCOMP]

/-- In point-dipole mode `CalcInterTerm` raises no fatal error. -/
theorem CalcInterTerm_pointDip_ok (env : MathEnv R) (cfg : InterConfig R)
    (h : cfg.IntRelation = .G_POINT_DIP) (i j k : Int) (result : Nat → Cplx R) :
    ∃ r', CalcInterTerm env cfg i j k result = .ok r' := by
  unfold CalcInterTerm
  dsimp only
  split_ifs <;> first | exact ⟨_, rfl⟩ | (simp only [h]; exact ⟨_, rfl⟩)

/-- A loop that rewrites entry `j` of an array in pass `j` rewrites the first `n` entries. -/
theorem forLoop_update_apply {α : Type} (f : Nat → α → α) (n : Nat) (a : Nat → α) (i : Nat) :
    forLoop n (fun j a => Function.update a j (f j (a j))) a i =
      if i < n then f i (a i) else a i := by
  induction n with
  | zero => simp [forLoop]
  | succ n ih =>
    simp only [forLoop, Function.update_apply]
    by_cases h : i = n
    · subst h; simp [ih]
    · rw [if_neg h, ih]
      by_cases h2 : i < n
      · simp [h2, Nat.lt_succ_of_lt h2]
      · have : ¬ i < n + 1 := by omega
        simp [h2, this]

/-- Conjugating twice gives the number back. -/
theorem cConj_cConj (z : Cplx R) : cConj (cConj z) = z := by
  cases z; simp [cConj]

/-- Conjugation keeps the squared modulus. -/
theorem cAbs2_cConj (z : Cplx R) : cAbs2 (cConj z) = cAbs2 z := by
  cases z; simp [cAbs2, cConj]

/-- The entries of a vector after the conjugation loop. -/
theorem conjLoop_apply (n : Nat) (a : Nat → Cplx R) (i : Nat) :
    conjLoop n a i = if i < n then cConj (a i) else a i :=
  forLoop_update_apply (fun _ z => cConj z) n a i

/-- The conjugation loop run twice restores the vector. -/
theorem conjLoop_conjLoop (n : Nat) (a : Nat → Cplx R) : conjLoop n (conjLoop n a) = a := by
  funext i
  rw [conjLoop_apply, conjLoop_apply]
  split_ifs
  · exact cConj_cConj _
  · rfl

/-- The conjugation loop keeps the squared modulus of every entry. -/
theorem cAbs2_conjLoop (n : Nat) (a : Nat → Cplx R) (i : Nat) :
    cAbs2 (conjLoop n a i) = cAbs2 (a i) := by
  rw [conjLoop_apply]
  split_ifs
  · exact cAbs2_cConj _
  · rfl

/-- The loop that conjugates two vectors in the same pass conjugates each of them. -/
theorem conjPairLoop (n : Nat) (a b : Nat → Cplx R) :
    forLoop n (fun i (p : (Nat → Cplx R) × (Nat → Cplx R)) =>
      (Function.update p.1 i (cConj (p.1 i)), Function.update p.2 i (cConj (p.2 i)))) (a, b) =
      (conjLoop n a, conjLoop n b) := by
  induction n with
  | zero => rfl
  | succ n ih => simp only [forLoop, ih, conjLoop]

/-- A mapped run that returns comes from a run that returns. -/
theorem except_map_eq_ok {ε α β : Type} {x : Except ε α} {f : α → β} {b : β}
    (h : x.map f = .ok b) : ∃ a, x = .ok a ∧ f a = b := by
  cases x with
  | error e => simp [Except.map] at h
  | ok a => exact ⟨a, rfl, by simpa [Except.map] using h⟩

/-- A loop whose body never fails returns. -/
theorem forLoopM_ok {σ ε : Type} (body : Nat → σ → Except ε σ)
    (h : ∀ i s, ∃ s', body i s = .ok s') (n : Nat) (s : σ) :
    ∃ s', forLoopM n body s = .ok s' := by
  induction n with
  | zero => exact ⟨s, rfl⟩
  | succ n ih =>
    obtain ⟨s1, h1⟩ := ih
    obtain ⟨s2, h2⟩ := h n s1
    exact ⟨s2, by simp [forLoopM, h1, Except.bind, h2]⟩

/-- The FFT `MatVec` returns when `inprod` is NULL or `ipr_required` is set. -/
theorem MatVec_returns (g : MatVecGlobals R) (ext : MatVecExtern R) (her : Bool)
    (s : MatVecState R) (h : s.inprod = none ∨ g.ipr_required = true) :
    ∃ s', MatVec g ext her s = .ok s' := by
  unfold MatVec
  have hc : ¬ ((s.inprod.isSome && !g.ipr_required) = true) := by
    rcases h with h | h <;> simp [h]
  simp only [hc, if_false]
  exact ⟨_, rfl⟩

/-- The direct pairwise `MatVec` returns when `CalcInterTerm` never fails. -/
theorem MatVecSparse_returns (g : MatVecGlobals R) (ext : MatVecExtern R)
    (interTerm : InterTerm R) (her : Bool) (s : SparseState R)
    (h : ∀ i j k r, ∃ r', interTerm i j k r = .ok r') :
    ∃ s', MatVecSparse g ext interTerm her s = .ok s' := by
  have hA : ∀ a i j p, ∃ p', AijProd g interTerm a i j p = .ok p' := by
    intro a i j p
    unfold AijProd
    obtain ⟨r', hr⟩ := h ((g.position (3 * i) : Int) - (g.position_full (3 * j) : Int))
      ((g.position (3 * i + 1) : Int) - (g.position_full (3 * j + 1) : Int))
      ((g.position (3 * i + 2) : Int) - (g.position_full (3 * j + 2) : Int)) p.2
    simp only [hr, Except.map]
    exact ⟨_, rfl⟩
  have hrow : ∀ a i p, ∃ p', sparseRow g interTerm a i p = .ok p' := by
    intro a i p
    unfold sparseRow
    obtain ⟨p1, h1⟩ := forLoopM_ok (fun j => AijProd g interTerm a i j) (fun j q => hA a i j q)
      (g.local_d0 + i) (Function.update (Function.update (Function.update p.1 (3 * i) Cplx.zero)
        (3 * i + 1) Cplx.zero) (3 * i + 2) Cplx.zero, p.2)
    obtain ⟨p2, h2⟩ := forLoopM_ok (fun n => AijProd g interTerm a i (g.local_d0 + i + 1 + n))
      (fun n q => hA a i _ q) (g.nvoid_Ndip - (g.local_d0 + i + 1)) p1
    exact ⟨p2, by simp only [h1, Except.bind, forRangeM, h2]⟩
  unfold MatVecSparse
  dsimp only
  obtain ⟨rows, hr⟩ := forLoopM_ok _ (hrow (if g.PARALLEL = true then ext.SyncArgvec
      (if her = true then forLoop g.nlocalRows (fun j a => Function.update a j (cConj (a j)))
        s.argvec else s.argvec)
    else (if her = true then forLoop g.nlocalRows (fun j a => Function.update a j (cConj (a j)))
        s.argvec else s.argvec))) g.local_nvoid_Ndip (s.resultvec, s.iterm)
  rw [hr]
  exact ⟨_, rfl⟩

/-- C4. Whenever `MatVec` returns, `argvec` holds what it held before the call, for both values
of `her`: in the FFT build and in the direct pairwise build (for any `CalcInterTerm`). -/
theorem MatVec_argvec_unchanged (g : MatVecGlobals R) (ext : MatVecExtern R)
    (interTerm : InterTerm R) (her : Bool) :
    (∀ s s' : MatVecState R, MatVec g ext her s = .ok s' → s'.argvec = s.argvec) ∧
    (∀ s s' : SparseState R, MatVecSparse g ext interTerm her s = .ok s' →
      s'.argvec = s.argvec) := by
  constructor
  · intro s s' h
    unfold MatVec at h
    by_cases hc : (s.inprod.isSome && !g.ipr_required) = true
    · simp only [hc, if_true] at h
      cases h
    · simp only [hc, if_false] at h
      cases h
      cases her
      · simp
      · simp [nConj, conjLoop_conjLoop]
  · intro s s' h
    unfold MatVecSparse at h
    dsimp only at h
    obtain ⟨rows, -, hs⟩ := except_map_eq_ok h
    subst hs
    cases her
    · simp
    · simp only [if_true]
      rw [conjPairLoop]
      exact conjLoop_conjLoop _ _

/-- Witness for C4: on the sample data with `her` set both builds of `MatVec` return, with
`argvec` as before the call. -/
theorem MatVec_argvec_unchanged_witness :
    (∃ s', MatVec (sampleGlobals true) sampleExtern true (sampleState (some 5)) = .ok s' ∧
      s'.argvec = (sampleState (some 5)).argvec) ∧
    (∃ s', MatVecSparse (sampleGlobals true) sampleExtern
      (CalcInterTerm sampleEnv (sampleInter .G_POINT_DIP)) true
      (sampleSparseState (some 5)) = .ok s' ∧
      s'.argvec = (sampleSparseState (some 5)).argvec) := by
  obtain ⟨s1, h1⟩ := MatVec_returns (sampleGlobals true) sampleExtern true (sampleState (some 5))
    (Or.inr rfl)
  obtain ⟨s2, h2⟩ := MatVecSparse_returns (sampleGlobals true) sampleExtern
    (CalcInterTerm sampleEnv (sampleInter .G_POINT_DIP)) true (sampleSparseState (some 5))
    (CalcInterTerm_pointDip_ok sampleEnv (sampleInter .G_POINT_DIP) rfl)
  exact ⟨⟨s1, h1, (MatVec_argvec_unchanged (sampleGlobals true) sampleExtern
      (CalcInterTerm sampleEnv (sampleInter .G_POINT_DIP)) true).1 _ _ h1⟩,
    ⟨s2, h2, (MatVec_argvec_unchanged (sampleGlobals true) sampleExtern
      (CalcInterTerm sampleEnv (sampleInter .G_POINT_DIP)) true).2 _ _ h2⟩⟩

/-- C6. The FFT `MatVec` ends with the fatal error "Incompatibility error in MatVec" exactly when
`inprod` is not NULL and `ipr_required` is false; it raises no other fatal error, and when the
error is raised the memory (`*inprod`, `Xmatrix`, `argvec`, `resultvec`, the slices, the counter)
is as it was at the call. -/
theorem MatVec_incompatibility (g : MatVecGlobals R) (ext : MatVecExtern R) (her : Bool)
    (s : MatVecState R) :
    (MatVec g ext her s = .error (.matVecIncompatibility, s) ↔
      (s.inprod ≠ none ∧ g.ipr_required = false)) ∧
    (∀ e, MatVec g ext her s = .error e → e = (.matVecIncompatibility, s)) := by
  unfold MatVec
  by_cases h : (s.inprod.isSome && !g.ipr_required) = true
  · rw [if_pos h]
    simp only [Bool.and_eq_true, Bool.not_eq_true'] at h
    refine ⟨⟨fun _ => ⟨Option.isSome_iff_ne_none.1 h.1, h.2⟩, fun _ => rfl⟩, ?_⟩
    intro e he
    cases he; rfl
  · rw [if_neg h]
    simp only [Bool.and_eq_true, Bool.not_eq_true', not_and] at h
    refine ⟨⟨fun hc => (by cases hc), fun hc => ?_⟩, fun e he => (by cases he)⟩
    exact absurd hc.2 (h (Option.isSome_iff_ne_none.2 hc.1))

/-- Witness for C6: on the sample data with `inprod` not NULL and `ipr_required` false the FFT
`MatVec` raises the error with the memory untouched. -/
theorem MatVec_incompatibility_witness :
    MatVec (sampleGlobals false) sampleExtern false (sampleState (some 5)) =
      .error (.matVecIncompatibility, sampleState (some 5)) :=
  (MatVec_incompatibility (sampleGlobals false) sampleExtern false (sampleState (some 5))).1.2
    ⟨by simp [sampleState], rfl⟩

/-- Pass `i` of the loop filling `resultvec` writes only the entries `3i`, `3i+1`, `3i+2`. -/
theorem gatherBody_fst_other (g : MatVecGlobals R) (argvec Xmatrix : Nat → Cplx R) (i : Nat)
    (s : (Nat → Cplx R) × Option R) (idx : Nat) (h : idx < 3 * i ∨ 3 * i + 3 ≤ idx) :
    (gatherBody g argvec Xmatrix i s).1 idx = s.1 idx := by
  have h0 : idx ≠ 3 * i + 0 := by omega
  have h1 : idx ≠ 3 * i + 1 := by omega
  have h2 : idx ≠ 3 * i + 2 := by omega
  simp only [gatherBody, forLoop, Function.update_apply, if_neg h0, if_neg h1, if_neg h2]

/-- Pass `i` of the loop filling `resultvec` adds the squared norm of the three new entries to `*inprod`. -/
theorem gatherBody_snd (g : MatVecGlobals R) (argvec Xmatrix : Nat → Cplx R) (i : Nat)
    (s : (Nat → Cplx R) × Option R) :
    (gatherBody g argvec Xmatrix i s).2 = s.2.map fun v =>
      v + ∑ c in Finset.range 3, cAbs2 ((gatherBody g argvec Xmatrix i s).1 (3 * i + c)) := by
  simp only [gatherBody, cvNorm2, Finset.sum_range_succ, Finset.sum_range_zero, zero_add]

/-- After `n` passes of the loop filling `resultvec`, `*inprod` has grown by the squared norm of the first `n` dipoles of `resultvec`. -/
theorem gather_spec (g : MatVecGlobals R) (argvec Xmatrix : Nat → Cplx R)
    (res0 : Nat → Cplx R) (v0 : R) (n : Nat) :
    (forLoop n (gatherBody g argvec Xmatrix) (res0, some v0)).2 =
      some (v0 + ∑ i in Finset.range n, ∑ c in Finset.range 3,
        cAbs2 ((forLoop n (gatherBody g argvec Xmatrix) (res0, some v0)).1 (3 * i + c))) := by
  induction n with
  | zero => simp [forLoop]
  | succ n ih =>
    simp only [forLoop]
    rw [gatherBody_snd, ih, Option.map_some', Finset.sum_range_succ _ n, add_assoc]
    congr 2
    congr 1
    apply Finset.sum_congr rfl
    intro i hi
    apply Finset.sum_congr rfl
    intro c hc
    rw [gatherBody_fst_other]
    have := Finset.mem_range.1 hi
    have := Finset.mem_range.1 hc
    omega

/-- C5. When `inprod` is not NULL and the reduction `MyInnerProduct` is the identity (a single
process), the value the FFT `MatVec` leaves in `*inprod` is the sum, over the local dipoles and
the three components, of the squared moduli of the `resultvec` it returns, for both values of
`her`. -/
theorem MatVec_inprod_is_norm (g : MatVecGlobals R) (ext : MatVecExtern R) (her : Bool)
    (s s' : MatVecState R) (hid : ∀ v, ext.MyInnerProduct v = v) (hnn : s.inprod ≠ none)
    (h : MatVec g ext her s = .ok s') :
    s'.inprod = some (∑ i in Finset.range g.local_nvoid_Ndip, ∑ c in Finset.range 3,
      cAbs2 (s'.resultvec (3 * i + c))) := by
  obtain ⟨v, hv⟩ := Option.ne_none_iff_exists'.1 hnn
  unfold MatVec at h
  by_cases hc : (s.inprod.isSome && !g.ipr_required) = true
  · simp only [hc, if_true] at h
    cases h
  · simp only [hc, if_false] at h
    cases h
    simp only [hv, Option.map_some']
    rw [gather_spec, Option.map_some', hid, zero_add]
    cases her
    · simp
    · simp only [if_true, nConj, cAbs2_conjLoop]

/-- Witness for C5: on the sample data with `her` set and `inprod` not NULL the FFT `MatVec`
returns and `*inprod` is the squared norm of the returned `resultvec`. -/
theorem MatVec_inprod_is_norm_witness :
    ∃ s', MatVec (sampleGlobals true) sampleExtern true (sampleState (some 5)) = .ok s' ∧
      s'.inprod = some (∑ i in Finset.range 2, ∑ c in Finset.range 3,
        cAbs2 (s'.resultvec (3 * i + c))) := by
  obtain ⟨s', h⟩ := MatVec_returns (sampleGlobals true) sampleExtern true (sampleState (some 5))
    (Or.inr rfl)
  exact ⟨s', h, MatVec_inprod_is_norm (sampleGlobals true) sampleExtern true
    (sampleState (some 5)) s' (fun _ => rfl) (by simp [sampleState]) h⟩

/-- C8. The call `cisi(0)` reports no error and returns `si = 0` and `ci = -BIG` with
`BIG = DBL_MAX*DBL_EPSILON`, from the special case at the start of the function: neither the
continued fraction nor the series is entered. -/
theorem cisi_zero (env : MathEnv R) :
    cisi env 0 = .ok ⟨-(env.DBL_MAX * env.DBL_EPSILON), 0, .special⟩ := by
  simp [cisi, EPS]

/-- C9. For every `x`, `cisi(-x)` fails exactly when `cisi(x)` fails, and otherwise returns the
same `ci` and the negated `si` (from the same branch). -/
theorem cisi_neg (env : MathEnv R) (x : R) :
    (cisi env (-x)).toOption =
      (cisi env x).toOption.map fun r => ({ r with si := -r.si } : CisiResult R) := by
  by_cases hx : x = 0
  · subst hx; simp [cisi, Except.toOption]
  · have hnx : -x ≠ 0 := neg_ne_zero.mpr hx
    unfold cisi
    simp only [abs_neg, if_neg hx, if_neg hnx]
    rcases lt_or_gt_of_ne hx with hlt | hgt
    · have h1 : ¬ (-x < 0) := by simp; exact hlt.le
      simp only [hlt, h1, if_true, if_false]
      split_ifs <;> simp [Except.map, Except.toOption]
    · have h1 : (-x < 0) := by simpa using hgt
      have h2 : ¬ (x < 0) := not_lt.mpr hgt.le
      simp only [h2, h1, if_true, if_false]
      split_ifs <;> simp [Except.map, Except.toOption]

/-- Negating the three entries negates the vector. -/
theorem vec3_neg (a b c : R) : vec3 (-a) (-b) (-c) = fun n => -(vec3 a b c n) := by
  funext n
  rcases n with _ | _ | n <;> rfl

/-- The scalar product is unchanged when both vectors are negated. -/
theorem DotProd_neg (a b : Nat → R) : DotProd (fun n => -a n) (fun n => -b n) = DotProd a b := by
  simp only [DotProd, neg_mul_neg]

/-- Scaling a negated vector negates the scaled vector. -/
theorem MultScal_neg (r : R) (a : Nat → R) :
    MultScal r (fun n => -a n) = fun n => -(MultScal r a n) := by
  funext n
  simp only [MultScal, mul_neg]

/-- The body of the `Gp` loop depends on `qvec` only through products of two entries. -/
theorem gpBody_neg (qvec : Nat → R) (kr kr2 : R) (expval : Cplx R) :
    gpBody (fun n => -qvec n) kr kr2 expval = gpBody qvec kr kr2 expval := by
  funext mu nu comp s
  simp only [gpBody, neg_mul_neg]

/-- C10. In the point-dipole, `G_FCD_ST` and `G_FCD` modes, `CalcInterTerm(-i,-j,-k,result)` and
`CalcInterTerm(i,j,k,result)` have the same outcome for every displacement and every lattice
spacing: the same six components, or the same fatal error of `cisi`. -/
theorem CalcInterTerm_reciprocity (env : MathEnv R) (cfg : InterConfig R) (i j k : Int)
    (result : Nat → Cplx R)
    (hmode : cfg.IntRelation = .G_POINT_DIP ∨ cfg.IntRelation = .G_FCD_ST ∨
      cfg.IntRelation = .G_FCD) :
    CalcInterTerm env cfg (-i) (-j) (-k) result = CalcInterTerm env cfg i j k result := by
  unfold CalcInterTerm
  simp only [neg_eq_zero, Int.cast_neg, neg_mul, vec3_neg, DotProd_neg, MultScal_neg, gpBody_neg]
  rcases hmode with h | h | h <;> simp [h]

/-- Witness for C10: the displacements (-1,-2,-3) and (1,2,3) in mode `G_FCD` on the sample
configuration. -/
theorem CalcInterTerm_reciprocity_witness :
    CalcInterTerm sampleEnv (sampleInter .G_FCD) (-1) (-2) (-3) (fun _ => ⟨1, 1⟩) =
      CalcInterTerm sampleEnv (sampleInter .G_FCD) 1 2 3 (fun _ => ⟨1, 1⟩) :=
  CalcInterTerm_reciprocity sampleEnv (sampleInter .G_FCD) 1 2 3 _ (Or.inr (Or.inr rfl))

/-- The divisor-removal loop ends on every positive number, given fuel that is at least the
number. -/
theorem removeDivisorFuel_total {p : Int} (hp : 1 < p) :
    ∀ (fuel : Nat) (y : Int), 0 < y → y ≤ fuel → ∃ y', removeDivisorFuel p fuel y = some y' := by
  intro fuel
  induction fuel with
  | zero => intro y hy hle; omega
  | succ fuel ih =>
    intro y hy hle
    unfold removeDivisorFuel
    by_cases hd : y.tmod p = 0
    · rw [if_pos hd]
      have hdvd : p ∣ y := (tmod_eq_zero_iff_dvd hy.le (by omega)).1 hd
      rw [Int.tdiv_eq_ediv hy.le (by omega)]
      obtain ⟨q, rfl⟩ := hdvd
      have hq : 0 < q := by
        rcases lt_trichotomy q 0 with h0 | h0 | h0
        · nlinarith
        · subst h0; simp at hy
        · exact h0
      rw [Int.mul_ediv_cancel_left q (by omega)]
      apply ih q hq
      have : 2 * q ≤ p * q := by nlinarith
      push_cast at hle
      omega
    · rw [if_neg hd]
      exact ⟨y, rfl⟩

/-- The loop `while (y%p==0) y/=p;` ends on every positive number. -/
theorem removeDivisor_total {p : Int} (hp : 1 < p) {y : Int} (hy : 0 < y) :
    ∃ y', removeDivisor p y = some y' :=
  removeDivisorFuel_total hp _ y hy (by omega)

/-- What the three loops for 2, 3 and 5 leave of a positive number is positive and divisible by
none of 2, 3 and 5. -/
theorem removeSimpleDivisors_spec {x : Int} (hx : 0 < x) :
    ∃ y, removeSimpleDivisors x = some y ∧ 0 < y ∧ ¬ (2 : Int) ∣ y ∧ ¬ (3 : Int) ∣ y ∧
      ¬ (5 : Int) ∣ y ∧ ∃ a b c : Nat, x = 2 ^ a * 3 ^ b * 5 ^ c * y := by
  obtain ⟨y2, h2⟩ := removeDivisor_total (p := 2) (by norm_num) hx
  obtain ⟨a, ha, hy2, n2⟩ := removeDivisor_sound (by norm_num) hx h2
  obtain ⟨y3, h3⟩ := removeDivisor_total (p := 3) (by norm_num) hy2
  obtain ⟨b, hb, hy3, n3⟩ := removeDivisor_sound (by norm_num) hy2 h3
  obtain ⟨y5, h5⟩ := removeDivisor_total (p := 5) (by norm_num) hy3
  obtain ⟨c, hc, hy5, n5⟩ := removeDivisor_sound (by norm_num) hy3 h5
  refine ⟨y5, by simp [removeSimpleDivisors, h2, h3, h5], hy5, ?_, ?_, n5,
    a, b, c, by rw [ha, hb, hc]; ring⟩
  · intro h
    apply n2
    rw [hb, hc]
    exact Dvd.dvd.mul_left (Dvd.dvd.mul_left h _) _
  · intro h
    apply n3
    rw [hc]
    exact Dvd.dvd.mul_left h _

/-- The value `CheckNprocs` tests in the FFTW3 build is the value `fftFit` tests. -/
theorem CheckNprocs_fftw3 (nprocs : Int) :
    CheckNprocs .FFTW3 nprocs = (fftFitResidue .FFTW3 nprocs).map fun y =>
      if y ≠ 1 then NprocsCheck.done true true else NprocsCheck.done false false := by
  unfold CheckNprocs fftFitResidue
  cases removeSimpleDivisors nprocs with
  | none => rfl
  | some y =>
    simp only [Option.some_bind]
    cases removeDivisor 7 y <;> rfl

/-- The residue of a positive number in the FFTW3 build exists. -/
theorem fftFitResidue_fftw3_total {x : Int} (hx : 0 < x) :
    ∃ y, fftFitResidue .FFTW3 x = some y := by
  obtain ⟨y, hy, hpos, -⟩ := removeSimpleDivisors_spec hx
  obtain ⟨y7, h7⟩ := removeDivisor_total (p := 7) (by norm_num) hpos
  exact ⟨removeOne11or13 y7, by simp [fftFitResidue, hy, h7]⟩

/-- A positive integer with no factor 2, 3, 5 is 1 or has a prime divisor above 5. -/
theorem exists_large_prime {y : Int} (hy : 0 < y) (h1 : y ≠ 1) (n2 : ¬ (2 : Int) ∣ y)
    (n3 : ¬ (3 : Int) ∣ y) (n5 : ¬ (5 : Int) ∣ y) :
    ∃ p : Nat, p.Prime ∧ 5 < p ∧ (p : Int) ∣ y := by
  obtain ⟨m, rfl⟩ : ∃ m : Nat, y = m := ⟨y.toNat, by omega⟩
  have hm : m ≠ 1 := by intro h; apply h1; simp [h]
  obtain ⟨p, hp, hpm⟩ := Nat.exists_prime_and_dvd hm
  have hdv : (p : Int) ∣ (m : Int) := Int.natCast_dvd_natCast.2 hpm
  refine ⟨p, hp, ?_, hdv⟩
  have h2 := hp.two_le
  by_contra hle
  have hcases : p = 2 ∨ p = 3 ∨ p = 4 ∨ p = 5 := by omega
  rcases hcases with h | h | h | h
  · subst h; exact n2 (by exact_mod_cast hdv)
  · subst h; exact n3 (by exact_mod_cast hdv)
  · subst h; exact absurd hp (by norm_num)
  · subst h; exact n5 (by exact_mod_cast hdv)

/-- A prime divisor of a product of powers of 2, 3 and 5 is at most 5. -/
theorem prime_dvd_smooth {p : Nat} (hp : p.Prime) (a b c : Nat)
    (h : (p : Int) ∣ 2 ^ a * 3 ^ b * 5 ^ c) : p ≤ 5 := by
  have hp' : Prime (p : Int) := Nat.prime_iff_prime_int.mp hp
  have key : ∀ q : Nat, (p : Int) ∣ (q : Int) → q ≠ 0 → p ≤ q := fun q hq hq0 =>
    Nat.le_of_dvd (Nat.pos_of_ne_zero hq0) (Int.natCast_dvd_natCast.1 hq)
  rcases hp'.dvd_mul.1 h with h1 | h1
  · rcases hp'.dvd_mul.1 h1 with h2 | h2
    · have := key 2 (by exact_mod_cast hp'.dvd_of_dvd_pow h2) (by norm_num); omega
    · have := key 3 (by exact_mod_cast hp'.dvd_of_dvd_pow h2) (by norm_num); omega
  · exact key 5 (by exact_mod_cast hp'.dvd_of_dvd_pow h1) (by norm_num)

/-- C16. For `nprocs ≥ 1`, `CheckNprocs` returns in the FFTW3 build: with `weird_nprocs` true and
the warning logged when `nprocs` is not of the form `2^a*3^b*5^c*7^d*e` with `e` in {1, 11, 13},
and with `weird_nprocs` false and no warning when it is. In the Temperton build it ends with the
fatal error when `nprocs` has a prime divisor larger than 5, and returns with `weird_nprocs`
false otherwise. -/
theorem CheckNprocs_classifies (nprocs : Int) (h : 1 ≤ nprocs) :
    (¬ AllowedSize .FFTW3 nprocs → CheckNprocs .FFTW3 nprocs = some (.done true true)) ∧
    (AllowedSize .FFTW3 nprocs → CheckNprocs .FFTW3 nprocs = some (.done false false)) ∧
    ((∃ p : Nat, p.Prime ∧ 5 < p ∧ (p : Int) ∣ nprocs) →
      CheckNprocs .FFT_TEMPERTON nprocs = some .fatal) ∧
    ((¬ ∃ p : Nat, p.Prime ∧ 5 < p ∧ (p : Int) ∣ nprocs) →
      CheckNprocs .FFT_TEMPERTON nprocs = some (.done false false)) := by
  have hpos : 0 < nprocs := by omega
  obtain ⟨r, hr⟩ := fftFitResidue_fftw3_total hpos
  obtain ⟨y, hy, ypos, n2, n3, n5, a, b, c, hn⟩ := removeSimpleDivisors_spec hpos
  have hT : CheckNprocs .FFT_TEMPERTON nprocs =
      some (if y ≠ 1 then NprocsCheck.fatal else NprocsCheck.done false false) := by
    simp [CheckNprocs, hy]
  refine ⟨fun hna => ?_, fun ha => ?_, fun hp => ?_, fun hnp => ?_⟩
  · rw [CheckNprocs_fftw3, hr, Option.map_some']
    have : r ≠ 1 := fun h1 => hna (fftFitResidue_sound .FFTW3 hpos (h1 ▸ hr))
    rw [if_pos this]
  · rw [CheckNprocs_fftw3, fftFitResidue_complete .FFTW3 ha, Option.map_some']
    simp
  · rw [hT]
    have : y ≠ 1 := by
      rintro rfl
      obtain ⟨p, hp1, hp2, hp3⟩ := hp
      rw [hn, mul_one] at hp3
      have := prime_dvd_smooth hp1 a b c hp3
      omega
    rw [if_pos this]
  · rw [hT]
    have : y = 1 := by
      by_contra h1
      obtain ⟨p, hp1, hp2, hp3⟩ := exists_large_prime ypos h1 n2 n3 n5
      exact hnp ⟨p, hp1, hp2, hn ▸ Dvd.dvd.mul_left hp3 _⟩
    simp [this]

/-- Witness for C16: 34 is not of the allowed form and has the prime divisor 17, so the FFTW3
build warns and sets `weird_nprocs` and the Temperton build ends with the fatal error. -/
theorem CheckNprocs_classifies_witness :
    CheckNprocs .FFTW3 34 = some (.done true true) ∧
      CheckNprocs .FFT_TEMPERTON 34 = some .fatal ∧
      CheckNprocs .FFTW3 44 = some (.done false false) ∧
      CheckNprocs .FFT_TEMPERTON 60 = some (.done false false) :=
  ⟨by decide, by decide, ((CheckNprocs_classifies 44 (by decide)).2.1
    ⟨2, 0, 0, 0, 11, Or.inr (Or.inl rfl), by norm_num⟩), by decide⟩

/-- With `weird_nprocs` set, `fftFit` returns `d * ((x + d - 1) / d)` for the divisor `d` that is
`divis`, doubled when `divis` is odd; `d` is the least common multiple of 2 and `divis`. -/
theorem fftFit_weird_eq (backend : FFTBackend) (fuel : Nat) (x divis : Int) (hx : 1 ≤ x)
    (hd : 1 ≤ divis) :
    ∃ d : Int, 0 < d ∧ (2 : Int) ∣ d ∧ divis ∣ d ∧
      (∀ n : Int, (2 : Int) ∣ n → divis ∣ n → d ∣ n) ∧
      fftFit backend true fuel x divis = some (d * ((x + d - 1) / d)) := by
  by_cases he : IS_EVEN divis = true
  · refine ⟨divis, by omega, (IS_EVEN_iff (by omega)).1 he, dvd_refl _, fun n _ h => h, ?_⟩
    have h0 : divis ≠ 0 := by omega
    simp only [fftFit, he, if_true, Bool.not_true, Bool.false_eq_true, if_false, if_neg h0]
    rw [Int.tdiv_eq_ediv (by omega) (by omega)]
  · have hodd : ¬ (2 : Int) ∣ divis := fun h => he ((IS_EVEN_iff (by omega)).2 h)
    have hcop : IsCoprime (2 : Int) divis := by
      obtain ⟨k, hk⟩ : ∃ k, divis = 2 * k + 1 := ⟨divis / 2, by omega⟩
      exact ⟨-k, 1, by rw [hk]; ring⟩
    refine ⟨divis * 2, by omega, Dvd.intro_left _ rfl, Dvd.intro _ rfl,
      fun n h2 hdv => ?_, ?_⟩
    · rw [mul_comm]
      exact hcop.mul_dvd h2 hdv
    · have h0 : divis * 2 ≠ 0 := by omega
      have he' : IS_EVEN divis = false := by simpa using he
      simp only [fftFit, he', if_true, Bool.not_false, if_neg h0]
      rw [Int.tdiv_eq_ediv (by omega) (by omega)]

/-- The smallest multiple of a positive `d` from `x` on is `d * ((x + d - 1) / d)`. -/
theorem ceil_multiple {d : Int} (hd : 0 < d) (x : Int) :
    x ≤ d * ((x + d - 1) / d) ∧ ∀ n : Int, x ≤ n → d ∣ n → d * ((x + d - 1) / d) ≤ n := by
  have h1 := Int.ediv_add_emod (x + d - 1) d
  have h2 := Int.emod_nonneg (x + d - 1) hd.ne'
  have h3 := Int.emod_lt_of_pos (x + d - 1) hd
  refine ⟨by omega, fun n hn hdv => ?_⟩
  obtain ⟨m, rfl⟩ := hdv
  have : (x + d - 1) / d < m + 1 := by
    by_contra hc
    have h5 : d * (m + 1) ≤ d * ((x + d - 1) / d) := Int.mul_le_mul_of_nonneg_left (by omega) hd.le
    have h6 : d * (m + 1) = d * m + d := by ring
    omega
  exact Int.mul_le_mul_of_nonneg_left (by omega) hd.le

/-- C17. With `weird_nprocs` true, `fftFit(x,divis)` returns for every `x ≥ 1` and `divis ≥ 1`
(no fuel is needed), and the value is the smallest integer from `x` on that is divisible by 2
and by `divis`. -/
theorem fftFit_weird_least (backend : FFTBackend) (fuel : Nat) (x divis : Int) (hx : 1 ≤ x)
    (hd : 1 ≤ divis) :
    ∃ r : Int, fftFit backend true fuel x divis = some r ∧ x ≤ r ∧ (2 : Int) ∣ r ∧ divis ∣ r ∧
      ∀ n : Int, x ≤ n → (2 : Int) ∣ n → divis ∣ n → r ≤ n := by
  obtain ⟨d, hpos, h2, hdv, hlcm, heq⟩ := fftFit_weird_eq backend fuel x divis hx hd
  obtain ⟨hle, hmin⟩ := ceil_multiple hpos x
  exact ⟨_, heq, hle, Dvd.dvd.mul_right h2 _, Dvd.dvd.mul_right hdv _,
    fun n hn hn2 hnd => hmin n hn (hlcm n hn2 hnd)⟩

/-- Witness for C17: with `weird_nprocs` true `fftFit(30,17)` returns 34, the first even multiple
of 17 from 30 on. -/
theorem fftFit_weird_least_witness :
    fftFit .FFTW3 true 0 30 17 = some 34 ∧
      ∃ r : Int, fftFit .FFTW3 true 0 30 17 = some r ∧ (30 : Int) ≤ r ∧ (2 : Int) ∣ r ∧
        (17 : Int) ∣ r ∧ ∀ n : Int, 30 ≤ n → (2 : Int) ∣ n → (17 : Int) ∣ n → r ≤ n :=
  ⟨by decide, fftFit_weird_least .FFTW3 0 30 17 (by decide) (by decide)⟩

/-- C15 (counterexample). With `weird_nprocs` true, `fftFit(1,17)` returns 34 in the FFTW3
build, and 34 = 2*17 is not a product of the allowed primes. -/
theorem fftFit_weird_not_allowed :
    fftFit .FFTW3 true 0 1 17 = some 34 ∧ ¬ AllowedSize .FFTW3 34 := by
  refine ⟨by decide, fun h => ?_⟩
  have h1 := fftFitResidue_complete .FFTW3 h
  have h2 : fftFitResidue .FFTW3 34 = some 17 := by decide
  rw [h2] at h1
  exact absurd h1 (by decide)

/-- C15 (amended). For `x ≥ 1` and `divis ≥ 1` and either value of `weird_nprocs`, a value
returned by `fftFit` is even and a multiple of `divis`; it is a product of the allowed primes
when `weird_nprocs` is false. -/
theorem fftFit_result_even_multiple (backend : FFTBackend) (weird_nprocs : Bool) (fuel : Nat)
    (x divis r : Int) (hx : 1 ≤ x) (hd : 1 ≤ divis)
    (h : fftFit backend weird_nprocs fuel x divis = some r) :
    (2 : Int) ∣ r ∧ divis ∣ r ∧ (weird_nprocs = false → AllowedSize backend r) := by
  cases weird_nprocs with
  | true =>
    obtain ⟨d, -, h2, hdv, -, heq⟩ := fftFit_weird_eq backend fuel x divis hx hd
    rw [heq] at h
    have hr : d * ((x + d - 1) / d) = r := by simpa using h
    subst hr
    exact ⟨Dvd.dvd.mul_right h2 _, Dvd.dvd.mul_right hdv _, fun hc => by cases hc⟩
  | false =>
    have h' : fftFitLoop backend divis fuel x = some r := by simpa [fftFit] using h
    obtain ⟨-, ⟨ha, h2, hdv⟩, -⟩ := fftFitLoop_spec backend (by omega) fuel x r (by omega) h'
    exact ⟨h2, hdv, fun _ => ha⟩

/-- Witness for C15 (amended): `fftFit(1,17)` with `weird_nprocs` true returns 34, even and a
multiple of 17. -/
theorem fftFit_result_even_multiple_witness :
    fftFit .FFTW3 true 0 1 17 = some 34 ∧ (2 : Int) ∣ 34 ∧ (17 : Int) ∣ 34 ∧
      (true = false → AllowedSize .FFTW3 34) :=
  ⟨by decide, fftFit_result_even_multiple .FFTW3 true 0 1 17 34 (by decide) (by decide)
    (by decide)⟩

/-- Negating a complex number is multiplying it by -1. -/
theorem cInvSign_eq (a : Cplx R) : cInvSign a = cMultReal (-1) a := by
  simp [cInvSign, cMultReal]

/-- Multiplying a complex number by 1 leaves it as it is. -/
theorem cMultReal_one (a : Cplx R) : cMultReal 1 a = a := by
  simp [cMultReal]

/-- C20. The FFT `MatVec` looks the kernel up with `transposed` set exactly when `her` is set
and `reduced_FFT` is not. In non-reduced mode (`DsizeY = gridY`, `DsizeZ = gridZ`), for
`x < gridX`, `y < gridY`, `z < gridZ`, the transposed lookup is the plain lookup at the negated
index `((gridX-x) mod gridX, (gridY-y) mod gridY, (gridZ-z) mod gridZ)`, and negating the index
twice gives it back. -/
theorem IndexDmatrix_mv_transposed (g : MatVecGlobals R) (her : Bool) (x y z : Nat)
    (hDY : g.DsizeY = g.gridY) (hDZ : g.DsizeZ = g.gridZ)
    (hx : x < g.gridX) (hy : y < g.gridY) (hz : z < g.gridZ) :
    IndexDmatrix_mv g x y z ((!g.reduced_FFT) && her) =
        IndexDmatrix_mv g x y z (decide (her = true ∧ g.reduced_FFT = false)) ∧
    IndexDmatrix_mv g x y z true =
        IndexDmatrix_mv g ((g.gridX - x) % g.gridX) ((g.gridY - y) % g.gridY)
          ((g.gridZ - z) % g.gridZ) false ∧
    (g.gridX - (g.gridX - x) % g.gridX) % g.gridX = x ∧
    (g.gridY - (g.gridY - y) % g.gridY) % g.gridY = y ∧
    (g.gridZ - (g.gridZ - z) % g.gridZ) % g.gridZ = z := by
  have neg : ∀ n a : Nat, a < n → (n - a) % n = if a > 0 then n - a else a := by
    intro n a ha
    by_cases h0 : a > 0
    · rw [if_pos h0, Nat.mod_eq_of_lt (by omega)]
    · have : a = 0 := by omega
      subst this
      simp
  have inv : ∀ n a : Nat, a < n → (n - (n - a) % n) % n = a := by
    intro n a ha
    rw [neg n a ha]
    by_cases h0 : a > 0
    · rw [if_pos h0, Nat.mod_eq_of_lt (by omega)]; omega
    · have : a = 0 := by omega
      subst this
      simp
  refine ⟨?_, ?_, inv _ _ hx, inv _ _ hy, inv _ _ hz⟩
  · cases her <;> cases g.reduced_FFT <;> rfl
  · have hy' : ¬ (if y > 0 then g.gridY - y else y) ≥ g.gridY := by split_ifs <;> omega
    have hz' : ¬ (if z > 0 then g.gridZ - z else z) ≥ g.gridZ := by split_ifs <;> omega
    simp only [IndexDmatrix_mv, if_true, Bool.false_eq_true, if_false, hDY, hDZ, hy', hz',
      neg _ _ hx, neg _ _ hy, neg _ _ hz]

/-- Witness for C20: the transposed lookup at (1,1,0) on the sample 2x2x2 grid. -/
theorem IndexDmatrix_mv_transposed_witness :
    IndexDmatrix_mv (sampleGlobals true) 1 1 0 true =
      IndexDmatrix_mv (sampleGlobals true) ((2 - 1) % 2) ((2 - 1) % 2) ((2 - 0) % 2) false :=
  (IndexDmatrix_mv_transposed (sampleGlobals true) true 1 1 0 rfl rfl (by decide) (by decide)
    (by decide)).2.1

theorem forLoop_ptr {P A : Type} [AddCommMonoid P] (c : P) (G : Nat → P × A → A) (p : P) (d : A)
    (n : Nat) :
    forLoop n (fun k (s : P × A) => (s.1 + c, G k s)) (p, d) =
      (p + n • c, forLoop n (fun k d => G k (p + k • c, d)) d) := by
  induction n with
  | zero => simp [forLoop]
  | succ m ih => simp [forLoop, ih, succ_nsmul, add_assoc]

theorem forLoop_ptr2 {P Q A : Type} [AddCommMonoid P] [AddCommMonoid Q] (c : P) (e : Q)
    (G : Nat → P × Q × A → A) (p : P) (q : Q) (d : A) (n : Nat) :
    forLoop n (fun k (s : P × Q × A) => (s.1 + c, s.2.1 + e, G k s)) (p, q, d) =
      (p + n • c, q + n • e, forLoop n (fun k d => G k (p + k • c, q + k • e, d)) d) := by
  induction n with
  | zero => simp [forLoop]
  | succ m ih => simp [forLoop, ih, succ_nsmul, add_assoc]

/-- A loop of array transformers, each of which stores the value `v idx` at the indices `idx`
of its set `A k` and keeps the others, stores `v idx` at the indices of the union of the sets
and keeps the others. -/
theorem forLoop_writes {α : Type} (v : Nat → α) (n : Nat) (g : Nat → (Nat → α) → (Nat → α))
    (A : Nat → Nat → Prop)
    (h : ∀ k, k < n → ∀ d idx, (A k idx → g k d idx = v idx) ∧ (¬ A k idx → g k d idx = d idx)) :
    ∀ d idx, ((∃ k, k < n ∧ A k idx) → forLoop n g d idx = v idx) ∧
      ((¬ ∃ k, k < n ∧ A k idx) → forLoop n g d idx = d idx) := by
  induction n with
  | zero =>
    intro d idx
    exact ⟨fun ⟨k, hk, _⟩ => absurd hk (Nat.not_lt_zero k), fun _ => rfl⟩
  | succ m ih =>
    intro d idx
    have ih' := ih (fun k hk => h k (Nat.lt_succ_of_lt hk)) d idx
    have hm := h m (Nat.lt_succ_self m) (forLoop m g d) idx
    show (_ → g m (forLoop m g d) idx = v idx) ∧ (_ → g m (forLoop m g d) idx = d idx)
    by_cases hA : A m idx
    · exact ⟨fun _ => hm.1 hA, fun hn => absurd ⟨m, Nat.lt_succ_self m, hA⟩ hn⟩
    · rw [hm.2 hA]
      constructor
      · rintro ⟨k, hk, hkA⟩
        rcases Nat.lt_succ_iff_lt_or_eq.mp hk with hk' | rfl
        · exact ih'.1 ⟨k, hk', hkA⟩
        · exact absurd hkA hA
      · intro hn
        exact ih'.2 (fun ⟨k, hk, hkA⟩ => hn ⟨k, Nat.lt_succ_of_lt hk, hkA⟩)

/-- The blocks of `transposeBlocks` cover the rows `0 .. Y-1` once: the pairs `(i, y)` with
`i ≤ Y / B` and `y` below the height of block `i` are the rows `i * B + y`. -/
theorem block_cover (B Y : Nat) (hB : 0 < B) (r : Nat) :
    (∃ i, i < Y / B + 1 ∧ ∃ y, y < (if i = Y / B then Y % B else B) ∧ r = i * B + y) ↔ r < Y := by
  constructor
  · rintro ⟨i, hi, y, hy, rfl⟩
    have hdm := Nat.div_add_mod Y B
    split_ifs at hy with h
    · subst h
      nlinarith [Nat.div_add_mod Y B, Nat.mul_comm B (Y / B)]
    · have hi' : i + 1 ≤ Y / B := by omega
      have := Nat.mul_le_mul_right B hi'
      nlinarith [Nat.div_add_mod Y B, Nat.mul_comm B (Y / B), Nat.zero_le (Y % B)]
  · intro hr
    refine ⟨r / B, Nat.lt_succ_of_le (Nat.div_le_div_right hr.le), r % B, ?_, ?_⟩
    · split_ifs with h
      · have h1 := Nat.div_add_mod Y B
        have h2 := Nat.div_add_mod r B
        rw [h] at h2
        omega
      · exact Nat.mod_lt _ hB
    · have := Nat.div_add_mod r B
      rw [Nat.mul_comm] at this
      omega

/-- The array left by `transposeBlocks`, index by index: the entry `T + z * Y + y` of the
target (for `y < Y` and `z < Z`) holds the entry `W + y * Z + z` of the source, the other
entries are kept. -/
theorem transposeBlocks_spec {α : Type} (B Y Z : Nat) (hB : 0 < B) (src : Nat → α) (W T : Nat)
    (dst : Nat → α) :
    (∀ y z, y < Y → z < Z →
      transposeBlocks B Y Z src W (-(Y : Int) + (T : Int)) dst (T + z * Y + y) =
        src (W + y * Z + z)) ∧
    (∀ idx, (idx < T ∨ T + Y * Z ≤ idx) →
      transposeBlocks B Y Z src W (-(Y : Int) + (T : Int)) dst idx = dst idx) := by
  have key : ∀ idx,
      ((∃ i, i < Y / B + 1 ∧ ∃ j, j < Z / B + 1 ∧
        ∃ y, y < (if i = Y / B then Y % B else B) ∧
        ∃ z, z < (if j = Z / B then Z % B else B) ∧
          idx = T + (j * B + z) * Y + (i * B + y)) →
        transposeBlocks B Y Z src W (-(Y : Int) + (T : Int)) dst idx =
          src (W + ((idx - T) % Y) * Z + (idx - T) / Y)) ∧
      ((¬ ∃ i, i < Y / B + 1 ∧ ∃ j, j < Z / B + 1 ∧
        ∃ y, y < (if i = Y / B then Y % B else B) ∧
        ∃ z, z < (if j = Z / B then Z % B else B) ∧
          idx = T + (j * B + z) * Y + (i * B + y)) →
        transposeBlocks B Y Z src W (-(Y : Int) + (T : Int)) dst idx = dst idx) := by
    unfold transposeBlocks
    simp only [forLoop_ptr2, forLoop_ptr]
    refine forLoop_writes _ _ _ _ (fun i hi => ?_) dst
    refine forLoop_writes _ _ _ _ (fun j hj => ?_)
    refine forLoop_writes _ _ _ _ (fun y hy => ?_)
    refine forLoop_writes _ _ _ _ (fun z hz => ?_)
    intro d idx
    have hrow : i * B + y < Y := (block_cover B Y hB _).1 ⟨i, hi, y, hy, rfl⟩
    have haddr : (-(Y : Int) + (T : Int) + i • (B : Int) + j • ((B * Y : Nat) : Int) + (y : Int)
        + z • (Y : Int) + (Y : Int)) = ((T + (j * B + z) * Y + (i * B + y) : Nat) : Int) := by
      push_cast
      simp only [smul_eq_mul, nsmul_eq_mul]
      ring
    rw [haddr]
    have hst : ∀ (a : Nat) (x : α), storeAt d (a : Int) x = Function.update d a x := by
      intro a x
      simp [storeAt]
    rw [hst]
    constructor
    · intro h
      rw [h, Function.update_same]
      have e1 : T + (j * B + z) * Y + (i * B + y) - T = (i * B + y) + Y * (j * B + z) := by
        rw [Nat.mul_comm Y]; omega
      rw [e1, Nat.add_mul_mod_self_left, Nat.mod_eq_of_lt hrow, Nat.add_mul_div_left _ _
        (by omega : 0 < Y), Nat.div_eq_of_lt hrow]
      congr 1
      simp only [smul_eq_mul]
      ring
    · intro h
      exact Function.update_noteq h _ _
  constructor
  · intro y z hy hz
    obtain ⟨i, hi, y', hy', hyeq⟩ := (block_cover B Y hB y).2 hy
    obtain ⟨j, hj, z', hz', hzeq⟩ := (block_cover B Z hB z).2 hz
    rw [((key (T + z * Y + y)).1 ⟨i, hi, j, hj, y', hy', z', hz', by rw [hyeq, hzeq]⟩)]
    have e1 : T + z * Y + y - T = y + Y * z := by rw [Nat.mul_comm Y]; omega
    rw [e1, Nat.add_mul_mod_self_left, Nat.mod_eq_of_lt hy, Nat.add_mul_div_left _ _
      (by omega : 0 < Y), Nat.div_eq_of_lt hy]
    simp
  · intro idx hidx
    refine (key idx).2 ?_
    rintro ⟨i, hi, j, hj, y, hy, z, hz, rfl⟩
    have hrow : i * B + y < Y := (block_cover B Y hB _).1 ⟨i, hi, y, hy, rfl⟩
    have hcol : j * B + z < Z := (block_cover B Z hB _).1 ⟨j, hj, z, hz, rfl⟩
    rcases hidx with h | h
    · omega
    · have : (j * B + z + 1) * Y ≤ Z * Y := Nat.mul_le_mul_right Y hcol
      nlinarith


/-- Every index below `3 * (Y * Z)` is `c * (Y * Z) + y * Z + z` for a component `c < 3`, a row
`y < Y` and a column `z < Z`. -/
theorem index_decompose (Y Z idx : Nat) (h : idx < 3 * (Y * Z)) :
    ∃ c y z, c < 3 ∧ y < Y ∧ z < Z ∧ idx = c * (Y * Z) + y * Z + z := by
  have hN : 0 < Y * Z := by
    rcases Nat.eq_zero_or_pos (Y * Z) with h0 | h0
    · rw [h0] at h; omega
    · exact h0
  have hZ : 0 < Z := Nat.pos_of_mul_pos_left hN
  refine ⟨idx / (Y * Z), idx % (Y * Z) / Z, idx % (Y * Z) % Z, ?_, ?_, Nat.mod_lt _ hZ, ?_⟩
  · exact (Nat.div_lt_iff_lt_mul hN).2 h
  · exact (Nat.div_lt_iff_lt_mul hZ).2 (Nat.mod_lt _ hN)
  · have h1 := Nat.div_add_mod idx (Y * Z)
    have h2 := Nat.div_add_mod (idx % (Y * Z)) Z
    rw [Nat.mul_comm] at h1 h2
    omega

/-- The offset `z * Y + y` of a cell of a `Y` by `Z` block lies below `Y * Z`. -/
theorem cell_lt (Y Z y z : Nat) (hy : y < Y) (hz : z < Z) : z * Y + y < Y * Z := by
  have : (z + 1) * Y ≤ Z * Y := Nat.mul_le_mul_right Y hz
  nlinarith

/-- The loop over the three components `Xcomp` of `TransposeYZ`, index by index. -/
theorem transposeComps_spec {α : Type} (Y Z N : Nat) (hN : N = Y * Z) (src dst : Nat → α) :
    (∀ c y z, c < 3 → y < Y → z < Z →
      forLoop 3 (fun Xcomp d => transposeBlocks TR_BLOCK Y Z src (Xcomp * N)
        (-(Y : Int) + ((Xcomp * N : Nat) : Int)) d) dst (c * N + z * Y + y) =
        src (c * N + y * Z + z)) ∧
    (∀ idx, 3 * N ≤ idx →
      forLoop 3 (fun Xcomp d => transposeBlocks TR_BLOCK Y Z src (Xcomp * N)
        (-(Y : Int) + ((Xcomp * N : Nat) : Int)) d) dst idx = dst idx) := by
  have hB : 0 < TR_BLOCK := by decide
  have s0 := fun d => transposeBlocks_spec TR_BLOCK Y Z hB src (0 * N) (0 * N) d
  have s1 := fun d => transposeBlocks_spec TR_BLOCK Y Z hB src (1 * N) (1 * N) d
  have s2 := fun d => transposeBlocks_spec TR_BLOCK Y Z hB src (2 * N) (2 * N) d
  constructor
  · intro c y z hc hy hz
    have hlt := cell_lt Y Z y z hy hz
    show transposeBlocks TR_BLOCK Y Z src (2 * N) _ (transposeBlocks TR_BLOCK Y Z src (1 * N) _
      (transposeBlocks TR_BLOCK Y Z src (0 * N) _ dst)) _ = _
    interval_cases c
    · rw [(s2 _).2 _ (Or.inl (by omega)), (s1 _).2 _ (Or.inl (by omega))]
      exact (s0 _).1 y z hy hz
    · rw [(s2 _).2 _ (Or.inl (by omega))]
      exact (s1 _).1 y z hy hz
    · exact (s2 _).1 y z hy hz
  · intro idx hidx
    show transposeBlocks TR_BLOCK Y Z src (2 * N) _ (transposeBlocks TR_BLOCK Y Z src (1 * N) _
      (transposeBlocks TR_BLOCK Y Z src (0 * N) _ dst)) _ = _
    rw [(s2 _).2 _ (Or.inr (by omega)), (s1 _).2 _ (Or.inr (by omega)),
      (s0 _).2 _ (Or.inr (by omega))]

/-- Claim C14: the cache-blocked `TransposeYZ` is exactly the plain index swap, for all grid
sizes (multiples of the block edge 64 or not) with `gridYZ = gridY * gridZ`. Forward: the source
`slices` is unchanged, `slices_tr[c*gridYZ + z*gridY + y]` becomes `slices[c*gridYZ + y*gridZ + z]`
for every `c < 3`, `y < gridY`, `z < gridZ`, and nothing at or beyond `3*gridYZ` is touched.
Backward: `slices_tr` is unchanged and `slices[c*gridYZ + y*gridZ + z]` becomes
`slices_tr[c*gridYZ + z*gridY + y]`. Every index below `3*gridYZ` is one of the destination
indices (in either layout), so every destination element is written. Backward after forward
restores `slices`. The same swap holds for `transposeYZ_Dm` on one slice. -/
theorem TransposeYZ_is_index_swap {α : Type} (gridY gridZ gridYZ : Nat)
    (hYZ : gridYZ = gridY * gridZ) (slices slices_tr data trans : Nat → α) :
    ((TransposeYZ gridY gridZ gridYZ .FFT_FORWARD slices slices_tr).1 = slices ∧
      (∀ c y z, c < 3 → y < gridY → z < gridZ →
        (TransposeYZ gridY gridZ gridYZ .FFT_FORWARD slices slices_tr).2
          (c * gridYZ + z * gridY + y) = slices (c * gridYZ + y * gridZ + z)) ∧
      (∀ idx, 3 * gridYZ ≤ idx →
        (TransposeYZ gridY gridZ gridYZ .FFT_FORWARD slices slices_tr).2 idx = slices_tr idx)) ∧
    ((TransposeYZ gridY gridZ gridYZ .FFT_BACKWARD slices slices_tr).2 = slices_tr ∧
      (∀ c y z, c < 3 → y < gridY → z < gridZ →
        (TransposeYZ gridY gridZ gridYZ .FFT_BACKWARD slices slices_tr).1
          (c * gridYZ + y * gridZ + z) = slices_tr (c * gridYZ + z * gridY + y)) ∧
      (∀ idx, 3 * gridYZ ≤ idx →
        (TransposeYZ gridY gridZ gridYZ .FFT_BACKWARD slices slices_tr).1 idx = slices idx)) ∧
    (∀ idx, idx < 3 * gridYZ →
      (∃ c y z, c < 3 ∧ y < gridY ∧ z < gridZ ∧ idx = c * gridYZ + z * gridY + y) ∧
      (∃ c y z, c < 3 ∧ y < gridY ∧ z < gridZ ∧ idx = c * gridYZ + y * gridZ + z)) ∧
    (TransposeYZ gridY gridZ gridYZ .FFT_BACKWARD
      (TransposeYZ gridY gridZ gridYZ .FFT_FORWARD slices slices_tr).1
      (TransposeYZ gridY gridZ gridYZ .FFT_FORWARD slices slices_tr).2).1 = slices ∧
    (∀ y z, y < gridY → z < gridZ →
      transposeYZ_Dm gridY gridZ data trans (z * gridY + y) = data (y * gridZ + z)) := by
  have hZY : gridYZ = gridZ * gridY := by rw [hYZ, Nat.mul_comm]
  have fw := fun (s t : Nat → α) => transposeComps_spec gridY gridZ gridYZ hYZ s t
  have bw := fun (s t : Nat → α) => transposeComps_spec gridZ gridY gridYZ hZY t s
  have dec1 : ∀ idx, idx < 3 * gridYZ →
      ∃ c y z, c < 3 ∧ y < gridY ∧ z < gridZ ∧ idx = c * gridYZ + y * gridZ + z := by
    intro idx h
    rw [hYZ] at h ⊢
    exact index_decompose gridY gridZ idx h
  have dec2 : ∀ idx, idx < 3 * gridYZ →
      ∃ c y z, c < 3 ∧ y < gridY ∧ z < gridZ ∧ idx = c * gridYZ + z * gridY + y := by
    intro idx h
    rw [hZY] at h ⊢
    obtain ⟨c, z, y, hc, hz, hy, e⟩ := index_decompose gridZ gridY idx h
    exact ⟨c, y, z, hc, hy, hz, e⟩
  refine ⟨⟨rfl, (fw slices slices_tr).1, (fw slices slices_tr).2⟩,
    ⟨rfl, fun c y z hc hy hz => (bw slices slices_tr).1 c z y hc hz hy,
      (bw slices slices_tr).2⟩, fun idx h => ⟨dec2 idx h, dec1 idx h⟩, ?_, ?_⟩
  · funext idx
    by_cases h : idx < 3 * gridYZ
    · obtain ⟨c, y, z, hc, hy, hz, rfl⟩ := dec1 idx h
      exact ((bw _ _).1 c z y hc hz hy).trans ((fw slices slices_tr).1 c y z hc hy hz)
    · exact (bw _ _).2 idx (Nat.le_of_not_lt h)
  · intro y z hy hz
    have h := (transposeBlocks_spec TR_BLOCK gridY gridZ (by decide) data 0 0 trans).1 y z hy hz
    simpa [transposeYZ_Dm] using h

/-- Witness for C14 on a 65 by 2 grid (one full block of 64 rows and a rest of one row). -/
theorem TransposeYZ_is_index_swap_witness :
    (TransposeYZ 65 2 130 .FFT_FORWARD (fun n => n) (fun _ => 0)).2 (1 * 130 + 1 * 65 + 64)
      = 1 * 130 + 64 * 2 + 1 :=
  (TransposeYZ_is_index_swap 65 2 130 rfl (fun n => n) (fun _ => 0) (fun n => n)
    (fun _ => 0)).1.2.1 1 64 1 (by decide) (by decide) (by decide)

/-- The sum `cAdd` is the ring sum. -/
theorem cAdd_eq (a b : Cplx R) : cAdd a b = a + b := rfl

/-- The product `cMult` is the ring product. -/
theorem cMult_eq (a b : Cplx R) : cMult a b = a * b := rfl

/-- The difference `cSubtr` is the ring difference. -/
theorem cSubtr_eq (a b : Cplx R) : cSubtr a b = a - b := rfl

/-- The zero `Cplx.zero` is the ring zero. -/
theorem Cplx_zero_eq : (Cplx.zero : Cplx R) = 0 := rfl

/-- A loop of passes each of which returns, adds `t k mu` to the entries `3i+mu` of the first
array and keeps its other entries, returns, adds the sums of the `t k mu` and keeps the other
entries. -/
theorem forLoopM_accum {ε : Type} (i n : Nat) (t : Nat → Nat → Cplx R)
    (body : Nat → (Nat → Cplx R) × (Nat → Cplx R) → Except ε ((Nat → Cplx R) × (Nat → Cplx R)))
    (hstep : ∀ k, k < n → ∀ p, ∃ p', body k p = .ok p' ∧
      (∀ mu, mu < 3 → p'.1 (3 * i + mu) = p.1 (3 * i + mu) + t k mu) ∧
      (∀ idx, (idx < 3 * i ∨ 3 * i + 3 ≤ idx) → p'.1 idx = p.1 idx))
    (p : (Nat → Cplx R) × (Nat → Cplx R)) :
    ∃ p', forLoopM n body p = .ok p' ∧
      (∀ mu, mu < 3 → p'.1 (3 * i + mu) = p.1 (3 * i + mu) + ∑ k in Finset.range n, t k mu) ∧
      (∀ idx, (idx < 3 * i ∨ 3 * i + 3 ≤ idx) → p'.1 idx = p.1 idx) := by
  induction n with
  | zero => exact ⟨p, rfl, fun mu _ => by simp, fun _ _ => rfl⟩
  | succ m ih =>
    obtain ⟨p1, h1, h1a, h1b⟩ := ih (fun k hk => hstep k (Nat.lt_succ_of_lt hk))
    obtain ⟨p2, h2, h2a, h2b⟩ := hstep m (Nat.lt_succ_self m) p1
    refine ⟨p2, by simp [forLoopM, h1, Except.bind, h2], fun mu hmu => ?_, fun idx hidx => ?_⟩
    · rw [h2a mu hmu, h1a mu hmu, Finset.sum_range_succ, add_assoc]
    · rw [h2b idx hidx, h1b idx hidx]

/-- One call of `AijProd` whose interaction term is returned with the components `Gd`: it
returns, adds to `resultvec[3i+mu]` the product of `cc_sqrt[material[i]][mu]` and the sum over
`nu` of `Gd[mu,nu] * cc_sqrt[material_full[j]][nu] * argvec[3j+nu]`, and keeps the other
entries of `resultvec`. -/
theorem AijProd_step (g : MatVecGlobals R) (interTerm : InterTerm R) (a : Nat → Cplx R)
    (i j : Nat) (Gd : Nat → Cplx R)
    (hG : ∀ r, ∃ r', interTerm ((g.position (3 * i) : Int) - (g.position_full (3 * j) : Int))
      ((g.position (3 * i + 1) : Int) - (g.position_full (3 * j + 1) : Int))
      ((g.position (3 * i + 2) : Int) - (g.position_full (3 * j + 2) : Int)) r = .ok r' ∧
      ∀ c, c < 6 → r' c = Gd c)
    (p : (Nat → Cplx R) × (Nat → Cplx R)) :
    ∃ p', AijProd g interTerm a i j p = .ok p' ∧
      (∀ mu, mu < 3 → p'.1 (3 * i + mu) = p.1 (3 * i + mu) +
        g.cc_sqrt (g.material i) mu * ∑ nu in Finset.range 3,
          Gd (symIdx mu nu) * g.cc_sqrt (g.material_full j) nu * a (3 * j + nu)) ∧
      (∀ idx, (idx < 3 * i ∨ 3 * i + 3 ≤ idx) → p'.1 idx = p.1 idx) := by
  obtain ⟨r', hr, hc⟩ := hG p.2
  unfold AijProd
  simp only [hr, Except.map]
  refine ⟨_, rfl, fun mu hmu => ?_, fun idx hidx => ?_⟩
  · simp only [cAdd_eq, cMult_eq, Finset.sum_range_succ, Finset.sum_range_zero, zero_add]
    rw [hc 0 (by omega), hc 1 (by omega), hc 2 (by omega), hc 3 (by omega), hc 4 (by omega),
      hc 5 (by omega)]
    interval_cases mu
    · simp [Function.update_apply, symIdx]
      ring
    · simp [Function.update_apply, symIdx]
      ring
    · simp [Function.update_apply, symIdx]
      ring
  · have h0 : idx ≠ 3 * i := by omega
    have h1 : idx ≠ 3 * i + 1 := by omega
    have h2 : idx ≠ 3 * i + 2 := by omega
    simp [Function.update_apply, h0, h1, h2]


/-- A sum over the indices below `n` other than `m` is the sum over the indices below `m` plus
the sum over the indices from `m+1` on. -/
theorem sum_skip {M : Type} [AddCommMonoid M] (f : Nat → M) (m n : Nat) (h : m < n) :
    ∑ j in (Finset.range n).filter (fun j => j ≠ m), f j =
      ∑ j in Finset.range m, f j + ∑ k in Finset.range (n - (m + 1)), f (m + 1 + k) := by
  have hn : n = m + 1 + (n - (m + 1)) := by omega
  rw [Finset.sum_filter]
  nth_rewrite 1 [hn]
  rw [Finset.sum_range_add, Finset.sum_range_succ]
  simp only [ne_eq, not_true_eq_false, if_false, add_zero]
  congr 1
  · exact Finset.sum_congr rfl (fun j hj => by
      have : j ≠ m := by have := Finset.mem_range.1 hj; omega
      simp [this])
  · exact Finset.sum_congr rfl (fun k _ => by
      have : m + 1 + k ≠ m := by omega
      simp [this])

/-- One pass of the loop over the local dipoles: when every call of `AijProd` for a `j` other
than `local_d0+i` returns and adds `t j mu`, the pass returns, leaves in `resultvec[3i+mu]` the
sum of the `t j mu` over the `j` below `nvoid_Ndip` other than `local_d0+i`, and keeps the
entries of the other dipoles. -/
theorem sparseRow_spec (g : MatVecGlobals R) (interTerm : InterTerm R) (a : Nat → Cplx R)
    (i : Nat) (t : Nat → Nat → Cplx R) (hi : g.local_d0 + i < g.nvoid_Ndip)
    (hstep : ∀ j, j < g.nvoid_Ndip → j ≠ g.local_d0 + i → ∀ p,
      ∃ p', AijProd g interTerm a i j p = .ok p' ∧
        (∀ mu, mu < 3 → p'.1 (3 * i + mu) = p.1 (3 * i + mu) + t j mu) ∧
        (∀ idx, (idx < 3 * i ∨ 3 * i + 3 ≤ idx) → p'.1 idx = p.1 idx))
    (p : (Nat → Cplx R) × (Nat → Cplx R)) :
    ∃ p', sparseRow g interTerm a i p = .ok p' ∧
      (∀ mu, mu < 3 → p'.1 (3 * i + mu) =
        ∑ j in (Finset.range g.nvoid_Ndip).filter (fun j => j ≠ g.local_d0 + i), t j mu) ∧
      (∀ idx, (idx < 3 * i ∨ 3 * i + 3 ≤ idx) → p'.1 idx = p.1 idx) := by
  unfold sparseRow
  dsimp only
  obtain ⟨p1, h1, h1a, h1b⟩ := forLoopM_accum i (g.local_d0 + i) t
    (fun j => AijProd g interTerm a i j)
    (fun k hk => hstep k (by omega) (by omega))
    (Function.update (Function.update (Function.update p.1 (3 * i) Cplx.zero) (3 * i + 1)
      Cplx.zero) (3 * i + 2) Cplx.zero, p.2)
  obtain ⟨p2, h2, h2a, h2b⟩ := forLoopM_accum i (g.nvoid_Ndip - (g.local_d0 + i + 1))
    (fun k => t (g.local_d0 + i + 1 + k))
    (fun n => AijProd g interTerm a i (g.local_d0 + i + 1 + n))
    (fun k hk => hstep _ (by omega) (by omega)) p1
  refine ⟨p2, ?_, fun mu hmu => ?_, fun idx hidx => ?_⟩
  · rw [h1]
    exact h2
  · rw [h2a mu hmu, h1a mu hmu, sum_skip _ _ _ hi]
    have hz : Function.update (Function.update (Function.update p.1 (3 * i) Cplx.zero)
        (3 * i + 1) Cplx.zero) (3 * i + 2) Cplx.zero (3 * i + mu) = 0 := by
      interval_cases mu <;> simp [Function.update_apply, Cplx_zero_eq]
    simp only [hz, zero_add]
  · rw [h2b idx hidx, h1b idx hidx]
    have h0 : idx ≠ 3 * i := by omega
    have h1 : idx ≠ 3 * i + 1 := by omega
    have h2 : idx ≠ 3 * i + 2 := by omega
    simp [Function.update_apply, h0, h1, h2]

/-- The loop over the local dipoles: when pass `i` returns, stores `S i mu` in the entries
`3i+mu` and keeps the entries of the other dipoles, the loop returns with `S i mu` in the
entries `3i+mu` of every dipole `i` below `n`. -/
theorem forLoopM_rows {ε : Type} (n : Nat) (S : Nat → Nat → Cplx R)
    (body : Nat → (Nat → Cplx R) × (Nat → Cplx R) → Except ε ((Nat → Cplx R) × (Nat → Cplx R)))
    (hstep : ∀ i, i < n → ∀ p, ∃ p', body i p = .ok p' ∧
      (∀ mu, mu < 3 → p'.1 (3 * i + mu) = S i mu) ∧
      (∀ idx, (idx < 3 * i ∨ 3 * i + 3 ≤ idx) → p'.1 idx = p.1 idx))
    (p : (Nat → Cplx R) × (Nat → Cplx R)) :
    ∃ p', forLoopM n body p = .ok p' ∧ ∀ i mu, i < n → mu < 3 → p'.1 (3 * i + mu) = S i mu := by
  induction n with
  | zero => exact ⟨p, rfl, fun i mu hi _ => absurd hi (Nat.not_lt_zero i)⟩
  | succ m ih =>
    obtain ⟨p1, h1, h1a⟩ := ih (fun k hk => hstep k (Nat.lt_succ_of_lt hk))
    obtain ⟨p2, h2, h2a, h2b⟩ := hstep m (Nat.lt_succ_self m) p1
    refine ⟨p2, by simp [forLoopM, h1, Except.bind, h2], fun i mu hi hmu => ?_⟩
    rcases Nat.lt_succ_iff_lt_or_eq.mp hi with hlt | rfl
    · rw [h2b _ (Or.inl (by omega))]
      exact h1a i mu hlt hmu
    · exact h2a mu hmu

/-- The result of the direct pairwise `MatVec` for both values of `her`, when the interaction
term of every pair of different dipoles is returned with the components `G` of their
displacement: `resultvec[3i+mu]` is `x - pairwiseCoupling` for the argument vector `x` as
`AijProd` reads it (conjugated if `her` is set), conjugated once more if `her` is set. -/
theorem MatVecSparse_formula_gen (g : MatVecGlobals R) (ext : MatVecExtern R)
    (interTerm : InterTerm R) (G : Int → Int → Int → Nat → Cplx R) (her : Bool)
    (s : SparseState R)
    (hrows : g.nlocalRows = 3 * g.local_nvoid_Ndip)
    (hpart : g.local_d0 + g.local_nvoid_Ndip ≤ g.nvoid_Ndip)
    (hG : ∀ i j, i < g.local_nvoid_Ndip → j < g.nvoid_Ndip → j ≠ g.local_d0 + i → ∀ r,
      ∃ r', interTerm ((g.position (3 * i) : Int) - (g.position_full (3 * j) : Int))
        ((g.position (3 * i + 1) : Int) - (g.position_full (3 * j + 1) : Int))
        ((g.position (3 * i + 2) : Int) - (g.position_full (3 * j + 2) : Int)) r = .ok r' ∧
        ∀ c, c < 6 → r' c = G ((g.position (3 * i) : Int) - (g.position_full (3 * j) : Int))
          ((g.position (3 * i + 1) : Int) - (g.position_full (3 * j + 1) : Int))
          ((g.position (3 * i + 2) : Int) - (g.position_full (3 * j + 2) : Int)) c)
    (arg_full : Nat → Cplx R)
    (harg : arg_full = (if g.PARALLEL
      then ext.SyncArgvec (if her then conjLoop g.nlocalRows s.argvec else s.argvec)
      else (if her then conjLoop g.nlocalRows s.argvec else s.argvec))) :
    ∃ s', MatVecSparse g ext interTerm her s = .ok s' ∧
      ∀ i mu, i < g.local_nvoid_Ndip → mu < 3 →
        s'.resultvec (3 * i + mu) =
          (if her then cConj else id) (arg_full (3 * (g.local_d0 + i) + mu) -
            pairwiseCoupling g G arg_full i mu) := by
  obtain ⟨rows, hrowsok, hval⟩ := forLoopM_rows g.local_nvoid_Ndip
    (fun i mu => pairwiseCoupling g G arg_full i mu) (sparseRow g interTerm arg_full)
    (fun i hi p => by
      have := sparseRow_spec g interTerm arg_full i
        (fun j mu => g.cc_sqrt (g.material i) mu * ∑ nu in Finset.range 3,
          G ((g.position (3 * i) : Int) - (g.position_full (3 * j) : Int))
            ((g.position (3 * i + 1) : Int) - (g.position_full (3 * j + 1) : Int))
            ((g.position (3 * i + 2) : Int) - (g.position_full (3 * j + 2) : Int))
            (symIdx mu nu) * g.cc_sqrt (g.material_full j) nu * arg_full (3 * j + nu))
        (by omega)
        (fun j hj hne p => AijProd_step g interTerm arg_full i j _ (hG i j hi hj hne) p) p
      obtain ⟨p', hp, ha, hb⟩ := this
      refine ⟨p', hp, fun mu hmu => ?_, hb⟩
      rw [ha mu hmu]
      simp only [pairwiseCoupling, Finset.mul_sum])
    (s.resultvec, s.iterm)
  have harg2 : arg_full = (if g.PARALLEL
      then ext.SyncArgvec (if her
        then forLoop g.nlocalRows (fun j a => Function.update a j (cConj (a j))) s.argvec
        else s.argvec)
      else (if her
        then forLoop g.nlocalRows (fun j a => Function.update a j (cConj (a j))) s.argvec
        else s.argvec)) := harg
  unfold MatVecSparse
  dsimp only
  rw [← harg2, hrowsok]
  refine ⟨_, rfl, fun i mu hi hmu => ?_⟩
  have hlt : 3 * i + mu < g.nlocalRows := by omega
  have hres : forLoop g.nlocalRows (fun i res =>
      Function.update res i (cSubtr (arg_full (3 * g.local_d0 + i)) (res i))) rows.1
      (3 * i + mu) = arg_full (3 * (g.local_d0 + i) + mu) -
        pairwiseCoupling g G arg_full i mu := by
    rw [forLoop_update_apply (fun i x => cSubtr (arg_full (3 * g.local_d0 + i)) x), if_pos hlt,
      hval i mu hi hmu, cSubtr_eq]
    congr 2
    ring
  cases her with
  | false => simpa using hres
  | true =>
    simp only [if_true]
    rw [conjPairLoop]
    show conjLoop g.nlocalRows _ (3 * i + mu) = _
    rw [conjLoop_apply, if_pos hlt, hres]

/-- In the point-dipole mode `CalcInterTerm` at a displacement other than zero stores all six
components: what it leaves in them does not depend on what the array held. -/
theorem CalcInterTerm_pointDip_indep (env : MathEnv R) (cfg : InterConfig R)
    (h : cfg.IntRelation = .G_POINT_DIP) (i j k : Int) (hnz : ¬ (i = 0 ∧ j = 0 ∧ k = 0))
    (r1 r2 r1' r2' : Nat → Cplx R) (h1 : CalcInterTerm env cfg i j k r1 = .ok r1')
    (h2 : CalcInterTerm env cfg i j k r2 = .ok r2') (c : Nat) (hc : c < 6) :
    r1' c = r2' c := by
  unfold CalcInterTerm at h1 h2
  simp only [hnz, h, if_false, lt_irrefl, false_and, and_false, reduceCtorEq, forMuNu,
    gpBody] at h1 h2
  injection h1 with h1
  injection h2 with h2
  subst h1 h2
  interval_cases c <;> simp [Function.update_apply]

/-- In the point-dipole mode `CalcInterTerm` at a displacement other than zero returns, and the
six components it stores are those of `interTensor`, whatever the array held. -/
theorem CalcInterTerm_pointDip_tensor (env : MathEnv R) (cfg : InterConfig R)
    (h : cfg.IntRelation = .G_POINT_DIP) (i j k : Int) (hnz : ¬ (i = 0 ∧ j = 0 ∧ k = 0))
    (r : Nat → Cplx R) :
    ∃ r', CalcInterTerm env cfg i j k r = .ok r' ∧
      ∀ c, c < 6 → r' c = interTensor (CalcInterTerm env cfg) i j k c := by
  obtain ⟨r', hr⟩ := CalcInterTerm_pointDip_ok env cfg h i j k r
  obtain ⟨r0, h0⟩ := CalcInterTerm_pointDip_ok env cfg h i j k (fun _ => Cplx.zero)
  refine ⟨r', hr, fun c hc => ?_⟩
  unfold interTensor
  rw [h0]
  exact CalcInterTerm_pointDip_indep env cfg h i j k hnz _ _ _ _ hr h0 c hc

/-- Claim C18: the direct pairwise `MatVec` with `her` false, over exact arithmetic. When
`nlocalRows = 3*local_nvoid_Ndip`, the local dipoles are the dipoles `local_d0 ..` of the full
list, and `CalcInterTerm` returns for every pair of a local dipole `i` and a dipole
`j ≠ local_d0+i` with the tensor `G` of their displacement, the call returns and for every local
dipole `i` and component `mu`
`resultvec[3i+mu] = arg_full[3(local_d0+i)+mu] - cc_sqrt[material[i]][mu] * Σ_(j<nvoid_Ndip,
j≠local_d0+i) Σ_(nu<3) G_mu,nu(position[i]-position_full[j]) * cc_sqrt[material_full[j]][nu] *
arg_full[3j+nu]`, where `arg_full` is `argvec` (the vector assembled by `SyncArgvec` in the
parallel build): the self pair is skipped and every other `j` enters once. -/
theorem MatVecSparse_pairwise_formula (g : MatVecGlobals R) (ext : MatVecExtern R)
    (interTerm : InterTerm R) (G : Int → Int → Int → Nat → Cplx R) (s : SparseState R)
    (hrows : g.nlocalRows = 3 * g.local_nvoid_Ndip)
    (hpart : g.local_d0 + g.local_nvoid_Ndip ≤ g.nvoid_Ndip)
    (hG : ∀ i j, i < g.local_nvoid_Ndip → j < g.nvoid_Ndip → j ≠ g.local_d0 + i → ∀ r,
      ∃ r', interTerm ((g.position (3 * i) : Int) - (g.position_full (3 * j) : Int))
        ((g.position (3 * i + 1) : Int) - (g.position_full (3 * j + 1) : Int))
        ((g.position (3 * i + 2) : Int) - (g.position_full (3 * j + 2) : Int)) r = .ok r' ∧
        ∀ c, c < 6 → r' c = G ((g.position (3 * i) : Int) - (g.position_full (3 * j) : Int))
          ((g.position (3 * i + 1) : Int) - (g.position_full (3 * j + 1) : Int))
          ((g.position (3 * i + 2) : Int) - (g.position_full (3 * j + 2) : Int)) c) :
    ∃ s', MatVecSparse g ext interTerm false s = .ok s' ∧
      s'.arg_full = (if g.PARALLEL then ext.SyncArgvec s.argvec else s.argvec) ∧
      ∀ i mu, i < g.local_nvoid_Ndip → mu < 3 →
        s'.resultvec (3 * i + mu) = s'.arg_full (3 * (g.local_d0 + i) + mu) -
          g.cc_sqrt (g.material i) mu *
            ∑ j in (Finset.range g.nvoid_Ndip).filter (fun j => j ≠ g.local_d0 + i),
              ∑ nu in Finset.range 3,
                G ((g.position (3 * i) : Int) - (g.position_full (3 * j) : Int))
                  ((g.position (3 * i + 1) : Int) - (g.position_full (3 * j + 1) : Int))
                  ((g.position (3 * i + 2) : Int) - (g.position_full (3 * j + 2) : Int))
                  (symIdx mu nu) * g.cc_sqrt (g.material_full j) nu *
                  s'.arg_full (3 * j + nu) := by
  obtain ⟨s', hs, hf⟩ := MatVecSparse_formula_gen g ext interTerm G false s hrows hpart hG
    (if g.PARALLEL then ext.SyncArgvec s.argvec else s.argvec) (by simp)
  have harg : s'.arg_full = (if g.PARALLEL then ext.SyncArgvec s.argvec else s.argvec) := by
    have hs2 := hs
    unfold MatVecSparse at hs2
    dsimp only at hs2
    obtain ⟨rows, -, e⟩ := except_map_eq_ok hs2
    rw [← e]
    cases g.PARALLEL <;> simp
  refine ⟨s', hs, harg, fun i mu hi hmu => ?_⟩
  rw [harg]
  simpa [pairwiseCoupling] using hf i mu hi hmu


/-- Witness for C18: the two sample dipoles at (0,0,0) and (1,0,0) with `CalcInterTerm` in the
point-dipole mode. -/
theorem MatVecSparse_pairwise_formula_witness :
    ∃ s', MatVecSparse (sampleGlobals false) sampleExtern
        (CalcInterTerm sampleEnv (sampleInter .G_POINT_DIP)) false (sampleSparseState none)
          = .ok s' ∧
      s'.arg_full = (sampleSparseState none).argvec ∧
      s'.resultvec 0 = s'.arg_full 0 - (sampleGlobals false).cc_sqrt 0 0 *
        ∑ j in (Finset.range 2).filter (fun j => j ≠ 0), ∑ nu in Finset.range 3,
          interTensor (CalcInterTerm sampleEnv (sampleInter .G_POINT_DIP))
            (((sampleGlobals false).position 0 : Int) -
              ((sampleGlobals false).position_full (3 * j) : Int))
            (((sampleGlobals false).position 1 : Int) -
              ((sampleGlobals false).position_full (3 * j + 1) : Int))
            (((sampleGlobals false).position 2 : Int) -
              ((sampleGlobals false).position_full (3 * j + 2) : Int)) (symIdx 0 nu) *
            (sampleGlobals false).cc_sqrt 0 nu * s'.arg_full (3 * j + nu) := by
  obtain ⟨s', hs, harg, hf⟩ := MatVecSparse_pairwise_formula (sampleGlobals false) sampleExtern
    (CalcInterTerm sampleEnv (sampleInter .G_POINT_DIP))
    (interTensor (CalcInterTerm sampleEnv (sampleInter .G_POINT_DIP))) (sampleSparseState none)
    rfl (Nat.le_refl _)
    (fun i j hi hj hne r => CalcInterTerm_pointDip_tensor _ _ rfl _ _ _ (by
      have hi2 : i < 2 := hi
      have hj2 : j < 2 := hj
      have hne2 : j ≠ 0 + i := hne
      interval_cases i <;> interval_cases j <;> simp [sampleGlobals] at hne2 ⊢) r)
  exact ⟨s', hs, harg, hf 0 0 (by decide) (by decide)⟩

/-- Conjugation maps a product to the product of the conjugates. -/
theorem cConj_mul (a b : Cplx R) : cConj (a * b) = cConj a * cConj b := by
  show cConj (cMult a b) = cMult (cConj a) (cConj b)
  simp only [cConj, cMult, Cplx.mk.injEq]
  constructor <;> ring

/-- Conjugation maps a sum to the sum of the conjugates. -/
theorem cConj_add (a b : Cplx R) : cConj (a + b) = cConj a + cConj b := by
  show cConj (cAdd a b) = cAdd (cConj a) (cConj b)
  simp only [cConj, cAdd, Cplx.mk.injEq]
  exact ⟨trivial, neg_add _ _⟩

/-- Conjugation maps a difference to the difference of the conjugates. -/
theorem cConj_sub (a b : Cplx R) : cConj (a - b) = cConj a - cConj b := by
  show cConj (cSubtr a b) = cSubtr (cConj a) (cConj b)
  simp only [cConj, cSubtr, Cplx.mk.injEq]
  exact ⟨trivial, neg_sub' _ _⟩

/-- Conjugation keeps zero. -/
theorem cConj_zero : cConj (0 : Cplx R) = 0 := by
  show cConj Cplx.zero = Cplx.zero
  simp [cConj, Cplx.zero]

/-- Conjugation maps a finite sum to the sum of the conjugates. -/
theorem cConj_sum (n : Nat) (f : Nat → Cplx R) :
    cConj (∑ k in Finset.range n, f k) = ∑ k in Finset.range n, cConj (f k) := by
  induction n with
  | zero => simpa using cConj_zero
  | succ m ih => rw [Finset.sum_range_succ, Finset.sum_range_succ, cConj_add, ih]

/-- A sum over the `3n` entries of a vector is the sum over its `n` dipoles of the sum over the
three components. -/
theorem sum_range_three {M : Type} [AddCommMonoid M] (n : Nat) (f : Nat → M) :
    ∑ k in Finset.range (3 * n), f k =
      ∑ i in Finset.range n, ∑ mu in Finset.range 3, f (3 * i + mu) := by
  induction n with
  | zero => simp
  | succ m ih =>
    rw [Finset.sum_range_succ, ← ih, show 3 * (m + 1) = 3 * m + 1 + 1 + 1 by ring,
      Finset.sum_range_succ, Finset.sum_range_succ, Finset.sum_range_succ]
    simp only [Finset.sum_range_succ, Finset.sum_range_zero, zero_add, add_zero, add_assoc]

/-- A sum over two pairs (dipole, component) may be taken with the pairs exchanged. -/
theorem sum_pairs_swap {M : Type} [AddCommMonoid M] (n : Nat) (F : Nat → Nat → Nat → Nat → M) :
    ∑ i in Finset.range n, ∑ mu in Finset.range 3, ∑ j in Finset.range n,
        ∑ nu in Finset.range 3, F i mu j nu =
      ∑ i in Finset.range n, ∑ mu in Finset.range 3, ∑ j in Finset.range n,
        ∑ nu in Finset.range 3, F j nu i mu := by
  calc ∑ i in Finset.range n, ∑ mu in Finset.range 3, ∑ j in Finset.range n,
        ∑ nu in Finset.range 3, F i mu j nu
      = ∑ p in Finset.range n ×ˢ Finset.range 3, ∑ q in Finset.range n ×ˢ Finset.range 3,
          F p.1 p.2 q.1 q.2 := by simp only [Finset.sum_product]
    _ = ∑ q in Finset.range n ×ˢ Finset.range 3, ∑ p in Finset.range n ×ˢ Finset.range 3,
          F p.1 p.2 q.1 q.2 := Finset.sum_comm
    _ = _ := by simp only [Finset.sum_product]

/-- The position of a component of a symmetric tensor does not depend on the order of its two
indices. -/
theorem symIdx_comm (mu nu : Nat) (hmu : mu < 3) (hnu : nu < 3) :
    symIdx mu nu = symIdx nu mu := by
  interval_cases mu <;> interval_cases nu <;> rfl

/-- On one partition, with a tensor that is the same for a displacement and its negative, the
coupling of the direct pairwise product is a symmetric bilinear form. -/
theorem pairwiseCoupling_symm (g : MatVecGlobals R) (G : Int → Int → Int → Nat → Cplx R)
    (hd0 : g.local_d0 = 0)
    (hmat : ∀ i, i < g.nvoid_Ndip → g.material i = g.material_full i)
    (hpos : ∀ k, k < 3 * g.nvoid_Ndip → g.position k = g.position_full k)
    (hrec : ∀ a b c k, G (-a) (-b) (-c) k = G a b c k) (a b : Nat → Cplx R) :
    ∑ i in Finset.range g.nvoid_Ndip, ∑ mu in Finset.range 3,
        a (3 * i + mu) * pairwiseCoupling g G b i mu =
      ∑ i in Finset.range g.nvoid_Ndip, ∑ mu in Finset.range 3,
        b (3 * i + mu) * pairwiseCoupling g G a i mu := by
  have expand : ∀ (a b : Nat → Cplx R) (i mu : Nat),
      a (3 * i + mu) * pairwiseCoupling g G b i mu =
        ∑ j in Finset.range g.nvoid_Ndip, ∑ nu in Finset.range 3,
          if j ≠ i then a (3 * i + mu) * g.cc_sqrt (g.material i) mu *
            G ((g.position (3 * i) : Int) - (g.position_full (3 * j) : Int))
              ((g.position (3 * i + 1) : Int) - (g.position_full (3 * j + 1) : Int))
              ((g.position (3 * i + 2) : Int) - (g.position_full (3 * j + 2) : Int))
              (symIdx mu nu) * g.cc_sqrt (g.material_full j) nu * b (3 * j + nu)
          else 0 := by
    intro a b i mu
    unfold pairwiseCoupling
    rw [hd0, Nat.zero_add, Finset.sum_filter, Finset.mul_sum, Finset.mul_sum]
    refine Finset.sum_congr rfl (fun j _ => ?_)
    by_cases hji : j ≠ i
    · simp only [hji, if_true, ne_eq, not_false_eq_true, Finset.mul_sum]
      refine Finset.sum_congr rfl (fun nu _ => ?_)
      ring
    · simp [hji]
  simp only [expand]
  rw [sum_pairs_swap]
  refine Finset.sum_congr rfl (fun i hi => Finset.sum_congr rfl (fun mu hmu =>
    Finset.sum_congr rfl (fun j hj => Finset.sum_congr rfl (fun nu hnu => ?_))))
  have hi := Finset.mem_range.1 hi
  have hj := Finset.mem_range.1 hj
  have hmu := Finset.mem_range.1 hmu
  have hnu := Finset.mem_range.1 hnu
  by_cases hji : j = i
  · simp [hji]
  · have hij : i ≠ j := fun h => hji h.symm
    simp only [ne_eq, hji, hij, not_false_eq_true, if_true]
    rw [symIdx_comm nu mu hnu hmu, ← hmat i hi, ← hmat j hj,
      ← hpos (3 * i) (by omega), ← hpos (3 * i + 1) (by omega), ← hpos (3 * i + 2) (by omega),
      ← hpos (3 * j) (by omega), ← hpos (3 * j + 1) (by omega), ← hpos (3 * j + 2) (by omega),
      ← hrec ((g.position (3 * i) : Int) - (g.position (3 * j) : Int)), neg_sub, neg_sub,
      neg_sub]
    ring

/-- Claim C12: Hermitian consistency of the direct pairwise `MatVec` over exact complex
arithmetic, on one partition (`PARALLEL` off, `local_d0 = 0`, the local dipoles are all the
dipoles), when the interaction term of every pair of different dipoles is returned with the
tensor `G` of their displacement and `G` is the same for a displacement and its negative (the
reciprocity of the modes other than `G_SO`). With `A y` the result of `MatVec(y, her=false)`
and `A^H x` the result of `MatVec(x, her=true)`, both calls return and
`<y, A^H x> = conj(<x, A y>)` for the inner product `<a,b> = Σ_k conj(a_k) b_k` over the
`nlocalRows` entries. -/
theorem MatVecSparse_hermitian (g : MatVecGlobals R) (ext : MatVecExtern R)
    (interTerm : InterTerm R) (G : Int → Int → Int → Nat → Cplx R)
    (hPar : g.PARALLEL = false) (hd0 : g.local_d0 = 0)
    (hN : g.local_nvoid_Ndip = g.nvoid_Ndip) (hrows : g.nlocalRows = 3 * g.nvoid_Ndip)
    (hmat : ∀ i, i < g.nvoid_Ndip → g.material i = g.material_full i)
    (hpos : ∀ k, k < 3 * g.nvoid_Ndip → g.position k = g.position_full k)
    (hG : ∀ i j, i < g.nvoid_Ndip → j < g.nvoid_Ndip → j ≠ i → ∀ r,
      ∃ r', interTerm ((g.position (3 * i) : Int) - (g.position_full (3 * j) : Int))
        ((g.position (3 * i + 1) : Int) - (g.position_full (3 * j + 1) : Int))
        ((g.position (3 * i + 2) : Int) - (g.position_full (3 * j + 2) : Int)) r = .ok r' ∧
        ∀ c, c < 6 → r' c = G ((g.position (3 * i) : Int) - (g.position_full (3 * j) : Int))
          ((g.position (3 * i + 1) : Int) - (g.position_full (3 * j + 1) : Int))
          ((g.position (3 * i + 2) : Int) - (g.position_full (3 * j + 2) : Int)) c)
    (hrec : ∀ a b c k, G (-a) (-b) (-c) k = G a b c k)
    (sx sy : SparseState R) :
    ∃ sH sA, MatVecSparse g ext interTerm true sx = .ok sH ∧
      MatVecSparse g ext interTerm false sy = .ok sA ∧
      ∑ k in Finset.range g.nlocalRows, cConj (sy.argvec k) * sH.resultvec k =
        cConj (∑ k in Finset.range g.nlocalRows, cConj (sx.argvec k) * sA.resultvec k) := by
  have hG2 : ∀ i j, i < g.local_nvoid_Ndip → j < g.nvoid_Ndip → j ≠ g.local_d0 + i → ∀ r,
      ∃ r', interTerm ((g.position (3 * i) : Int) - (g.position_full (3 * j) : Int))
        ((g.position (3 * i + 1) : Int) - (g.position_full (3 * j + 1) : Int))
        ((g.position (3 * i + 2) : Int) - (g.position_full (3 * j + 2) : Int)) r = .ok r' ∧
        ∀ c, c < 6 → r' c = G ((g.position (3 * i) : Int) - (g.position_full (3 * j) : Int))
          ((g.position (3 * i + 1) : Int) - (g.position_full (3 * j + 1) : Int))
          ((g.position (3 * i + 2) : Int) - (g.position_full (3 * j + 2) : Int)) c := by
    intro i j hi hj hne r
    exact hG i j (hN ▸ hi) hj (by rw [hd0, Nat.zero_add] at hne; exact hne) r
  have hrows2 : g.nlocalRows = 3 * g.local_nvoid_Ndip := by rw [hN]; exact hrows
  have hpart : g.local_d0 + g.local_nvoid_Ndip ≤ g.nvoid_Ndip := by rw [hd0, hN]; omega
  obtain ⟨sH, hH, fH⟩ := MatVecSparse_formula_gen g ext interTerm G true sx hrows2 hpart hG2
    (conjLoop g.nlocalRows sx.argvec) (by simp [hPar])
  obtain ⟨sA, hA, fA⟩ := MatVecSparse_formula_gen g ext interTerm G false sy hrows2 hpart hG2
    sy.argvec (by simp [hPar])
  refine ⟨sH, sA, hH, hA, ?_⟩
  have hL : ∀ i, i ∈ Finset.range g.nvoid_Ndip → ∀ mu, mu ∈ Finset.range 3 →
      cConj (sy.argvec (3 * i + mu)) * sH.resultvec (3 * i + mu) =
        cConj (sy.argvec (3 * i + mu) * (conjLoop g.nlocalRows sx.argvec (3 * i + mu) -
          pairwiseCoupling g G (conjLoop g.nlocalRows sx.argvec) i mu)) := by
    intro i hi mu hmu
    rw [fH i mu (hN ▸ Finset.mem_range.1 hi) (Finset.mem_range.1 hmu), cConj_mul, hd0,
      Nat.zero_add]
    rfl
  have hR : ∀ i, i ∈ Finset.range g.nvoid_Ndip → ∀ mu, mu ∈ Finset.range 3 →
      cConj (sx.argvec (3 * i + mu)) * sA.resultvec (3 * i + mu) =
        conjLoop g.nlocalRows sx.argvec (3 * i + mu) * (sy.argvec (3 * i + mu) -
          pairwiseCoupling g G sy.argvec i mu) := by
    intro i hi mu hmu
    have hi2 := Finset.mem_range.1 hi
    have hmu2 := Finset.mem_range.1 hmu
    rw [fA i mu (hN ▸ hi2) hmu2, hd0, Nat.zero_add, conjLoop_apply,
      if_pos (by omega : 3 * i + mu < g.nlocalRows)]
    rfl
  rw [hrows, sum_range_three, sum_range_three,
    Finset.sum_congr rfl (fun i hi => Finset.sum_congr rfl (fun mu hmu => hL i hi mu hmu)),
    Finset.sum_congr rfl (fun i hi => Finset.sum_congr rfl (fun mu hmu => hR i hi mu hmu))]
  simp only [← cConj_sum]
  congr 1
  simp only [mul_sub, Finset.sum_sub_distrib]
  rw [pairwiseCoupling_symm g G hd0 hmat hpos hrec sy.argvec (conjLoop g.nlocalRows sx.argvec)]
  congr 1
  exact Finset.sum_congr rfl (fun i _ => Finset.sum_congr rfl (fun mu _ => mul_comm _ _))


/-- Witness for C12: the two sample dipoles at (0,0,0) and (1,0,0) with `CalcInterTerm` in the
point-dipole mode, `x` with all entries `1+i` and `y` with the entries `k+i`. -/
theorem MatVecSparse_hermitian_witness :
    ∃ sH sA, MatVecSparse (sampleGlobals false) sampleExtern
        (CalcInterTerm sampleEnv (sampleInter .G_POINT_DIP)) true (sampleSparseState none)
          = .ok sH ∧
      MatVecSparse (sampleGlobals false) sampleExtern
        (CalcInterTerm sampleEnv (sampleInter .G_POINT_DIP)) false
        ⟨fun k => ⟨(k : ℚ), 1⟩, fun _ => ⟨0, 0⟩, none, fun _ => ⟨0, 0⟩, fun _ => ⟨0, 0⟩, 0⟩
          = .ok sA ∧
      ∑ k in Finset.range 6, cConj (⟨(k : ℚ), 1⟩ : Cplx ℚ) * sH.resultvec k =
        cConj (∑ k in Finset.range 6,
          cConj ((sampleSparseState none).argvec k) * sA.resultvec k) :=
  MatVecSparse_hermitian (sampleGlobals false) sampleExtern
    (CalcInterTerm sampleEnv (sampleInter .G_POINT_DIP))
    (interTensor (CalcInterTerm sampleEnv (sampleInter .G_POINT_DIP)))
    rfl rfl rfl rfl (fun _ _ => rfl) (fun _ _ => rfl)
    (fun i j hi hj hne r => CalcInterTerm_pointDip_tensor _ _ rfl _ _ _ (by
      have hi2 : i < 2 := hi
      have hj2 : j < 2 := hj
      interval_cases i <;> interval_cases j <;> simp [sampleGlobals] at hne ⊢) r)
    (fun a b c k => by
      unfold interTensor
      rw [CalcInterTerm_reciprocity sampleEnv (sampleInter .G_POINT_DIP) a b c _ (Or.inl rfl)])
    (sampleSparseState none)
    ⟨fun k => ⟨(k : ℚ), 1⟩, fun _ => ⟨0, 0⟩, none, fun _ => ⟨0, 0⟩, fun _ => ⟨0, 0⟩, 0⟩

/-- A property kept by every pass of a loop holds after the loop. -/
theorem forLoop_inv {σ : Type} (P : σ → Prop) (n : Nat) (body : Nat → σ → σ)
    (h : ∀ i, i < n → ∀ s, P s → P (body i s)) (s : σ) (hs : P s) : P (forLoop n body s) := by
  induction n with
  | zero => exact hs
  | succ m ih =>
    exact h m (Nat.lt_succ_self m) _ (ih (fun i hi => h i (Nat.lt_succ_of_lt hi)))

/-- A transform in place keeps an array zero on a set `Z` of indices when the transformed
vector lies inside `Z` or outside `Z` and the transform of the zero vector is zero. -/
theorem transformRow_keeps (T : Transform1D R)
    (hT : ∀ dir n m, m < n → T dir n (fun _ => Cplx.zero) m = Cplx.zero)
    (Z : Nat → Prop) (isign : Direction) (nn start : Nat)
    (hrow : (∀ m, m < nn → Z (start + m)) ∨ (∀ m, m < nn → ¬ Z (start + m)))
    (a : Nat → Cplx R) (ha : ∀ k, Z k → a k = Cplx.zero) :
    ∀ k, Z k → transformRow T isign nn start a k = Cplx.zero := by
  intro k hk
  unfold transformRow
  by_cases hin : start ≤ k ∧ k < start + nn
  · rw [if_pos hin]
    rcases hrow with hall | hnone
    · have hz : (fun m => if m < nn then a (start + m) else Cplx.zero) = fun _ => Cplx.zero := by
        funext m
        by_cases hm : m < nn
        · rw [if_pos hm]
          exact ha _ (hall m hm)
        · rw [if_neg hm]
      rw [hz]
      exact hT isign nn (k - start) (by omega)
    · exfalso
      have := hnone (k - start) (by omega)
      rw [show start + (k - start) = k by omega] at this
      exact this hk
  · rw [if_neg hin]
    exact ha k hk

/-- A call of `cfft99_` keeps an array zero on a set `Z` of indices when each of the transformed
vectors lies inside `Z` or outside `Z`. -/
theorem cfft99_keeps (T : Transform1D R)
    (hT : ∀ dir n m, m < n → T dir n (fun _ => Cplx.zero) m = Cplx.zero)
    (Z : Nat → Prop) (isign : Direction) (start jump nn lot : Nat)
    (hrow : ∀ b, b < lot → (∀ m, m < nn → Z (start + b * jump + m)) ∨
      (∀ m, m < nn → ¬ Z (start + b * jump + m)))
    (a : Nat → Cplx R) (ha : ∀ k, Z k → a k = Cplx.zero) :
    ∀ k, Z k → cfft99 T a start jump nn lot isign k = Cplx.zero :=
  forLoop_inv (fun a => ∀ k, Z k → a k = Cplx.zero) lot _
    (fun b hb a ha => transformRow_keeps T hT Z isign nn _ (hrow b hb) a ha) a ha

/-- The transform `fftY` keeps the array `slices_tr` zero when it is zero (on its `3*gridYZ`
entries). -/
theorem fftY_zero (backend : FFTBackend) (g : MatVecGlobals R) (T : Transform1D R)
    (hT : ∀ dir n m, m < n → T dir n (fun _ => Cplx.zero) m = Cplx.zero)
    (hYZ : g.gridYZ = g.gridY * g.gridZ) (hgZ : g.gridZ = 2 * g.smallZ)
    (isign : Direction) (a : Nat → Cplx R) (ha : ∀ k, k < 3 * g.gridYZ → a k = Cplx.zero) :
    ∀ k, k < 3 * g.gridYZ → fftY backend g T isign a k = Cplx.zero := by
  unfold fftY
  cases backend with
  | FFTW3 =>
    refine forLoop_inv (fun a => ∀ k, k < 3 * g.gridYZ → a k = Cplx.zero) _ _
      (fun i hi a ha => transformRow_keeps T hT _ isign _ _ (Or.inl (fun m hm => ?_)) a ha) a ha
    rw [hYZ]
    have : (i + 1) * g.gridY ≤ 3 * g.gridZ * g.gridY := Nat.mul_le_mul_right _ hi
    nlinarith
  | FFT_TEMPERTON =>
    refine forLoop_inv (fun a => ∀ k, k < 3 * g.gridYZ → a k = Cplx.zero) _ _
      (fun j hj a ha => cfft99_keeps T hT _ isign _ _ _ _
        (fun b hb => Or.inl (fun m hm => ?_)) a ha) a ha
    rw [hYZ, hgZ]
    have h1 : (b + 1) * g.gridY ≤ g.smallZ * g.gridY := Nat.mul_le_mul_right _ hb
    have h2 : (j + 1) * (g.gridY * g.smallZ) ≤ 6 * (g.gridY * g.smallZ) :=
      Nat.mul_le_mul_right _ hj
    nlinarith

/-- The transform `fftZ` keeps the array `slices` zero when it is zero (on its `3*gridYZ`
entries). -/
theorem fftZ_zero (backend : FFTBackend) (g : MatVecGlobals R) (T : Transform1D R)
    (hT : ∀ dir n m, m < n → T dir n (fun _ => Cplx.zero) m = Cplx.zero)
    (hYZ : g.gridYZ = g.gridY * g.gridZ) (hbY : g.boxY ≤ g.gridY)
    (isign : Direction) (a : Nat → Cplx R) (ha : ∀ k, k < 3 * g.gridYZ → a k = Cplx.zero) :
    ∀ k, k < 3 * g.gridYZ → fftZ backend g T isign a k = Cplx.zero := by
  unfold fftZ
  cases backend with
  | FFTW3 =>
    refine forLoop_inv (fun a => ∀ k, k < 3 * g.gridYZ → a k = Cplx.zero) _ _
      (fun i0 hi0 a ha => forLoop_inv (fun a => ∀ k, k < 3 * g.gridYZ → a k = Cplx.zero) _ _
        (fun i1 hi1 a ha => transformRow_keeps T hT _ isign _ _
          (Or.inl (fun m hm => ?_)) a ha) a ha) a ha
    rw [hYZ]
    have h1 : (i1 + 1) * g.gridZ ≤ g.gridY * g.gridZ :=
      Nat.mul_le_mul_right _ (by omega)
    have h2 : (i0 + 1) * (g.gridZ * g.gridY) ≤ 3 * (g.gridZ * g.gridY) :=
      Nat.mul_le_mul_right _ hi0
    nlinarith
  | FFT_TEMPERTON =>
    refine forLoop_inv (fun a => ∀ k, k < 3 * g.gridYZ → a k = Cplx.zero) _ _
      (fun Xcomp hX a ha => cfft99_keeps T hT _ isign _ _ _ _
        (fun b hb => Or.inl (fun m hm => ?_)) a ha) a ha
    rw [hYZ]
    have h1 : (b + 1) * g.gridZ ≤ g.gridY * g.gridZ :=
      Nat.mul_le_mul_right _ (by omega)
    have h2 : (g.gridY * g.gridZ) * (Xcomp + 1) ≤ (g.gridY * g.gridZ) * 3 :=
      Nat.mul_le_mul_left _ hX
    nlinarith

/-- The coordinates of an entry of `Xmatrix`: the entry `(i0*smallY + i1)*gridX + m` with
`m < gridX` and `i1 < smallY` has the quotients and remainders `i0`, `i1`, `m`. -/
theorem xmatrix_coords (gridX smallY i0 i1 m k : Nat) (hm : m < gridX) (hi1 : i1 < smallY)
    (hk : k = i0 * (smallY * gridX) + i1 * gridX + m) :
    k / gridX = i0 * smallY + i1 ∧ k % gridX = m ∧ (k / gridX) % smallY = i1 ∧
      k / (gridX * smallY) = i0 := by
  have hX : 0 < gridX := by omega
  have hY : 0 < smallY := by omega
  have hk2 : k = m + gridX * (i0 * smallY + i1) := by rw [hk]; ring
  have h1 : k / gridX = i0 * smallY + i1 := by
    rw [hk2, Nat.add_mul_div_left _ _ hX, Nat.div_eq_of_lt hm, Nat.zero_add]
  have h2 : k % gridX = m := by
    rw [hk2, Nat.add_mul_mod_self_left, Nat.mod_eq_of_lt hm]
  have h3 : (i0 * smallY + i1) % smallY = i1 := by
    rw [Nat.add_comm, Nat.mul_comm, Nat.add_mul_mod_self_left, Nat.mod_eq_of_lt hi1]
  have h4 : (i0 * smallY + i1) / smallY = i0 := by
    rw [Nat.add_comm, Nat.mul_comm, Nat.add_mul_div_left _ _ hY, Nat.div_eq_of_lt hi1,
      Nat.zero_add]
  refine ⟨h1, h2, ?_, ?_⟩
  · rw [h1, h3]
  · rw [← Nat.div_div_eq_div_mul, h1, h4]

/-- An entry of a vector transformed by `fftX` lies in the `3*local_Nsmall` entries of
`Xmatrix`. -/
theorem xmatrix_row_lt (gridX smallY local_Nz i0 i1 m : Nat) (hi0 : i0 < 3 * local_Nz)
    (hi1 : i1 < smallY) (hm : m < gridX) :
    i0 * (smallY * gridX) + i1 * gridX + m < 3 * (gridX * smallY * local_Nz) := by
  have h1 : (i1 + 1) * gridX ≤ smallY * gridX := Nat.mul_le_mul_right _ hi1
  have h2 : (i0 + 1) * (smallY * gridX) ≤ 3 * local_Nz * (smallY * gridX) :=
    Nat.mul_le_mul_right _ hi0
  nlinarith

/-- The transform `fftX` keeps `Xmatrix` zero on a set `Z` of indices when each of the
transformed vectors (the rows `i0 < 3*local_Nz`, `i1 < boxY`) lies inside `Z` or outside `Z`. -/
theorem fftX_keeps (backend : FFTBackend) (g : MatVecGlobals R) (T : Transform1D R)
    (hT : ∀ dir n m, m < n → T dir n (fun _ => Cplx.zero) m = Cplx.zero)
    (Z : Nat → Prop)
    (hrow : ∀ i0 i1, i0 < 3 * g.local_Nz → i1 < g.boxY →
      (∀ m, m < g.gridX → Z (i0 * (g.smallY * g.gridX) + i1 * g.gridX + m)) ∨
      (∀ m, m < g.gridX → ¬ Z (i0 * (g.smallY * g.gridX) + i1 * g.gridX + m)))
    (isign : Direction) (a : Nat → Cplx R) (ha : ∀ k, Z k → a k = Cplx.zero) :
    ∀ k, Z k → fftX backend g T isign a k = Cplx.zero := by
  unfold fftX
  cases backend with
  | FFTW3 =>
    exact forLoop_inv (fun a => ∀ k, Z k → a k = Cplx.zero) _ _
      (fun i0 hi0 a ha => forLoop_inv (fun a => ∀ k, Z k → a k = Cplx.zero) _ _
        (fun i1 hi1 a ha => transformRow_keeps T hT _ isign _ _ (hrow i0 i1 hi0 hi1) a ha)
        a ha) a ha
  | FFT_TEMPERTON =>
    refine forLoop_inv (fun a => ∀ k, Z k → a k = Cplx.zero) _ _
      (fun z hz a ha => cfft99_keeps T hT _ isign _ _ _ _ (fun b hb => ?_) a ha) a ha
    have e : z * g.gridX * g.smallY = z * (g.smallY * g.gridX) := by ring
    rw [e]
    exact hrow z b hz hb

/-- The transform `fftX` keeps `Xmatrix` zero when it is zero (on its `3*local_Nsmall`
entries). -/
theorem fftX_zero (backend : FFTBackend) (g : MatVecGlobals R) (T : Transform1D R)
    (hT : ∀ dir n m, m < n → T dir n (fun _ => Cplx.zero) m = Cplx.zero)
    (hNs : g.local_Nsmall = g.gridX * g.smallY * g.local_Nz) (hbY : g.boxY ≤ g.smallY)
    (isign : Direction) (a : Nat → Cplx R)
    (ha : ∀ k, k < 3 * g.local_Nsmall → a k = Cplx.zero) :
    ∀ k, k < 3 * g.local_Nsmall → fftX backend g T isign a k = Cplx.zero :=
  fftX_keeps backend g T hT _ (fun i0 i1 hi0 hi1 => Or.inl (fun m hm => by
    rw [hNs]
    exact xmatrix_row_lt _ _ _ _ _ _ hi0 (by omega) hm)) isign a ha

/-- The transform `fftX` keeps `Xmatrix` zero outside the rows of the box (the entries with
`y < boxY` and `z < boxZ`) when it is zero there. -/
theorem fftX_zero_outside_box (backend : FFTBackend) (g : MatVecGlobals R) (T : Transform1D R)
    (hT : ∀ dir n m, m < n → T dir n (fun _ => Cplx.zero) m = Cplx.zero)
    (hNs : g.local_Nsmall = g.gridX * g.smallY * g.local_Nz) (hbY : g.boxY ≤ g.smallY)
    (isign : Direction) (a : Nat → Cplx R)
    (ha : ∀ k, (k < 3 * g.local_Nsmall ∧ ¬ ((k / g.gridX) % g.smallY < g.boxY ∧
      (k / (g.gridX * g.smallY)) % g.local_Nz < g.boxZ)) → a k = Cplx.zero) :
    ∀ k, (k < 3 * g.local_Nsmall ∧ ¬ ((k / g.gridX) % g.smallY < g.boxY ∧
      (k / (g.gridX * g.smallY)) % g.local_Nz < g.boxZ)) →
      fftX backend g T isign a k = Cplx.zero := by
  refine fftX_keeps backend g T hT _ (fun i0 i1 hi0 hi1 => ?_) isign a ha
  by_cases hz : i0 % g.local_Nz < g.boxZ
  · refine Or.inr (fun m hm hZ => hZ.2 ?_)
    obtain ⟨-, -, h3, h4⟩ := xmatrix_coords g.gridX g.smallY i0 i1 m _ hm (by omega) rfl
    rw [h3, h4]
    exact ⟨hi1, hz⟩
  · refine Or.inl (fun m hm => ⟨?_, fun hbox => hz ?_⟩)
    · rw [hNs]
      exact xmatrix_row_lt _ _ _ _ _ _ hi0 (by omega) hm
    · obtain ⟨-, -, -, h4⟩ := xmatrix_coords g.gridX g.smallY i0 i1 m _ hm (by omega) rfl
      rw [h4] at hbox
      exact hbox.2

/-- The entry `IndexXmatrix(x,y,z) + c*local_Nsmall` of a position inside the box lies in a row
of the box, has the remainder `x` and lies in the `3*local_Nsmall` entries of `Xmatrix`. -/
theorem box_entry (g : MatVecGlobals R)
    (hNs : g.local_Nsmall = g.gridX * g.smallY * g.local_Nz) (hbY : g.boxY ≤ g.smallY)
    (hbZ : g.boxZ ≤ g.local_Nz) (x y z c : Nat) (hx : x < g.gridX) (hy : y < g.boxY)
    (hz : z < g.boxZ) (hc : c < 3) :
    ((IndexXmatrix g x y z + c * g.local_Nsmall) / g.gridX) % g.smallY < g.boxY ∧
    ((IndexXmatrix g x y z + c * g.local_Nsmall) / (g.gridX * g.smallY)) % g.local_Nz
      < g.boxZ ∧
    (IndexXmatrix g x y z + c * g.local_Nsmall) % g.gridX = x ∧
    IndexXmatrix g x y z + c * g.local_Nsmall < 3 * g.local_Nsmall := by
  have hk : IndexXmatrix g x y z + c * g.local_Nsmall =
      (c * g.local_Nz + z) * (g.smallY * g.gridX) + y * g.gridX + x := by
    rw [hNs, IndexXmatrix]; ring
  obtain ⟨-, h2, h3, h4⟩ := xmatrix_coords g.gridX g.smallY (c * g.local_Nz + z) y x _ hx
    (by omega) hk
  have hzz : (c * g.local_Nz + z) % g.local_Nz = z := by
    rw [Nat.add_comm, Nat.mul_comm, Nat.add_mul_mod_self_left, Nat.mod_eq_of_lt (by omega)]
  refine ⟨by rw [h3]; exact hy, by rw [h4, hzz]; exact hz, h2, ?_⟩
  rw [hk, hNs]
  refine xmatrix_row_lt _ _ _ _ _ _ ?_ (by omega) hx
  have : (c + 1) * g.local_Nz ≤ 3 * g.local_Nz := Nat.mul_le_mul_right _ hc
  nlinarith

/-- An entry of `Xmatrix` in a row of the box is the entry `IndexXmatrix(x,y,z) +
c*local_Nsmall` of a position inside the box, with `x` its remainder by `gridX`. -/
theorem box_entry_coords (g : MatVecGlobals R)
    (hNs : g.local_Nsmall = g.gridX * g.smallY * g.local_Nz) (k : Nat)
    (hk : k < 3 * g.local_Nsmall)
    (hbox : (k / g.gridX) % g.smallY < g.boxY ∧
      (k / (g.gridX * g.smallY)) % g.local_Nz < g.boxZ) :
    ∃ c y z, c < 3 ∧ y < g.boxY ∧ z < g.boxZ ∧ k % g.gridX < g.gridX ∧
      k = IndexXmatrix g (k % g.gridX) y z + c * g.local_Nsmall := by
  have hpos : 0 < g.gridX * g.smallY * g.local_Nz := by
    rcases Nat.eq_zero_or_pos (g.gridX * g.smallY * g.local_Nz) with h0 | h0
    · rw [hNs, h0] at hk; omega
    · exact h0
  have hXY : 0 < g.gridX * g.smallY := Nat.pos_of_mul_pos_right hpos
  have hNz : 0 < g.local_Nz := Nat.pos_of_mul_pos_left hpos
  have hX : 0 < g.gridX := Nat.pos_of_mul_pos_right hXY
  have e1 := Nat.div_add_mod k g.gridX
  have e2 := Nat.div_add_mod (k / g.gridX) g.smallY
  have e3 := Nat.div_add_mod (k / (g.gridX * g.smallY)) g.local_Nz
  have e4 : k / g.gridX / g.smallY = k / (g.gridX * g.smallY) := Nat.div_div_eq_div_mul _ _ _
  rw [e4] at e2
  refine ⟨k / (g.gridX * g.smallY) / g.local_Nz, (k / g.gridX) % g.smallY,
    (k / (g.gridX * g.smallY)) % g.local_Nz, ?_, hbox.1, hbox.2, Nat.mod_lt _ hX, ?_⟩
  · rw [Nat.div_lt_iff_lt_mul hNz, Nat.div_lt_iff_lt_mul hXY]
    rw [hNs] at hk
    nlinarith
  · rw [hNs, IndexXmatrix]
    generalize k / (g.gridX * g.smallY) / g.local_Nz = c at *
    generalize k / (g.gridX * g.smallY) % g.local_Nz = z at *
    generalize k / (g.gridX * g.smallY) = i0 at *
    generalize k / g.gridX % g.smallY = y at *
    generalize k / g.gridX = q at *
    generalize k % g.gridX = x at *
    rw [← e1, ← e2, ← e3]
    ring

/-- A property of the state after `i` passes that every pass carries from `i` to `i+1` holds
after the loop for `n`. -/
theorem forLoop_inv_idx {σ : Type} (P : Nat → σ → Prop) (n : Nat) (body : Nat → σ → σ)
    (h : ∀ i, i < n → ∀ s, P i s → P (i + 1) (body i s)) (s : σ) (hs : P 0 s) :
    P n (forLoop n body s) := by
  induction n with
  | zero => exact hs
  | succ m ih =>
    exact h m (Nat.lt_succ_self m) _ (ih (fun i hi => h i (Nat.lt_succ_of_lt hi)))

/-- After `Xmatrix` is filled with zeros and with the dipole values of positions inside the
box, it is zero outside the rows of the box. -/
theorem scatter_zero_outside_box (g : MatVecGlobals R) (argvec X : Nat → Cplx R)
    (hNs : g.local_Nsmall = g.gridX * g.smallY * g.local_Nz) (hbY : g.boxY ≤ g.smallY)
    (hbZ : g.boxZ ≤ g.local_Nz)
    (hpos : ∀ i, i < g.local_nvoid_Ndip → g.position (3 * i) < g.gridX ∧
      g.position (3 * i + 1) < g.boxY ∧ g.position (3 * i + 2) < g.boxZ) :
    ∀ k, (k < 3 * g.local_Nsmall ∧ ¬ ((k / g.gridX) % g.smallY < g.boxY ∧
      (k / (g.gridX * g.smallY)) % g.local_Nz < g.boxZ)) →
      forLoop g.local_nvoid_Ndip (scatterBody g argvec)
        (forLoop (3 * g.local_Nsmall) (fun i X => Function.update X i Cplx.zero) X) k
        = Cplx.zero := by
  refine forLoop_inv (fun (X : Nat → Cplx R) => ∀ k, (k < 3 * g.local_Nsmall ∧
    ¬ ((k / g.gridX) % g.smallY < g.boxY ∧
      (k / (g.gridX * g.smallY)) % g.local_Nz < g.boxZ)) → X k = Cplx.zero) _ _
    (fun i hi X hX k hk => ?_) _ (fun k hk => ?_)
  · obtain ⟨hx, hy, hz⟩ := hpos i hi
    have hne : ∀ c, c < 3 → k ≠ IndexXmatrix g (g.position (3 * i)) (g.position (3 * i + 1))
        (g.position (3 * i + 2)) + c * g.local_Nsmall := by
      intro c hc hkc
      obtain ⟨b1, b2, -, -⟩ := box_entry g hNs hbY hbZ _ _ _ c hx hy hz hc
      rw [← hkc] at b1 b2
      exact hk.2 ⟨b1, b2⟩
    simp only [scatterBody, forLoop, Function.update_apply, if_neg (hne 0 (by omega)),
      if_neg (hne 1 (by omega)), if_neg (hne 2 (by omega))]
    exact hX k hk
  · rw [forLoop_update_apply (fun _ _ => Cplx.zero), if_pos hk.1]

/-- The statements that change signs keep a tensor of zeros. -/
theorem flipSigns_zero (g : MatVecGlobals R) (y z c : Nat) :
    flipSigns g y z (fun _ => Cplx.zero) c = Cplx.zero := by
  unfold flipSigns
  split_ifs <;> simp [Function.update_apply, cInvSign, Cplx.zero]

/-- The product of a tensor of zeros with a vector is zero. -/
theorem cSymMatrVec_zero (fmat xv : Nat → Cplx R) (h : ∀ c, fmat c = Cplx.zero) (n : Nat) :
    cSymMatrVec fmat xv n = Cplx.zero := by
  unfold cSymMatrVec
  rcases n with _ | _ | n <;> simp [h, cMult, cAdd, Cplx.zero]

/-- With a kernel of zeros the product `D~*X~` leaves `slices_tr` zero (on its `3*gridYZ`
entries). -/
theorem multiplySlices_zero (g : MatVecGlobals R) (x : Nat) (transposed : Bool)
    (hD : ∀ n, g.Dmatrix n = Cplx.zero) (hYZ : g.gridYZ = g.gridY * g.gridZ)
    (st : Nat → Cplx R) :
    ∀ k, k < 3 * g.gridYZ → multiplySlices g x transposed st k = Cplx.zero := by
  intro k hk
  have hz : ∀ (y z : Nat) (xv : Nat → Cplx R) (n : Nat), cSymMatrVec (flipSigns g y z (fun c =>
      g.Dmatrix (IndexDmatrix_mv g (x - g.local_x0) y z transposed + c))) xv n = Cplx.zero := by
    intro y z xv n
    refine cSymMatrVec_zero _ _ (fun c => ?_) n
    simp only [hD]
    exact flipSigns_zero g y z c
  have key : ∀ d idx,
      ((∃ z, z < g.gridZ ∧ ∃ y, y < g.gridY ∧ ∃ c, c < 3 ∧
        idx = IndexSliceZY g y z + c * g.gridYZ) →
        multiplySlices g x transposed d idx = (fun _ => (Cplx.zero : Cplx R)) idx) ∧
      ((¬ ∃ z, z < g.gridZ ∧ ∃ y, y < g.gridY ∧ ∃ c, c < 3 ∧
        idx = IndexSliceZY g y z + c * g.gridYZ) →
        multiplySlices g x transposed d idx = d idx) := by
    unfold multiplySlices
    refine forLoop_writes (fun _ => (Cplx.zero : Cplx R)) g.gridZ _ _
      (fun z _ => forLoop_writes (fun _ => (Cplx.zero : Cplx R)) g.gridY _ _
        (fun y _ d idx => ?_))
    simp only [forLoop, hz, Function.update_apply]
    constructor
    · rintro ⟨c, hc, rfl⟩
      split_ifs with h2 h1 h0
      all_goals first
        | rfl
        | (exfalso; interval_cases c; exacts [h0 rfl, h1 rfl, h2 rfl])
    · intro hn
      have h0 : idx ≠ IndexSliceZY g y z + 0 * g.gridYZ := fun h => hn ⟨0, by omega, h⟩
      have h1 : idx ≠ IndexSliceZY g y z + 1 * g.gridYZ := fun h => hn ⟨1, by omega, h⟩
      have h2 : idx ≠ IndexSliceZY g y z + 2 * g.gridYZ := fun h => hn ⟨2, by omega, h⟩
      rw [if_neg h2, if_neg h1, if_neg h0]
  refine (key st k).1 ?_
  have hk2 : k < 3 * (g.gridZ * g.gridY) := by rw [hYZ, Nat.mul_comm g.gridY] at hk; exact hk
  obtain ⟨c, z, y, hc, hz, hy, e⟩ := index_decompose g.gridZ g.gridY k hk2
  refine ⟨z, hz, y, hy, c, hc, ?_⟩
  rw [e, hYZ, IndexSliceZY]
  ring

/-- The backward `TransposeYZ` of an array `slices_tr` of zeros leaves `slices` zero (on its
`3*gridYZ` entries). -/
theorem TransposeYZ_backward_zero (gridY gridZ gridYZ : Nat) (hYZ : gridYZ = gridY * gridZ)
    (sl st : Nat → Cplx R) (hst : ∀ k, k < 3 * gridYZ → st k = Cplx.zero) :
    ∀ k, k < 3 * gridYZ →
      (TransposeYZ gridY gridZ gridYZ .FFT_BACKWARD sl st).1 k = Cplx.zero := by
  intro k hk
  have hZY : gridYZ = gridZ * gridY := by rw [hYZ, Nat.mul_comm]
  have hk2 : k < 3 * (gridY * gridZ) := by rw [hYZ] at hk; exact hk
  obtain ⟨c, y, z, hc, hy, hz, e⟩ := index_decompose gridY gridZ k hk2
  have h := (transposeComps_spec gridZ gridY gridYZ hZY st sl).1 c z y hc hz hy
  rw [e, ← hYZ]
  refine h.trans (hst _ ?_)
  have h1 := cell_lt gridY gridZ y z hy hz
  rw [hYZ]
  have h2 : (c + 1) * (gridY * gridZ) ≤ 3 * (gridY * gridZ) := Nat.mul_le_mul_right _ hc
  nlinarith

/-- The copy of a slice of zeros back to `Xmatrix` stores zeros in the entries of the slice `x`
in the rows of the box and keeps the other entries. -/
theorem copyBack_zero (g : MatVecGlobals R) (x : Nat) (slices : Nat → Cplx R)
    (hYZ : g.gridYZ = g.gridY * g.gridZ) (hbY : g.boxY ≤ g.gridY) (hbZ : g.boxZ ≤ g.gridZ)
    (hsl : ∀ k, k < 3 * g.gridYZ → slices k = Cplx.zero) :
    ∀ X idx,
      ((∃ y, y < g.boxY ∧ ∃ z, z < g.boxZ ∧ ∃ c, c < 3 ∧
        idx = IndexGarbledX g x y z + c * g.local_Nsmall) →
        copyBack g x slices X idx = (fun _ => (Cplx.zero : Cplx R)) idx) ∧
      ((¬ ∃ y, y < g.boxY ∧ ∃ z, z < g.boxZ ∧ ∃ c, c < 3 ∧
        idx = IndexGarbledX g x y z + c * g.local_Nsmall) →
        copyBack g x slices X idx = X idx) := by
  unfold copyBack
  refine forLoop_writes (fun _ => (Cplx.zero : Cplx R)) g.boxY _ _
    (fun y hy => forLoop_writes (fun _ => (Cplx.zero : Cplx R)) g.boxZ _ _
      (fun z hz d idx => ?_))
  have hv : ∀ c, c < 3 → slices (IndexSliceYZ g y z + c * g.gridYZ) = Cplx.zero := by
    intro c hc
    refine hsl _ ?_
    have h1 := cell_lt g.gridZ g.gridY z y (by omega) (by omega)
    have h2 : (c + 1) * g.gridYZ ≤ 3 * g.gridYZ := Nat.mul_le_mul_right _ hc
    rw [IndexSliceYZ]
    rw [hYZ] at h2 ⊢
    nlinarith
  simp only [forLoop, Function.update_apply, hv 0 (by omega), hv 1 (by omega),
    hv 2 (by omega)]
  constructor
  · rintro ⟨c, hc, rfl⟩
    split_ifs with h2 h1 h0
    all_goals first
      | rfl
      | (exfalso; interval_cases c; exacts [h0 rfl, h1 rfl, h2 rfl])
  · intro hn
    have h0 : idx ≠ IndexGarbledX g x y z + 0 * g.local_Nsmall := fun h => hn ⟨0, by omega, h⟩
    have h1 : idx ≠ IndexGarbledX g x y z + 1 * g.local_Nsmall := fun h => hn ⟨1, by omega, h⟩
    have h2 : idx ≠ IndexGarbledX g x y z + 2 * g.local_Nsmall := fun h => hn ⟨2, by omega, h⟩
    rw [if_neg h2, if_neg h1, if_neg h0]

/-- One pass of the loop over the slices with a kernel of zeros, when the backward transforms
`fftY` and `fftZ` keep a zero array zero: `Xmatrix` gets zeros in the entries of the slice `x`
in the rows of the box and keeps its other entries. -/
theorem sliceBody_zero (g : MatVecGlobals R) (ext : MatVecExtern R) (transposed : Bool)
    (x : Nat) (hD : ∀ n, g.Dmatrix n = Cplx.zero) (hYZ : g.gridYZ = g.gridY * g.gridZ)
    (hbY : g.boxY ≤ g.gridY) (hbZ : g.boxZ ≤ g.gridZ)
    (hY : ∀ a, (∀ k, k < 3 * g.gridYZ → a k = Cplx.zero) →
      ∀ k, k < 3 * g.gridYZ → ext.fftY .FFT_BACKWARD a k = Cplx.zero)
    (hZ : ∀ a, (∀ k, k < 3 * g.gridYZ → a k = Cplx.zero) →
      ∀ k, k < 3 * g.gridYZ → ext.fftZ .FFT_BACKWARD a k = Cplx.zero)
    (s : (Nat → Cplx R) × (Nat → Cplx R) × (Nat → Cplx R)) (idx : Nat) :
    ((∃ y, y < g.boxY ∧ ∃ z, z < g.boxZ ∧ ∃ c, c < 3 ∧
      idx = IndexGarbledX g x y z + c * g.local_Nsmall) →
      (sliceBody g ext transposed x s).1 idx = Cplx.zero) ∧
    ((¬ ∃ y, y < g.boxY ∧ ∃ z, z < g.boxZ ∧ ∃ c, c < 3 ∧
      idx = IndexGarbledX g x y z + c * g.local_Nsmall) →
      (sliceBody g ext transposed x s).1 idx = s.1 idx) := by
  unfold sliceBody
  dsimp only
  exact copyBack_zero g x _ hYZ hbY hbZ
    (hZ _ (TransposeYZ_backward_zero g.gridY g.gridZ g.gridYZ hYZ _ _
      (hY _ (multiplySlices_zero g x transposed hD hYZ _)))) s.1 idx

/-- The loop over all slices `x` of a sequential run with a kernel of zeros, started from an
`Xmatrix` that is zero outside the rows of the box, leaves `Xmatrix` zero (on its
`3*local_Nsmall` entries). -/
theorem sliceLoop_zero (g : MatVecGlobals R) (ext : MatVecExtern R) (transposed : Bool)
    (hPar : g.PARALLEL = false) (hx0 : g.local_x0 = 0) (hx1 : g.local_x1 = g.gridX)
    (hNs : g.local_Nsmall = g.gridX * g.smallY * g.local_Nz)
    (hD : ∀ n, g.Dmatrix n = Cplx.zero) (hYZ : g.gridYZ = g.gridY * g.gridZ)
    (hbY : g.boxY ≤ g.gridY) (hbZ : g.boxZ ≤ g.gridZ)
    (hY : ∀ a, (∀ k, k < 3 * g.gridYZ → a k = Cplx.zero) →
      ∀ k, k < 3 * g.gridYZ → ext.fftY .FFT_BACKWARD a k = Cplx.zero)
    (hZ : ∀ a, (∀ k, k < 3 * g.gridYZ → a k = Cplx.zero) →
      ∀ k, k < 3 * g.gridYZ → ext.fftZ .FFT_BACKWARD a k = Cplx.zero)
    (s : (Nat → Cplx R) × (Nat → Cplx R) × (Nat → Cplx R))
    (hs : ∀ k, (k < 3 * g.local_Nsmall ∧ ¬ ((k / g.gridX) % g.smallY < g.boxY ∧
      (k / (g.gridX * g.smallY)) % g.local_Nz < g.boxZ)) → s.1 k = Cplx.zero) :
    ∀ k, k < 3 * g.local_Nsmall →
      (forRange g.local_x0 g.local_x1 (sliceBody g ext transposed) s).1 k = Cplx.zero := by
  have hgar : ∀ x y z, IndexGarbledX g x y z = IndexXmatrix g x y z := by
    intro x y z
    simp [IndexGarbledX, IndexXmatrix, hPar]
  have inv := forLoop_inv_idx
    (fun n (s : (Nat → Cplx R) × (Nat → Cplx R) × (Nat → Cplx R)) =>
      ∀ k, k < 3 * g.local_Nsmall →
        (¬ ((k / g.gridX) % g.smallY < g.boxY ∧
          (k / (g.gridX * g.smallY)) % g.local_Nz < g.boxZ) ∨ k % g.gridX < n) →
        s.1 k = Cplx.zero)
    (g.local_x1 - g.local_x0) (fun n => sliceBody g ext transposed (g.local_x0 + n))
    (fun n _ s hsn k hk hcase => by
      have hsb := sliceBody_zero g ext transposed (g.local_x0 + n) hD hYZ hbY hbZ hY hZ s k
      by_cases hw : ∃ y, y < g.boxY ∧ ∃ z, z < g.boxZ ∧ ∃ c, c < 3 ∧
          k = IndexGarbledX g (g.local_x0 + n) y z + c * g.local_Nsmall
      · exact hsb.1 hw
      · rw [hsb.2 hw]
        refine hsn k hk ?_
        by_cases hbox : (k / g.gridX) % g.smallY < g.boxY ∧
            (k / (g.gridX * g.smallY)) % g.local_Nz < g.boxZ
        · right
          rcases hcase with hnb | hlt
          · exact absurd hbox hnb
          · rcases Nat.lt_succ_iff_lt_or_eq.mp hlt with h | h
            · exact h
            · exfalso
              obtain ⟨c, y, z, hc, hy, hz, -, e⟩ := box_entry_coords g hNs k hk hbox
              refine hw ⟨y, hy, z, hz, c, hc, ?_⟩
              rw [hgar, hx0, Nat.zero_add, ← h]
              exact e
        · exact Or.inl hbox)
    s (fun k hk hcase => by
      rcases hcase with hnb | hlt
      · exact hs k ⟨hk, hnb⟩
      · exact absurd hlt (Nat.not_lt_zero _))
  intro k hk
  refine inv k hk ?_
  by_cases hbox : (k / g.gridX) % g.smallY < g.boxY ∧
      (k / (g.gridX * g.smallY)) % g.local_Nz < g.boxZ
  · right
    rw [hx1, hx0, Nat.sub_zero]
    refine Nat.mod_lt _ ?_
    rcases Nat.eq_zero_or_pos g.gridX with h0 | h0
    · rw [hNs, h0] at hk
      simp at hk
    · exact h0
  · exact Or.inl hbox

/-- The loop that fills `resultvec`, run on an `Xmatrix` that is zero at the entries of the
dipoles: `resultvec` gets the entries of `argvec`. -/
theorem gather_zero (g : MatVecGlobals R) (argvec X : Nat → Cplx R) (n : Nat)
    (hX : ∀ i c, i < n → c < 3 →
      X (IndexXmatrix g (g.position (3 * i)) (g.position (3 * i + 1))
        (g.position (3 * i + 2)) + c * g.local_Nsmall) = Cplx.zero)
    (s : (Nat → Cplx R) × Option R) :
    ∀ i c, i < n → c < 3 →
      (forLoop n (gatherBody g argvec X) s).1 (3 * i + c) = argvec (3 * i + c) := by
  induction n with
  | zero => intro i c hi; exact absurd hi (Nat.not_lt_zero i)
  | succ m ih =>
    intro i c hi hc
    show (gatherBody g argvec X m (forLoop m (gatherBody g argvec X) s)).1 (3 * i + c) = _
    rcases Nat.lt_succ_iff_lt_or_eq.mp hi with hlt | rfl
    · rw [gatherBody_fst_other g argvec X m _ _ (Or.inl (by omega))]
      exact ih (fun i c hi hc => hX i c (Nat.lt_succ_of_lt hi) hc) i c hlt hc
    · have h0 := hX i 0 hi (by omega)
      have h1 := hX i 1 hi (by omega)
      have h2 := hX i 2 hi (by omega)
      simp only [Nat.zero_mul, Nat.add_zero, Nat.one_mul] at h0 h1 h2
      interval_cases c <;>
        simp [gatherBody, forLoop, Function.update_apply, h0, h1, h2, cAdd, cMult, Cplx.zero]

/-- The chain of `MatVec` from the filling of `Xmatrix` to the filling of `resultvec`, in a
sequential run with a kernel of zeros and transforms that map zero vectors to zero vectors: the
entries of `resultvec` for the local dipoles are those of `argvec`. -/
theorem MatVec_chain_zero (backend : FFTBackend) (g : MatVecGlobals R) (ext : MatVecExtern R)
    (T : Transform1D R) (transposed : Bool)
    (hT : ∀ dir n m, m < n → T dir n (fun _ => Cplx.zero) m = Cplx.zero)
    (hfX : ∀ dir a, ext.fftX dir a = fftX backend g T dir a)
    (hfY : ∀ dir a, ext.fftY dir a = fftY backend g T dir a)
    (hfZ : ∀ dir a, ext.fftZ dir a = fftZ backend g T dir a)
    (hBT : ∀ a, ext.BlockTranspose a = a)
    (hPar : g.PARALLEL = false) (hx0 : g.local_x0 = 0) (hx1 : g.local_x1 = g.gridX)
    (hNs : g.local_Nsmall = g.gridX * g.smallY * g.local_Nz)
    (hYZ : g.gridYZ = g.gridY * g.gridZ) (hgY : g.gridY = 2 * g.smallY)
    (hgZ : g.gridZ = 2 * g.smallZ) (hNz : g.local_Nz = g.smallZ)
    (hbY : g.boxY ≤ g.smallY) (hbZ : g.boxZ ≤ g.smallZ)
    (hpos : ∀ i, i < g.local_nvoid_Ndip → g.position (3 * i) < g.gridX ∧
      g.position (3 * i + 1) < g.boxY ∧ g.position (3 * i + 2) < g.boxZ)
    (hD : ∀ n, g.Dmatrix n = Cplx.zero)
    (argv X0 sl0 st0 : Nat → Cplx R) (p : (Nat → Cplx R) × Option R) :
    ∀ i c, i < g.local_nvoid_Ndip → c < 3 →
      (forLoop g.local_nvoid_Ndip (gatherBody g argv
        (ext.fftX .FFT_BACKWARD (ext.BlockTranspose
          (forRange g.local_x0 g.local_x1 (sliceBody g ext transposed)
            (ext.BlockTranspose (ext.fftX .FFT_FORWARD
              (forLoop g.local_nvoid_Ndip (scatterBody g argv)
                (forLoop (3 * g.local_Nsmall) (fun i X => Function.update X i Cplx.zero) X0))),
              sl0, st0)).1))) p).1 (3 * i + c) = argv (3 * i + c) := by
  have hbZ2 : g.boxZ ≤ g.local_Nz := by rw [hNz]; exact hbZ
  have h1 := scatter_zero_outside_box g argv X0 hNs hbY hbZ2 hpos
  have h2 := fftX_zero_outside_box backend g T hT hNs hbY .FFT_FORWARD _ h1
  have h3 := sliceLoop_zero g ext transposed hPar hx0 hx1 hNs hD hYZ (by omega) (by omega)
    (fun a ha => by rw [hfY]; exact fftY_zero backend g T hT hYZ hgZ _ a ha)
    (fun a ha => by rw [hfZ]; exact fftZ_zero backend g T hT hYZ (by omega) _ a ha)
    (ext.BlockTranspose (ext.fftX .FFT_FORWARD
      (forLoop g.local_nvoid_Ndip (scatterBody g argv)
        (forLoop (3 * g.local_Nsmall) (fun i X => Function.update X i Cplx.zero) X0))),
      sl0, st0)
    (by rw [hBT, hfX]; exact h2)
  have h4 := fftX_zero backend g T hT hNs hbY .FFT_BACKWARD _ h3
  refine gather_zero g argv _ g.local_nvoid_Ndip (fun i c hi hc => ?_) p
  obtain ⟨hx, hy, hz⟩ := hpos i hi
  rw [hBT, hfX]
  exact h4 _ (box_entry g hNs hbY hbZ2 _ _ _ c hx hy hz hc).2.2.2

/-- The function `cisi` raises no other error than the failure to converge. -/
theorem cisi_error (env : MathEnv R) (x : R) (e : Fatal R) (h : cisi env x = .error e) :
    e = .sinintNotConverged x := by
  unfold cisi at h
  dsimp only at h
  split_ifs at h <;> simp only [Except.map] at h <;> first
    | (injection h with h; exact h.symm)
    | cases h


/-- The error of a mapped run is the error of the run. -/
theorem except_map_eq_error {ε α β : Type} {x : Except ε α} {f : α → β} {e : ε}
    (h : x.map f = .error e) : x = .error e := by
  cases x with
  | error e' => simpa [Except.map] using h
  | ok a => simp [Except.map] at h

/-- The error of a chained run is the error of the first run or of the second. -/
theorem except_bind_eq_error {ε α β : Type} {x : Except ε α} {f : α → Except ε β} {e : ε}
    (h : x.bind f = .error e) : x = .error e ∨ ∃ a, f a = .error e := by
  cases x with
  | error e' => left; simpa [Except.bind] using h
  | ok a => right; exact ⟨a, by simpa [Except.bind] using h⟩

/-- Claim C26: in the mode `G_SO` with `anisotropy` set, `CalcInterTerm` ends with the error
"Incompatibility error in CalcInterTerm" for every displacement other than zero; with
`anisotropy` false it never ends with this error, in any mode and for any displacement. -/
theorem CalcInterTerm_anisotropy_error (env : MathEnv R) (cfg : InterConfig R) (i j k : Int)
    (result : Nat → Cplx R) :
    (cfg.IntRelation = .G_SO → cfg.anisotropy = true → ¬ (i = 0 ∧ j = 0 ∧ k = 0) →
      CalcInterTerm env cfg i j k result = .error .calcInterTermIncompatibility) ∧
    (cfg.anisotropy = false →
      CalcInterTerm env cfg i j k result ≠ .error .calcInterTermIncompatibility) := by
  constructor
  · intro hSO han hnz
    unfold CalcInterTerm
    simp only [hnz, hSO, if_false, lt_irrefl, false_and, and_false, reduceCtorEq, soBranch, han,
      if_true]
  · intro han h
    unfold CalcInterTerm at h
    dsimp only at h
    split_ifs at h with h1 h2 h3
    all_goals
      cases hm : cfg.IntRelation <;> simp only [hm] at h
    all_goals try cases h
    all_goals first
      | (have h' := cisi_error env _ _ (except_map_eq_error h); cases h')
      | (rcases except_bind_eq_error h with h' | ⟨a, h'⟩
         · have h'' := cisi_error env _ _ h'; cases h''
         · have h'' := cisi_error env _ _ (except_map_eq_error h'); cases h'')
      | (unfold soBranch at h
         simp only [han, Bool.false_eq_true, if_false] at h
         split_ifs at h
         cases h)

/-- The array `ord` built by the nested tests is one of the six permutations of 0, 1, 2. -/
theorem soOrd_cases (i j k : Int) :
    (soOrd i j k 0 = 0 ∧ soOrd i j k 1 = 1 ∧ soOrd i j k 2 = 2) ∨
    (soOrd i j k 0 = 0 ∧ soOrd i j k 1 = 2 ∧ soOrd i j k 2 = 1) ∨
    (soOrd i j k 0 = 2 ∧ soOrd i j k 1 = 0 ∧ soOrd i j k 2 = 1) ∨
    (soOrd i j k 0 = 1 ∧ soOrd i j k 1 = 0 ∧ soOrd i j k 2 = 2) ∨
    (soOrd i j k 0 = 1 ∧ soOrd i j k 1 = 2 ∧ soOrd i j k 2 = 0) ∨
    (soOrd i j k 0 = 2 ∧ soOrd i j k 1 = 1 ∧ soOrd i j k 2 = 0) := by
  unfold soOrd
  dsimp only
  split_ifs <;> simp [Function.update_apply]

/-- Claim C25: for every array `ord` the nested tests of the branch `G close` can build, the
array `invord` computed by `memcpy(invord,ord,...); Permutate_i(invord,ord);` and replaced by
`ord` when the result is the identity is the inverse permutation: `invord[ord[x]] = x` for
`x` in {0,1,2} (and `ord[invord[x]] = x` as well). -/
theorem soInvord_inverse (i j k : Int) (x : Nat) (hx : x < 3) :
    soInvord (soOrd i j k) (soOrd i j k x).toNat = (x : Int) ∧
      soOrd i j k (soInvord (soOrd i j k) x).toNat = (x : Int) := by
  rcases soOrd_cases i j k with h | h | h | h | h | h <;>
    obtain ⟨h0, h1, h2⟩ := h <;>
    interval_cases x <;>
    simp [soInvord, Permutate_i, h0, h1, h2]


/-- Witness for C25: the coordinates (1,3,2) give the cyclic `ord` = (1,2,0), whose inverse
(2,0,1) is not `ord` itself. -/
theorem soInvord_inverse_witness :
    soOrd 1 3 2 0 = 1 ∧
      (soInvord (soOrd 1 3 2) (soOrd 1 3 2 0).toNat = ((0 : Nat) : Int) ∧
        soOrd 1 3 2 (soInvord (soOrd 1 3 2) 0).toNat = ((0 : Nat) : Int)) :=
  ⟨by decide, soInvord_inverse 1 3 2 0 (by decide)⟩

/-- The loop under `// transformation of negative coordinates`: `sigV[c]` is -1 for a negative
coordinate and 1 otherwise, `qvec[c]` changes sign with a negative coordinate, and `ivec[c]`
becomes the absolute value. -/
theorem soSign_spec (sig0 : Nat → Int) (qvec : Nat → R) (v : Nat → Int) (c : Nat) (hc : c < 3) :
    (forLoop 3 soSignBody (sig0, qvec, v)).1 c = (if v c < 0 then -1 else 1) ∧
    (forLoop 3 soSignBody (sig0, qvec, v)).2.1 c = (if v c < 0 then -qvec c else qvec c) ∧
    (forLoop 3 soSignBody (sig0, qvec, v)).2.2 c = |v c| := by
  simp only [forLoop, soSignBody]
  by_cases h0 : v 0 < 0 <;> by_cases h1 : v 1 < 0 <;> by_cases h2 : v 2 < 0 <;>
    interval_cases c <;>
    simp [Function.update_apply, h0, h1, h2, abs_of_neg, abs_of_nonneg, not_lt.mp]

/-- The permutation `ord` sorts the coordinates: `w[ord[0]] ≥ w[ord[1]] ≥ w[ord[2]]`. -/
theorem soOrd_sorted (w : Nat → Int) :
    w (soOrd (w 0) (w 1) (w 2) 0).toNat ≥ w (soOrd (w 0) (w 1) (w 2) 1).toNat ∧
    w (soOrd (w 0) (w 1) (w 2) 1).toNat ≥ w (soOrd (w 0) (w 1) (w 2) 2).toNat := by
  unfold soOrd
  dsimp only
  split_ifs <;> simp [Function.update_apply] <;> omega


/-- Claim C24: the coordinate sorting of the branch `G close` of the mode `G_SO`, for every
integer vector `v = (i,j,k)`. After the loop over `ic`, `sigV[c]` is -1 exactly for the negative
coordinates (and 1 otherwise) and `ivec[c] = |v[c]|`. The array `ord` built from `ivec` is a
permutation of {0,1,2} with `|v[ord[0]]| ≥ |v[ord[1]]| ≥ |v[ord[2]]|`, and after
`Permutate_i(ivec,ord)` (which stores `ivec[ord[x]]` in entry `x`) the coordinates satisfy
`i ≥ j ≥ k ≥ 0`. -/
theorem soCoordinates_sorted (sig0 : Nat → Int) (qvec : Nat → R) (v : Nat → Int)
    (sigV : Nat → Int) (qvec1 : Nat → R) (ivec : Nat → Int)
    (h : forLoop 3 soSignBody (sig0, qvec, v) = (sigV, qvec1, ivec)) :
    (∀ c, c < 3 → (sigV c = -1 ↔ v c < 0) ∧ (sigV c = 1 ↔ 0 ≤ v c) ∧ ivec c = |v c|) ∧
    (∀ x, x < 3 → 0 ≤ soOrd (ivec 0) (ivec 1) (ivec 2) x ∧
      soOrd (ivec 0) (ivec 1) (ivec 2) x < 3) ∧
    (∀ x y, x < 3 → y < 3 →
      soOrd (ivec 0) (ivec 1) (ivec 2) x = soOrd (ivec 0) (ivec 1) (ivec 2) y → x = y) ∧
    (|v (soOrd (ivec 0) (ivec 1) (ivec 2) 0).toNat| ≥
        |v (soOrd (ivec 0) (ivec 1) (ivec 2) 1).toNat| ∧
      |v (soOrd (ivec 0) (ivec 1) (ivec 2) 1).toNat| ≥
        |v (soOrd (ivec 0) (ivec 1) (ivec 2) 2).toNat|) ∧
    (∀ x, x < 3 → Permutate_i ivec (soOrd (ivec 0) (ivec 1) (ivec 2)) x =
      ivec (soOrd (ivec 0) (ivec 1) (ivec 2) x).toNat) ∧
    (Permutate_i ivec (soOrd (ivec 0) (ivec 1) (ivec 2)) 0 ≥
        Permutate_i ivec (soOrd (ivec 0) (ivec 1) (ivec 2)) 1 ∧
      Permutate_i ivec (soOrd (ivec 0) (ivec 1) (ivec 2)) 1 ≥
        Permutate_i ivec (soOrd (ivec 0) (ivec 1) (ivec 2)) 2 ∧
      Permutate_i ivec (soOrd (ivec 0) (ivec 1) (ivec 2)) 2 ≥ 0) := by
  have hs : ∀ c, c < 3 → sigV c = (if v c < 0 then -1 else 1) ∧ ivec c = |v c| := by
    intro c hc
    have := soSign_spec sig0 qvec v c hc
    rw [h] at this
    exact ⟨this.1, this.2.2⟩
  have hsorted := soOrd_sorted ivec
  have hperm : ∀ x, x < 3 → Permutate_i ivec (soOrd (ivec 0) (ivec 1) (ivec 2)) x =
      ivec (soOrd (ivec 0) (ivec 1) (ivec 2) x).toNat := by
    intro x hx
    simp [Permutate_i, hx]
  have hrange : ∀ x, x < 3 → 0 ≤ soOrd (ivec 0) (ivec 1) (ivec 2) x ∧
      soOrd (ivec 0) (ivec 1) (ivec 2) x < 3 := by
    intro x hx
    rcases soOrd_cases (ivec 0) (ivec 1) (ivec 2) with h | h | h | h | h | h <;>
      obtain ⟨h0, h1, h2⟩ := h <;> interval_cases x <;> omega
  have habs : ∀ x, x < 3 → ivec (soOrd (ivec 0) (ivec 1) (ivec 2) x).toNat =
      |v (soOrd (ivec 0) (ivec 1) (ivec 2) x).toNat| := by
    intro x hx
    obtain ⟨h1, h2⟩ := hrange x hx
    exact (hs _ (by omega)).2
  refine ⟨fun c hc => ?_, hrange, fun x y hx hy hxy => ?_, ?_, hperm, ?_⟩
  · obtain ⟨h1, h2⟩ := hs c hc
    refine ⟨?_, ?_, h2⟩
    · rw [h1]; split_ifs with hv <;> simp [hv]
    · rw [h1]; split_ifs with hv
      · simp; omega
      · simp; omega
  · rcases soOrd_cases (ivec 0) (ivec 1) (ivec 2) with h | h | h | h | h | h <;>
      obtain ⟨h0, h1, h2⟩ := h <;> interval_cases x <;> interval_cases y <;>
      first | rfl | (exfalso; omega)
  · rw [← habs 0 (by omega), ← habs 1 (by omega), ← habs 2 (by omega)]
    exact hsorted
  · rw [hperm 0 (by omega), hperm 1 (by omega), hperm 2 (by omega)]
    refine ⟨hsorted.1, hsorted.2, ?_⟩
    rw [habs 2 (by omega)]
    exact abs_nonneg _


/-- Witness for C24: the displacement (-1,3,-2) is sorted to (3,2,1) with `sigV` = (-1,1,-1). -/
theorem soCoordinates_sorted_witness :
    (forLoop 3 soSignBody ((fun _ => 0), (fun _ => (1 : ℚ)),
      (fun n : Nat => if n = 0 then (-1 : Int) else if n = 1 then 3 else -2))).1 0 = -1 ↔
      (-1 : Int) < 0 :=
  ((soCoordinates_sorted (fun _ => 0) (fun _ => (1 : ℚ))
    (fun n : Nat => if n = 0 then (-1 : Int) else if n = 1 then 3 else -2) _ _ _ rfl).1 0
      (by decide)).1

/-- An index `NDCOMP*(x*DY*DZ + z*DY + y)` with `x < N`, `y < DY`, `z < DZ` leaves room for
the six components below `NDCOMP*N*(DY*DZ)`. -/
theorem kernel_index_lt (N DY DZ x y z : Nat) (hx : x < N) (hy : y < DY) (hz : z < DZ) :
    NDCOMP * (x * (DY * DZ) + z * DY + y) + 5 < NDCOMP * N * (DY * DZ) := by
  have h1 : (z + 1) * DY ≤ DZ * DY := Nat.mul_le_mul_right _ hz
  have h2 : (x + 1) * (DY * DZ) ≤ N * (DY * DZ) := Nat.mul_le_mul_right _ hx
  simp only [NDCOMP]
  nlinarith

/-- Claim C29: with the sizes `InitDmatrix` sets (`DsizeY = gridY/2+1`, `DsizeZ = gridZ/2+1`
with `reduced_FFT`, `DsizeY = gridY`, `DsizeZ = gridZ` without, `DsizeYZ = DsizeY*DsizeZ`), the
reads of the kernel through the non-transposed lookup are inside the `Dsize =
NDCOMP*local_Nx*DsizeY*DsizeZ` entries allocated for `Dmatrix`: for `x < local_Nx`, `y < gridY`,
`z < gridZ` the index `IndexDmatrix_mv(x,y,z,false) + 5` is below `Dsize`; and so is every
index `IndexDmatrix(x,y,z) + Dcomp` that `InitDmatrix` writes (`y < DsizeY`, `z < DsizeZ`,
`Dcomp < NDCOMP`), as well as `IndexDmatrix(x,y,z) + 5` for all `y < gridY`, `z < gridZ`. -/
theorem IndexDmatrix_in_bounds (g : MatVecGlobals R) (x y z : Nat) (hx : x < g.local_Nx) :
    (y < g.gridY → z < g.gridZ →
      IndexDmatrix_mv (InitDmatrix_sizes g) x y z false + 5 < Dsize (InitDmatrix_sizes g) ∧
      IndexDmatrix (InitDmatrix_sizes g) x y z + 5 < Dsize (InitDmatrix_sizes g)) ∧
    (y < (InitDmatrix_sizes g).DsizeY → z < (InitDmatrix_sizes g).DsizeZ →
      ∀ Dcomp, Dcomp < NDCOMP →
        IndexDmatrix (InitDmatrix_sizes g) x y z + Dcomp < Dsize (InitDmatrix_sizes g)) ∧
    Dsize (InitDmatrix_sizes g) =
      NDCOMP * g.local_Nx * (InitDmatrix_sizes g).DsizeY * (InitDmatrix_sizes g).DsizeZ := by
  have hmv : IndexDmatrix_mv (InitDmatrix_sizes g) x y z false =
      IndexDmatrix (InitDmatrix_sizes g) x y z := by
    simp [IndexDmatrix_mv, IndexDmatrix]
  have key : ∀ y z, y < g.gridY → z < g.gridZ →
      IndexDmatrix (InitDmatrix_sizes g) x y z + 5 < Dsize (InitDmatrix_sizes g) := by
    intro y z hy hz
    simp only [IndexDmatrix, Dsize, InitDmatrix_sizes]
    refine kernel_index_lt _ _ _ _ _ _ hx ?_ ?_
    · cases g.reduced_FFT <;> simp <;> split_ifs <;> omega
    · cases g.reduced_FFT <;> simp <;> split_ifs <;> omega
  refine ⟨fun hy hz => ⟨by rw [hmv]; exact key y z hy hz, key y z hy hz⟩,
    fun hy hz Dcomp hD => ?_, ?_⟩
  · have hy' : ¬ (y ≥ (InitDmatrix_sizes g).DsizeY) := by omega
    have hz' : ¬ (z ≥ (InitDmatrix_sizes g).DsizeZ) := by omega
    have : IndexDmatrix (InitDmatrix_sizes g) x y z + 5 < Dsize (InitDmatrix_sizes g) := by
      unfold IndexDmatrix
      dsimp only
      rw [if_neg hy', if_neg hz']
      exact kernel_index_lt g.local_Nx _ _ x y z hx hy hz
    simp only [NDCOMP] at hD
    omega
  · simp only [Dsize, InitDmatrix_sizes]
    ring


/-- Witness for C29 on the sample grid in `reduced_FFT` mode: the read at (3,3,3), folded to
(3,1,1). -/
theorem IndexDmatrix_in_bounds_witness :
    IndexDmatrix_mv (InitDmatrix_sizes sampleReducedGlobals) 3 3 3 false + 5
      < Dsize (InitDmatrix_sizes sampleReducedGlobals) :=
  ((IndexDmatrix_in_bounds sampleReducedGlobals 3 3 3 (by decide)).1 (by decide)
    (by decide)).1

/-- The transposed lookup without `reduced_FFT`, with the sizes `InitDmatrix` sets: when the
process owns all slices (`local_Nx = gridX`) every read is inside the `Dsize` entries of
`Dmatrix`; when it owns at least two but not all slices, the read for the second slice
(`x - local_x0 = 1`, reflected to `gridX - 1`) starts at or beyond `Dsize`. -/
theorem IndexDmatrix_mv_transposed_range (g : MatVecGlobals R) :
    (g.reduced_FFT = false → g.local_Nx = g.gridX → ∀ x y z, x < g.local_Nx → y < g.gridY →
      z < g.gridZ →
      IndexDmatrix_mv (InitDmatrix_sizes g) x y z true + 5 < Dsize (InitDmatrix_sizes g)) ∧
    (g.reduced_FFT = false → 2 ≤ g.local_Nx → g.local_Nx < g.gridX →
      Dsize (InitDmatrix_sizes g) ≤ IndexDmatrix_mv (InitDmatrix_sizes g) 1 0 0 true) := by
  constructor
  · intro hred hN x y z hx hy hz
    simp only [IndexDmatrix_mv, Dsize, InitDmatrix_sizes, hred, if_true, Bool.false_eq_true,
      if_false]
    refine kernel_index_lt _ _ _ _ _ _ ?_ ?_ ?_
    · split_ifs <;> omega
    · split_ifs <;> omega
    · split_ifs <;> omega
  · intro hred h2 hlt
    simp only [IndexDmatrix_mv, Dsize, InitDmatrix_sizes, hred, if_true, Bool.false_eq_true,
      if_false, NDCOMP]
    have h1 : g.local_Nx * (g.gridY * g.gridZ) ≤ (g.gridX - 1) * (g.gridY * g.gridZ) :=
      Nat.mul_le_mul_right _ (by omega)
    simp
    nlinarith


/-- Claim C30 fails on the code: on the first of two processes of a 4x2x2 grid without
`reduced_FFT` (`local_Nx = 2`), the transposed lookup for the slice `x = local_x0 + 1` at
`y = z = 0` gives the index 72, beyond the `Dsize = 48` entries allocated for `Dmatrix`. -/
theorem IndexDmatrix_mv_transposed_out_of_bounds :
    Dsize (InitDmatrix_sizes sampleParallelGlobals) = 48 ∧
      IndexDmatrix_mv (InitDmatrix_sizes sampleParallelGlobals)
        (1 - sampleParallelGlobals.local_x0) 0 0 true = 72 ∧
      ¬ (IndexDmatrix_mv (InitDmatrix_sizes sampleParallelGlobals)
        (1 - sampleParallelGlobals.local_x0) 0 0 true + 5
          < Dsize (InitDmatrix_sizes sampleParallelGlobals)) := by
  decide

/-- Two numbers `a*G + x` with digits `0 ≤ x < G` are equal only if both parts are equal. -/
theorem radix_inj (G a a2 x x2 : Int) (hx : 0 ≤ x) (hxG : x < G) (hx2 : 0 ≤ x2)
    (hx2G : x2 < G) (h : a * G + x = a2 * G + x2) : a = a2 ∧ x = x2 := by
  have hG : 0 ≤ G := by omega
  have ha : a = a2 := by
    rcases lt_trichotomy a a2 with hlt | heq | hgt
    · exfalso
      have := Int.mul_le_mul_of_nonneg_right (show a + 1 ≤ a2 by omega) hG
      nlinarith
    · exact heq
    · exfalso
      have := Int.mul_le_mul_of_nonneg_right (show a2 + 1 ≤ a by omega) hG
      nlinarith
  subst ha
  exact ⟨rfl, by omega⟩

/-- A number `(z*DY + y)*GX + x` with digits `0 ≤ x < GX`, `0 ≤ y < DY`, `0 ≤ z < NZ` is
non-negative and below `NZ*DY*GX`. -/
theorem radix_bound (GX DY NZ x y z : Int) (hx : 0 ≤ x) (hxG : x < GX) (hy : 0 ≤ y)
    (hyD : y < DY) (hz : 0 ≤ z) (hzN : z < NZ) :
    0 ≤ (z * DY + y) * GX + x ∧ (z * DY + y) * GX + x < NZ * DY * GX := by
  have hG : 0 ≤ GX := by omega
  have hD : 0 ≤ DY := by omega
  have h1 : 0 ≤ z * DY := Int.mul_nonneg hz hD
  have h2 : 0 ≤ (z * DY + y) * GX := Int.mul_nonneg (by omega) hG
  have h3 : (z + 1) * DY ≤ NZ * DY := Int.mul_le_mul_of_nonneg_right (by omega) hD
  have h4 : (z * DY + y + 1) * GX ≤ (NZ * DY) * GX :=
    Int.mul_le_mul_of_nonneg_right (by nlinarith) hG
  constructor
  · omega
  · nlinarith

/-- Claim C22: `IndexD2matrix` places the evaluated displacements one to one. For
`gridX ≥ 2*boxX`, `D2sizeY ≥ boxY - jstart` (with `jstart ≤ 0`, as `InitDmatrix` sets it: 0 or
`1-boxY`) and `local_z1 - local_z0 = local_Nz`, every
displacement with `1-boxX ≤ i < boxX`, `jstart ≤ j < boxY`, `nnn*local_z0 ≤ k < nnn*local_z1`
gets an index that is non-negative and below `D2sizeTot = nnn*local_Nz*D2sizeY*gridX`, and two
such displacements with the same index are equal. -/
theorem IndexD2matrix_injective (g : MatVecGlobals R) (d : D2Vars) (ig : InitGlobals)
    (nnn : Nat) (jstart : Int)
    (hX : 2 * ig.boxX ≤ g.gridX) (hj : jstart ≤ 0)
    (hY : (g.boxY : Int) - jstart ≤ (d.D2sizeY : Int))
    (hZ : ig.local_z0 + g.local_Nz = ig.local_z1) :
    (∀ i j k : Int, 1 - (ig.boxX : Int) ≤ i → i < ig.boxX → jstart ≤ j → j < g.boxY →
      (nnn : Int) * ig.local_z0 ≤ k → k < (nnn : Int) * ig.local_z1 →
      0 ≤ IndexD2matrix g d ig i j k nnn ∧
      IndexD2matrix g d ig i j k nnn <
        ((nnn * g.local_Nz * d.D2sizeY * g.gridX : Nat) : Int)) ∧
    (∀ i j k i2 j2 k2 : Int, 1 - (ig.boxX : Int) ≤ i → i < ig.boxX → jstart ≤ j →
      j < g.boxY → (nnn : Int) * ig.local_z0 ≤ k → k < (nnn : Int) * ig.local_z1 →
      1 - (ig.boxX : Int) ≤ i2 → i2 < ig.boxX → jstart ≤ j2 → j2 < g.boxY →
      (nnn : Int) * ig.local_z0 ≤ k2 → k2 < (nnn : Int) * ig.local_z1 →
      IndexD2matrix g d ig i j k nnn = IndexD2matrix g d ig i2 j2 k2 nnn →
      i = i2 ∧ j = j2 ∧ k = k2) := by
  have hX' : 2 * (ig.boxX : Int) ≤ (g.gridX : Int) := by exact_mod_cast hX
  have hZ' : (ig.local_z0 : Int) + (g.local_Nz : Int) = (ig.local_z1 : Int) := by
    exact_mod_cast hZ
  have hz1 : (nnn : Int) * ig.local_z1 = nnn * ig.local_z0 + nnn * g.local_Nz := by
    rw [← hZ']; ring
  -- the digits of a displacement in range
  have digits : ∀ i j k : Int, 1 - (ig.boxX : Int) ≤ i → i < ig.boxX → jstart ≤ j →
      j < g.boxY → (nnn : Int) * ig.local_z0 ≤ k → k < (nnn : Int) * ig.local_z1 →
      (0 ≤ (if i < 0 then i + (g.gridX : Int) else i) ∧
        (if i < 0 then i + (g.gridX : Int) else i) < g.gridX) ∧
      (0 ≤ (if j < 0 then j + (d.D2sizeY : Int) else j) ∧
        (if j < 0 then j + (d.D2sizeY : Int) else j) < d.D2sizeY) ∧
      (0 ≤ k - (nnn : Int) * ig.local_z0 ∧
        k - (nnn : Int) * ig.local_z0 < (nnn : Int) * g.local_Nz) := by
    intro i j k h1 h2 h3 h4 h5 h6
    refine ⟨?_, ?_, by omega, by omega⟩
    · split_ifs <;> omega
    · split_ifs <;> omega
  constructor
  · intro i j k h1 h2 h3 h4 h5 h6
    obtain ⟨⟨a1, a2⟩, ⟨b1, b2⟩, c1, c2⟩ := digits i j k h1 h2 h3 h4 h5 h6
    have := radix_bound g.gridX d.D2sizeY ((nnn : Int) * g.local_Nz) _ _ _ a1 a2 b1 b2 c1 c2
    simp only [IndexD2matrix]
    push_cast
    exact this
  · intro i j k i2 j2 k2 h1 h2 h3 h4 h5 h6 g1 g2 g3 g4 g5 g6 heq
    obtain ⟨⟨a1, a2⟩, ⟨b1, b2⟩, c1, c2⟩ := digits i j k h1 h2 h3 h4 h5 h6
    obtain ⟨⟨a1', a2'⟩, ⟨b1', b2'⟩, c1', c2'⟩ := digits i2 j2 k2 g1 g2 g3 g4 g5 g6
    simp only [IndexD2matrix] at heq
    obtain ⟨e1, e2⟩ := radix_inj _ _ _ _ _ a1 a2 a1' a2' heq
    obtain ⟨e3, e4⟩ := radix_inj _ _ _ _ _ b1 b2 b1' b2' e1
    refine ⟨?_, ?_, by omega⟩
    · split_ifs at e2 <;> omega
    · split_ifs at e4 <;> omega


/-- Witness for C22: the sample grid without `reduced_FFT` (`nnn = 2`, `jstart = 0`,
`D2sizeY = 2`) with `boxX = 1` and the Z range `[0,1)`: the displacement (0,0,1). -/
theorem IndexD2matrix_injective_witness :
    0 ≤ IndexD2matrix (sampleGlobals true) (InitDmatrix_D2 (sampleGlobals true)) ⟨1, 0, 1⟩
        0 0 1 ((2 : Nat) : Int) ∧
      IndexD2matrix (sampleGlobals true) (InitDmatrix_D2 (sampleGlobals true)) ⟨1, 0, 1⟩
        0 0 1 ((2 : Nat) : Int) < ((2 * (sampleGlobals true).local_Nz *
          (InitDmatrix_D2 (sampleGlobals true)).D2sizeY * (sampleGlobals true).gridX : Nat)
            : Int) :=
  (IndexD2matrix_injective (sampleGlobals true) (InitDmatrix_D2 (sampleGlobals true))
    ⟨1, 0, 1⟩ 2 0 (by decide) (by decide) (by decide) (by decide)).1 0 0 1 (by decide)
    (by decide) (by decide) (by decide) (by decide) (by decide)

/-- The residue of a positive number exists in both builds. -/
theorem fftFitResidue_total (backend : FFTBackend) {x : Int} (hx : 0 < x) :
    ∃ y, fftFitResidue backend x = some y := by
  cases backend with
  | FFTW3 => exact fftFitResidue_fftw3_total hx
  | FFT_TEMPERTON =>
    obtain ⟨y, hy, -⟩ := removeSimpleDivisors_spec hx
    exact ⟨y, by simp [fftFitResidue, hy]⟩

/-- An allowed size times a power of 2 is an allowed size. -/
theorem AllowedSize_mul_two_pow (backend : FFTBackend) (n : Int) (m : Nat)
    (h : AllowedSize backend n) : AllowedSize backend (n * 2 ^ m) := by
  cases backend with
  | FFT_TEMPERTON =>
    obtain ⟨a, b, c, rfl⟩ := h
    exact ⟨a + m, b, c, by rw [pow_add]; ring⟩
  | FFTW3 =>
    obtain ⟨a, b, c, d, e, he, rfl⟩ := h
    exact ⟨a + m, b, c, d, e, he, by rw [pow_add]; ring⟩

/-- The loop of `fftFit` started at `x ≥ 1` returns within `gap + 1` candidates when the
candidate `x + gap` is even, a multiple of `divis` and of the allowed form. -/
theorem fftFitLoop_reaches (backend : FFTBackend) {divis : Int} (hd : 0 < divis) :
    ∀ (gap : Nat) (x : Int), 0 < x → AllowedSize backend (x + gap) → (2 : Int) ∣ (x + gap) →
      divis ∣ (x + gap) → ∃ r, fftFitLoop backend divis (gap + 1) x = some r := by
  intro gap
  induction gap with
  | zero =>
    intro x hx ha h2 hdv
    simp only [Nat.cast_zero, add_zero] at ha h2 hdv
    unfold fftFitLoop
    rw [fftFitResidue_complete backend ha, Option.some_bind]
    have he : IS_EVEN x = true := (IS_EVEN_iff (by omega)).2 h2
    have hm : x.tmod divis = 0 := (tmod_eq_zero_iff_dvd (by omega) (by omega)).2 hdv
    simp [he, hm, hd.ne']
  | succ n ih =>
    intro x hx ha h2 hdv
    have e : x + ((n + 1 : Nat) : Int) = (x + 1) + (n : Int) := by push_cast; ring
    rw [e] at ha h2 hdv
    obtain ⟨r, hr⟩ := ih (x + 1) (by omega) ha h2 hdv
    obtain ⟨y, hy⟩ := fftFitResidue_total backend hx
    unfold fftFitLoop
    rw [hy, Option.some_bind]
    split_ifs
    · omega
    · exact ⟨x, rfl⟩
    · exact ⟨r, hr⟩
    · exact ⟨r, hr⟩

/-- When `CheckNprocs` leaves `weird_nprocs` false (and raises no fatal error), `nprocs` is of
the allowed form. -/
theorem CheckNprocs_allowed (backend : FFTBackend) (nprocs : Int) (hn : 1 ≤ nprocs) (w : Bool)
    (h : CheckNprocs backend nprocs = some (.done false w)) : AllowedSize backend nprocs := by
  apply fftFitResidue_sound backend (by omega)
  cases backend with
  | FFTW3 =>
    rw [CheckNprocs_fftw3] at h
    rcases hr : fftFitResidue .FFTW3 nprocs with _ | y
    · simp [hr] at h
    · rw [hr, Option.map_some'] at h
      by_cases hy : y = 1
      · rw [hy]
      · simp [hy] at h
  | FFT_TEMPERTON =>
    unfold CheckNprocs at h
    unfold fftFitResidue
    rcases hr : removeSimpleDivisors nprocs with _ | y
    · simp [hr] at h
    · rw [hr, Option.some_bind] at h
      by_cases hy : y = 1
      · rw [hy]
      · simp [hy] at h

/-- Claim C27: termination of `fftFit` over unbounded integers, for `divis ≥ 1`. With
`weird_nprocs` true the call returns for every `x` (no loop is entered). With `weird_nprocs`
false and `x ≥ 1` the loop returns after finitely many candidates (for some amount of fuel)
when `divis` is of the allowed form, in particular when `divis` is a number of processes for
which `CheckNprocs` left `weird_nprocs` false. -/
theorem fftFit_terminates (backend : FFTBackend) (x divis : Int) (hd : 1 ≤ divis) :
    (∃ r, ∀ fuel, fftFit backend true fuel x divis = some r) ∧
    (1 ≤ x → AllowedSize backend divis →
      ∃ fuel r, fftFit backend false fuel x divis = some r) ∧
    (1 ≤ x → ∀ w, CheckNprocs backend divis = some (.done false w) →
      ∃ fuel r, fftFit backend false fuel x divis = some r) := by
  have loop : 1 ≤ x → AllowedSize backend divis →
      ∃ fuel r, fftFit backend false fuel x divis = some r := by
    intro hx ha
    have hpow : (x.toNat : Int) < 2 ^ (x.toNat + 1) := by
      have := Nat.lt_two_pow (x.toNat + 1)
      exact_mod_cast (by omega : x.toNat < 2 ^ (x.toNat + 1))
    have hbig : x ≤ divis * 2 ^ (x.toNat + 1) := by
      have h1 : (1 : Int) * 2 ^ (x.toNat + 1) ≤ divis * 2 ^ (x.toNat + 1) :=
        Int.mul_le_mul_of_nonneg_right hd (by positivity)
      have h2 : x = (x.toNat : Int) := by omega
      omega
    have hgap : x + (((divis * 2 ^ (x.toNat + 1) - x).toNat : Nat) : Int) =
        divis * 2 ^ (x.toNat + 1) := by omega
    obtain ⟨r, hr⟩ := fftFitLoop_reaches backend (show 0 < divis by omega)
      (divis * 2 ^ (x.toNat + 1) - x).toNat x (by omega)
      (by rw [hgap]; exact AllowedSize_mul_two_pow backend divis _ ha)
      (by rw [hgap, pow_succ]; exact ⟨divis * 2 ^ x.toNat, by ring⟩)
      (by rw [hgap]; exact Dvd.intro _ rfl)
    exact ⟨_, r, by simpa [fftFit] using hr⟩
  refine ⟨?_, loop, fun hx w h => loop hx (CheckNprocs_allowed backend divis hd w h)⟩
  by_cases he : IS_EVEN divis = true
  · exact ⟨divis * (x + divis - 1).tdiv divis, fun fuel => by
      simp [fftFit, he, (show divis ≠ 0 by omega)]⟩
  · exact ⟨divis * 2 * (x + divis * 2 - 1).tdiv (divis * 2), fun fuel => by
      simp [fftFit, he, (show divis ≠ 0 by omega)]⟩

/-- Witness for C27: `fftFit(7,12)` in the Temperton build, where 12 is of the allowed form. -/
theorem fftFit_terminates_witness :
    AllowedSize .FFT_TEMPERTON 12 ∧
      ∃ fuel r, fftFit .FFT_TEMPERTON false fuel 7 12 = some r :=
  ⟨⟨2, 1, 0, by norm_num⟩,
    (fftFit_terminates .FFT_TEMPERTON 7 12 (by decide)).2.1 (by decide) ⟨2, 1, 0, by norm_num⟩⟩

/-- The partial sum of the series of Si grows by the term of an odd power. -/
theorem SiPartial_succ (t : R) (n : Nat) :
    SiPartial t (n + 1) = SiPartial t n +
      (if (n + 1) % 2 = 1 then
        (-1) ^ (n / 2) * t ^ (n + 1) / (((n + 1 : Nat) : R) * ((n + 1).factorial : R))
      else 0) := by
  unfold SiPartial
  rw [Finset.range_succ, Finset.filter_insert]
  split_ifs with h
  · rw [Finset.sum_insert (by simp), add_comm, Nat.add_sub_cancel]
  · rw [add_zero]

/-- The partial sum of the series of Ci grows by the term of an even power. -/
theorem CiPartial_succ (t : R) (n : Nat) :
    CiPartial t (n + 1) = CiPartial t n +
      (if (n + 1) % 2 = 0 then
        (-1) ^ ((n + 1) / 2) * t ^ (n + 1) / (((n + 1 : Nat) : R) * ((n + 1).factorial : R))
      else 0) := by
  unfold CiPartial
  rw [Finset.range_succ, Finset.filter_insert]
  split_ifs with h h2 h3
  · rw [Finset.sum_insert (by simp), add_comm]
  · omega
  · omega
  · rw [add_zero]

/-- The variables after one pass of the series loop of `cisi`, written out. -/
theorem seriesStep_fields (env : MathEnv R) (t : R) (k : Nat) (s : SeriesState R) :
    (seriesStep env t k s).1.sums =
      (if s.odd then s.sum + s.sign * (s.fact * (t / (k : R)) / (k : R)) else s.sums) ∧
    (seriesStep env t k s).1.sumc =
      (if s.odd then s.sumc else s.sum + s.sign * (s.fact * (t / (k : R)) / (k : R))) ∧
    (seriesStep env t k s).1.fact = s.fact * (t / (k : R)) ∧
    (seriesStep env t k s).1.sign = (if s.odd then -s.sign else s.sign) ∧
    (seriesStep env t k s).1.sum = (if s.odd then s.sumc else s.sums) ∧
    ((seriesStep env t k s).2 = false → (seriesStep env t k s).1.odd = !s.odd) := by
  unfold seriesStep
  dsimp only
  split_ifs <;> exact ⟨rfl, rfl, rfl, rfl, rfl, fun h => by first | rfl | cases h⟩

/-- The state of the series loop of `cisi` before the pass `k = n+1`: `fact = t^n/n!`, the
sign of the next term, the parity flag, and the partial sums up to the power `n`. -/
theorem seriesStep_spec (env : MathEnv R) (t : R) (n : Nat) (s : SeriesState R)
    (hfact : s.fact = t ^ n / (n.factorial : R)) (hsign : s.sign = (-1) ^ ((n + 1) / 2))
    (hodd : s.odd = decide (n % 2 = 0))
    (hsum : s.sum = if n % 2 = 0 then s.sums else s.sumc)
    (hsums : s.sums = SiPartial t n) (hsumc : s.sumc = CiPartial t n) :
    (seriesStep env t (n + 1) s).1.sums = SiPartial t (n + 1) ∧
    (seriesStep env t (n + 1) s).1.sumc = CiPartial t (n + 1) ∧
    ((seriesStep env t (n + 1) s).2 = false →
      (seriesStep env t (n + 1) s).1.fact = t ^ (n + 1) / ((n + 1).factorial : R) ∧
      (seriesStep env t (n + 1) s).1.sign = (-1) ^ ((n + 2) / 2) ∧
      (seriesStep env t (n + 1) s).1.odd = decide ((n + 1) % 2 = 0) ∧
      (seriesStep env t (n + 1) s).1.sum =
        (if (n + 1) % 2 = 0 then (seriesStep env t (n + 1) s).1.sums
          else (seriesStep env t (n + 1) s).1.sumc)) := by
  have hn1 : ((n + 1 : Nat) : R) ≠ 0 := by exact_mod_cast Nat.succ_ne_zero n
  have hf : (n.factorial : R) ≠ 0 := by exact_mod_cast Nat.factorial_ne_zero n
  have hfact' : s.fact * (t / ((n + 1 : Nat) : R)) = t ^ (n + 1) / ((n + 1).factorial : R) := by
    rw [hfact, Nat.factorial_succ, Nat.cast_mul]
    field_simp
    ring
  have hterm : s.fact * (t / ((n + 1 : Nat) : R)) / ((n + 1 : Nat) : R) =
      t ^ (n + 1) / (((n + 1 : Nat) : R) * ((n + 1).factorial : R)) := by
    rw [hfact', div_div, mul_comm]
  obtain ⟨f1, f2, f3, f4, f5, f6⟩ := seriesStep_fields env t (n + 1) s
  rw [f1, f2, f3, f4, f5, hterm, hfact', SiPartial_succ, CiPartial_succ]
  rcases Nat.even_or_odd' n with ⟨a, ha | ha⟩
  · -- n even: the pass k = n+1 is odd
    have p0 : n % 2 = 0 := by omega
    have p1 : (n + 1) % 2 = 1 := by omega
    have p2 : ¬ (n + 1) % 2 = 0 := by omega
    have e1 : (n + 1) / 2 = n / 2 := by omega
    have e2 : (n + 2) / 2 = n / 2 + 1 := by omega
    have hodd' : s.odd = true := by rw [hodd]; simp [p0]
    have hsum' : s.sum = s.sums := by rw [hsum, if_pos p0]
    rw [hodd', if_pos rfl, if_pos rfl, if_pos rfl, if_pos rfl, if_pos p1, if_neg p2, if_neg p2,
      hsum', hsums, hsumc, hsign, e1, e2, add_zero, mul_div_assoc]
    refine ⟨rfl, rfl, fun hb => ⟨rfl, by rw [pow_succ]; ring, ?_, rfl⟩⟩
    rw [f6 hb, hodd']
    simp [p2]
  · -- n odd: the pass k = n+1 is even
    have p0 : ¬ n % 2 = 0 := by omega
    have p1 : (n + 1) % 2 = 0 := by omega
    have p2 : ¬ (n + 1) % 2 = 1 := by omega
    have e2 : (n + 2) / 2 = (n + 1) / 2 := by omega
    have hodd' : s.odd = false := by rw [hodd]; simp [p0]
    have hsum' : s.sum = s.sumc := by rw [hsum, if_neg p0]
    simp only [hodd', Bool.false_eq_true, if_false]
    simp only [if_pos p1, if_neg p2, hsum', hsums, hsumc, hsign, e2, add_zero, mul_div_assoc]
    refine ⟨?_, ?_, fun hb => ⟨?_, ?_, ?_, ?_⟩⟩
    all_goals first
      | trivial
      | rfl
      | (rw [f6 hb, hodd']; simp [p1])


/-- The series loop of `cisi` run for at most `count` passes from the pass `k = n+1` on, from a
state that holds the partial sums up to the power `n`: the counter `k` at the exit lies between
`n+1` and `n+1+count`, and `sums` and `sumc` are the partial sums up to the power
`min(k, n+count)`, the number of the last pass executed. -/
theorem seriesLoop_spec (env : MathEnv R) (t : R) :
    ∀ (count n : Nat) (s : SeriesState R),
      s.fact = t ^ n / (n.factorial : R) → s.sign = (-1) ^ ((n + 1) / 2) →
      s.odd = decide (n % 2 = 0) → (s.sum = if n % 2 = 0 then s.sums else s.sumc) →
      s.sums = SiPartial t n → s.sumc = CiPartial t n →
      n + 1 ≤ (forBreak (seriesStep env t) count (n + 1) s).2 ∧
      (forBreak (seriesStep env t) count (n + 1) s).2 ≤ n + 1 + count ∧
      (forBreak (seriesStep env t) count (n + 1) s).1.sums =
        SiPartial t (min (forBreak (seriesStep env t) count (n + 1) s).2 (n + count)) ∧
      (forBreak (seriesStep env t) count (n + 1) s).1.sumc =
        CiPartial t (min (forBreak (seriesStep env t) count (n + 1) s).2 (n + count)) := by
  intro count
  induction count with
  | zero =>
    intro n s _ _ _ _ hsums hsumc
    simp only [forBreak, Nat.add_zero, le_refl, true_and]
    rw [Nat.min_eq_right (Nat.le_succ n)]
    exact ⟨hsums, hsumc⟩
  | succ c ih =>
    intro n s hfact hsign hodd hsum hsums hsumc
    obtain ⟨g1, g2, g3⟩ := seriesStep_spec env t n s hfact hsign hodd hsum hsums hsumc
    rcases hb : seriesStep env t (n + 1) s with ⟨s1, b⟩
    rw [hb] at g1 g2 g3
    cases b with
    | true =>
      simp only [forBreak, hb]
      rw [Nat.min_eq_left (by omega)]
      exact ⟨le_refl _, by omega, g1, g2⟩
    | false =>
      obtain ⟨q1, q2, q3, q4⟩ := g3 rfl
      have := ih (n + 1) s1 q1 q2 q3 q4 g1 g2
      simp only [forBreak, hb]
      have e : n + 1 + c = n + (c + 1) := by omega
      rw [e] at this
      exact ⟨by omega, by omega, this.2.2.1, this.2.2.2⟩

/-- Claim C23: the series branch of `cisi`, over exact arithmetic. For every cap `count` on the
number of passes, after the loop has run from `sum=sums=sumc=0`, `sign=fact=1`, `odd=true`, the
variables `sums` and `sumc` are the partial sums of the series of Si and of Ci (without
`log(t)+EULER`) up to the power `K`, the number of passes executed (the counter at the exit, or
`count` when the loop ran out). For `x ≠ 0` with `sqrt(FPMIN) ≤ t = |x| ≤ 2` the function
either fails to converge (the counter passes `MAXIT`) or returns, from the series branch,
`ci = sumc + log(t) + EULER` and `si = sums` with the sign of `x`, for the `K ≤ MAXIT` passes
executed. -/
theorem cisi_series (env : MathEnv R) (x : R) (hx : x ≠ 0) (h2 : |x| ≤ 2)
    (hmin : env.sqrt (FPMIN env) ≤ |x|) :
    (∀ count,
      (forBreak (seriesStep env |x|) count 1 ⟨0, 0, 0, 1, 1, true⟩).1.sums =
        SiPartial |x| (min (forBreak (seriesStep env |x|) count 1 ⟨0, 0, 0, 1, 1, true⟩).2
          count) ∧
      (forBreak (seriesStep env |x|) count 1 ⟨0, 0, 0, 1, 1, true⟩).1.sumc =
        CiPartial |x| (min (forBreak (seriesStep env |x|) count 1 ⟨0, 0, 0, 1, 1, true⟩).2
          count)) ∧
    ((MAXIT < (forBreak (seriesStep env |x|) MAXIT 1 ⟨0, 0, 0, 1, 1, true⟩).2 ∧
        cisi env x = .error (.sinintNotConverged x)) ∨
      (∃ K, 1 ≤ K ∧ K ≤ MAXIT ∧
        K = (forBreak (seriesStep env |x|) MAXIT 1 ⟨0, 0, 0, 1, 1, true⟩).2 ∧
        cisi env x = .ok ⟨CiPartial |x| K + env.log |x| + env.EULER,
          if x < 0 then -SiPartial |x| K else SiPartial |x| K, .series⟩)) := by
  have loop : ∀ count,
      0 + 1 ≤ (forBreak (seriesStep env |x|) count (0 + 1) ⟨0, 0, 0, 1, 1, true⟩).2 ∧
      (forBreak (seriesStep env |x|) count (0 + 1) ⟨0, 0, 0, 1, 1, true⟩).2 ≤ 0 + 1 + count ∧
      (forBreak (seriesStep env |x|) count (0 + 1) ⟨0, 0, 0, 1, 1, true⟩).1.sums =
        SiPartial |x| (min (forBreak (seriesStep env |x|) count (0 + 1)
          ⟨0, 0, 0, 1, 1, true⟩).2 (0 + count)) ∧
      (forBreak (seriesStep env |x|) count (0 + 1) ⟨0, 0, 0, 1, 1, true⟩).1.sumc =
        CiPartial |x| (min (forBreak (seriesStep env |x|) count (0 + 1)
          ⟨0, 0, 0, 1, 1, true⟩).2 (0 + count)) := by
    intro count
    exact seriesLoop_spec env |x| count 0 ⟨0, 0, 0, 1, 1, true⟩ (by simp) (by simp) (by simp)
      (by simp) (by simp [SiPartial, Finset.filter_singleton])
      (by simp [CiPartial, Finset.filter_singleton])
  simp only [Nat.zero_add] at loop
  refine ⟨fun count => ⟨(loop count).2.2.1, (loop count).2.2.2⟩, ?_⟩
  obtain ⟨l1, l2, l3, l4⟩ := loop MAXIT
  have ht : ¬ |x| > TMIN := by unfold TMIN; exact not_lt.mpr h2
  have hu : ¬ |x| < env.sqrt (FPMIN env) := not_lt.mpr hmin
  by_cases hk : (forBreak (seriesStep env |x|) MAXIT 1 ⟨0, 0, 0, 1, 1, true⟩).2 > MAXIT
  · left
    refine ⟨hk, ?_⟩
    unfold cisi
    simp only [if_neg hx, if_neg ht, if_neg hu, if_pos hk, Except.map]
  · right
    refine ⟨_, l1, not_lt.mp hk, rfl, ?_⟩
    rw [Nat.min_eq_left (not_lt.mp hk)] at l3 l4
    unfold cisi
    simp only [if_neg hx, if_neg ht, if_neg hu, if_neg hk, Except.map, l3, l4]
    split_ifs <;> rfl


/-- Witness for C23: `x = 1` on the sample environment, where `sqrt(FPMIN)` is taken as
`(FPMIN+1)/2`, below 1. -/
theorem cisi_series_witness :
    (forBreak (seriesStep sampleEnv |(1 : ℚ)|) 3 1 ⟨0, 0, 0, 1, 1, true⟩).1.sums =
      SiPartial |(1 : ℚ)| (min (forBreak (seriesStep sampleEnv |(1 : ℚ)|) 3 1
        ⟨0, 0, 0, 1, 1, true⟩).2 3) :=
  ((cisi_series sampleEnv 1 (by norm_num) (by norm_num)
    (by norm_num [sampleEnv, FPMIN])).1 3).1

/-- A property that every pass of a fallible loop keeps holds after the loop, if it returns. -/
theorem forLoopM_inv {σ ε : Type} (P : σ → Prop) (n : Nat) (body : Nat → σ → Except ε σ)
    (h : ∀ i, i < n → ∀ s s', P s → body i s = .ok s' → P s') (s s' : σ) (hs : P s)
    (hr : forLoopM n body s = .ok s') : P s' := by
  induction n generalizing s' with
  | zero =>
    simp only [forLoopM, Except.ok.injEq] at hr
    exact hr ▸ hs
  | succ m ih =>
    simp only [forLoopM] at hr
    cases hm : forLoopM m body s with
    | error e => rw [hm] at hr; cases hr
    | ok s1 =>
      rw [hm] at hr
      exact h m (Nat.lt_succ_self m) s1 s'
        (ih (fun i hi => h i (Nat.lt_succ_of_lt hi)) s1 hm) hr

/-- A property that every pass of a fallible loop over a signed range keeps holds after the
loop, if it returns. -/
theorem forIntRangeM_inv {σ ε : Type} (P : σ → Prop) (lo hi : Int)
    (body : Int → σ → Except ε σ)
    (h : ∀ i, lo ≤ i → i < hi → ∀ s s', P s → body i s = .ok s' → P s') (s s' : σ)
    (hs : P s) (hr : forIntRangeM lo hi body s = .ok s') : P s' := by
  unfold forIntRangeM at hr
  refine forLoopM_inv P _ _ (fun n hn t t' ht hb => ?_) s s' hs hr
  exact h (lo + (n : Int)) (by omega) (by omega) t t' ht hb

/-- A loop over a signed range whose body never fails returns. -/
theorem forIntRangeM_ok {σ ε : Type} (lo hi : Int) (body : Int → σ → Except ε σ)
    (h : ∀ i s, ∃ s', body i s = .ok s') (s : σ) :
    ∃ s', forIntRangeM lo hi body s = .ok s' :=
  forLoopM_ok _ (fun n t => h (lo + (n : Int)) t) _ s


/-- A call through a pointer `a+index` leaves the entries below `index` as they are. -/
theorem callAt_below (f : (Nat → Cplx R) → Except (Fatal R) (Nat → Cplx R)) (index : Nat)
    (a a' : Nat → Cplx R) (h : callAt f index a = .ok a') (n : Nat) (hn : n < index) :
    a' n = a n := by
  unfold callAt at h
  cases hf : f (fun c => a (index + c)) with
  | error e => rw [hf] at h; cases h
  | ok r =>
    rw [hf] at h
    simp only [Except.map, Except.ok.injEq] at h
    rw [← h]
    simp [Nat.not_le.mpr hn]

/-- A call through a pointer returns when the routine called does. -/
theorem callAt_ok (f : (Nat → Cplx R) → Except (Fatal R) (Nat → Cplx R))
    (h : ∀ r, ∃ r', f r = .ok r') (index : Nat) (a : Nat → Cplx R) :
    ∃ a', callAt f index a = .ok a' := by
  obtain ⟨r', hr⟩ := h (fun c => a (index + c))
  refine ⟨fun n => if index ≤ n then r' (n - index) else a n, ?_⟩
  simp only [callAt, hr, Except.map]

/-- The values `InitDmatrix` gives `jstart` and `D2sizeY`, for `gridY ≥ 2*boxY`: either
`jstart = 0` and `D2sizeY ≥ boxY`, or `jstart = 1-boxY` and `D2sizeY ≥ 2*boxY`. -/
theorem InitDmatrix_D2_jstart (g : MatVecGlobals R) (hY : 2 * g.boxY ≤ g.gridY) :
    ((InitDmatrix_D2 g).jstart = 0 ∧ g.boxY ≤ (InitDmatrix_D2 g).D2sizeY) ∨
      ((InitDmatrix_D2 g).jstart = 1 - (g.boxY : Int) ∧
        2 * g.boxY ≤ (InitDmatrix_D2 g).D2sizeY) := by
  unfold InitDmatrix_D2
  cases hr : g.reduced_FFT
  · right
    simp only [Bool.false_eq_true, if_false]
    exact ⟨trivial, hY⟩
  · left
    simp only [if_true]
    exact ⟨trivial, by omega⟩

/-- The index `IndexD2matrix` gives a displacement of the fill loop of `InitDmatrix` other than
the zero displacement is positive, when the partition starts at `z = 0`. -/
theorem IndexD2matrix_pos (g : MatVecGlobals R) (d : D2Vars) (ig : InitGlobals) (nnn : Int)
    (hz0 : ig.local_z0 = 0) (hX : 2 * ig.boxX ≤ g.gridX)
    (hjs : (d.jstart = 0 ∧ g.boxY ≤ d.D2sizeY) ∨
      (d.jstart = 1 - (g.boxY : Int) ∧ 2 * g.boxY ≤ d.D2sizeY))
    (i j k : Int) (hi : 1 - (ig.boxX : Int) ≤ i) (hi2 : i < ig.boxX)
    (hj : d.jstart ≤ j) (hj2 : j < g.boxY) (hk : 0 ≤ k)
    (hne : ¬ (i = 0 ∧ j = 0 ∧ k = 0)) :
    1 ≤ IndexD2matrix g d ig i j k nnn := by
  unfold IndexD2matrix
  dsimp only
  rw [hz0]
  simp only [Nat.cast_zero, mul_zero, sub_zero]
  have hx' : 0 ≤ (if i < 0 then i + (g.gridX : Int) else i) ∧
      (if i < 0 then i + (g.gridX : Int) else i) < g.gridX ∧
      ((if i < 0 then i + (g.gridX : Int) else i) = 0 → i = 0) := by
    by_cases h : i < 0
    · simp only [if_pos h]; omega
    · simp only [if_neg h]; omega
  have hy' : 0 ≤ (if j < 0 then j + (d.D2sizeY : Int) else j) ∧
      (if j < 0 then j + (d.D2sizeY : Int) else j) < (d.D2sizeY : Int) ∧
      ((if j < 0 then j + (d.D2sizeY : Int) else j) = 0 → j = 0) := by
    by_cases h : j < 0
    · simp only [if_pos h]; omega
    · simp only [if_neg h]; omega
  obtain ⟨x1, x2, x3⟩ := hx'
  obtain ⟨y1, y2, y3⟩ := hy'
  generalize (if i < 0 then i + (g.gridX : Int) else i) = x at *
  generalize (if j < 0 then j + (d.D2sizeY : Int) else j) = y at *
  have hG : 1 ≤ (g.gridX : Int) := by omega
  have hD : 1 ≤ (d.D2sizeY : Int) := by omega
  have hkD : 0 ≤ k * (d.D2sizeY : Int) := Int.mul_nonneg hk (by omega)
  by_cases hx0 : x = 0
  · have hky : 1 ≤ k * (d.D2sizeY : Int) + y := by
      by_cases hy0 : y = 0
      · have hk1 : 1 ≤ k := by
          by_cases h : 0 < k
          · omega
          · exact absurd ⟨x3 hx0, y3 hy0, by omega⟩ hne
        have := one_le_mul_of_one_le_of_one_le hk1 hD
        omega
      · omega
    have := one_le_mul_of_one_le_of_one_le hky hG
    omega
  · have : 0 ≤ (k * (d.D2sizeY : Int) + y) * (g.gridX : Int) :=
      Int.mul_nonneg (by omega) (by omega)
    omega

/-- The zero displacement has the index 0 when the partition starts at `z = 0`. -/
theorem IndexD2matrix_zero (g : MatVecGlobals R) (d : D2Vars) (ig : InitGlobals)
    (hz0 : ig.local_z0 = 0) (nnn : Int) : IndexD2matrix g d ig 0 0 0 nnn = 0 := by
  simp [IndexD2matrix, hz0]

/-- Claim C28: after the zero fill and the fill loop of `InitDmatrix` (for a partition that
starts at `z = 0`, so that its Z range holds `k = 0`; `gridX ≥ 2*boxX`, `gridY ≥ 2*boxY`,
and `Dmatrix` with at least one cell, `Dsize ≥ NDCOMP`), the six components of the cell of
the zero displacement, `Dmatrix[NDCOMP*IndexD2matrix(0,0,0,nnn)+c]` for `c < NDCOMP`, are
zero whenever the loop returns; in point-dipole mode, where `CalcInterTerm` raises no fatal
error, it does return. -/
theorem fillDmatrix_no_self_term (env : MathEnv R) (cfg : InterConfig R)
    (g : MatVecGlobals R) (ig : InitGlobals) (Dmatrix : Nat → Cplx R)
    (hz0 : ig.local_z0 = 0) (hX : 2 * ig.boxX ≤ g.gridX) (hY : 2 * g.boxY ≤ g.gridY)
    (hD : NDCOMP ≤ Dsize g) :
    (∀ D', fillDmatrix env cfg g ig (InitDmatrix_D2 g) Dmatrix = .ok D' →
      ∀ c, c < NDCOMP →
        D' (((NDCOMP : Int) * IndexD2matrix g (InitDmatrix_D2 g) ig 0 0 0
          ((InitDmatrix_D2 g).nnn : Int)).toNat + c) = Cplx.zero) ∧
    (cfg.IntRelation = .G_POINT_DIP →
      ∃ D', fillDmatrix env cfg g ig (InitDmatrix_D2 g) Dmatrix = .ok D') := by
  constructor
  · intro D' hfill c hc
    rw [IndexD2matrix_zero g _ ig hz0]
    simp only [mul_zero, Int.toNat_zero, Nat.zero_add]
    unfold fillDmatrix at hfill
    dsimp only at hfill
    have h0 : ∀ c, c < NDCOMP →
        forLoop (Dsize g) (fun ind D => Function.update D ind Cplx.zero) Dmatrix c
          = (Cplx.zero : Cplx R) := by
      intro c hc
      exact (forLoop_update_apply (fun _ _ => (Cplx.zero : Cplx R)) (Dsize g) Dmatrix c).trans
        (if_pos (Nat.lt_of_lt_of_le hc hD))
    refine forIntRangeM_inv (fun (D : Nat → Cplx R) => ∀ c, c < NDCOMP → D c = Cplx.zero)
      _ _ _ (fun k hk1 _ D1 D1' hP1 hb1 => ?_) _ D' h0 hfill c hc
    refine forIntRangeM_inv (fun (D : Nat → Cplx R) => ∀ c, c < NDCOMP → D c = Cplx.zero)
      _ _ _ (fun j hj1 hj2 D2 D2' hP2 hb2 => ?_) _ D1' hP1 hb1
    refine forIntRangeM_inv (fun (D : Nat → Cplx R) => ∀ c, c < NDCOMP → D c = Cplx.zero)
      _ _ _ (fun i hi1 hi2 D3 D3' hP3 hb3 => ?_) _ D2' hP2 hb2
    have hk0 : 0 ≤ k := by
      rw [hz0] at hk1
      simpa using hk1
    intro c hc
    by_cases hself : i = 0 ∧ j = 0 ∧ k = 0
    · obtain ⟨rfl, rfl, rfl⟩ := hself
      have hkc : (if (0 : Int) > (g.smallZ : Int) then (0 : Int) - (g.gridZ : Int) else 0)
          = 0 := by
        rw [if_neg (by omega)]
      have hidx : ((NDCOMP : Int) * IndexD2matrix g (InitDmatrix_D2 g) ig 0 0 0
          ((InitDmatrix_D2 g).nnn : Int)).toNat = 0 := by
        rw [IndexD2matrix_zero g _ ig hz0]
        rfl
      rw [hkc, hidx] at hb3
      simp only [callAt, CalcInterTerm_self, Except.map, Except.ok.injEq] at hb3
      rw [← hb3]
      dsimp only
      rw [if_pos (Nat.zero_le c), Nat.sub_zero]
      by_cases hc0 : c = 0
      · rw [hc0, Function.update_same]
      · rw [Function.update_noteq hc0, Nat.zero_add]
        exact hP3 c hc
    · have hpos := IndexD2matrix_pos g (InitDmatrix_D2 g) ig ((InitDmatrix_D2 g).nnn : Int)
        hz0 hX (InitDmatrix_D2_jstart g hY) i j k hi1 hi2 hj1 hj2 hk0 hself
      rw [callAt_below _ _ D3 D3' hb3 c (by unfold NDCOMP at *; omega)]
      exact hP3 c hc
  · intro hmode
    unfold fillDmatrix
    dsimp only
    refine forIntRangeM_ok _ _ _ (fun k D1 => ?_) _
    refine forIntRangeM_ok _ _ _ (fun j D2 => ?_) _
    refine forIntRangeM_ok _ _ _ (fun i D3 => ?_) _
    exact callAt_ok _ (fun r => CalcInterTerm_pointDip_ok env cfg hmode _ _ _ r) _ _


/-- Witness for C28: the sample grid (2 x 2 x 2, `boxY = 1`, `Dsize = 48`) with `boxX = 1`
and the Z range `[0,1)` in point-dipole mode, `Dmatrix` holding `1+i` everywhere before. -/
theorem fillDmatrix_no_self_term_witness :
    (∀ D', fillDmatrix sampleEnv (sampleInter .G_POINT_DIP) (sampleGlobals true) ⟨1, 0, 1⟩
        (InitDmatrix_D2 (sampleGlobals true)) (fun _ => ⟨1, 1⟩) = .ok D' →
      ∀ c, c < NDCOMP →
        D' (((NDCOMP : Int) * IndexD2matrix (sampleGlobals true)
          (InitDmatrix_D2 (sampleGlobals true)) ⟨1, 0, 1⟩ 0 0 0
          ((InitDmatrix_D2 (sampleGlobals true)).nnn : Int)).toNat + c) = Cplx.zero) ∧
    ((sampleInter .G_POINT_DIP).IntRelation = .G_POINT_DIP →
      ∃ D', fillDmatrix sampleEnv (sampleInter .G_POINT_DIP) (sampleGlobals true) ⟨1, 0, 1⟩
        (InitDmatrix_D2 (sampleGlobals true)) (fun _ => ⟨1, 1⟩) = .ok D') :=
  fillDmatrix_no_self_term sampleEnv (sampleInter .G_POINT_DIP) (sampleGlobals true)
    ⟨1, 0, 1⟩ (fun _ => ⟨1, 1⟩) rfl (by decide) (by decide) (by decide)

/-- A loop that stores into the distinct cells `t k` values that depend only on cells outside a
set `U` that holds every `t k`: started from a state that agrees with `s0` outside `U`, it
leaves in `t k` the value computed from `s0` and keeps every other cell. -/
theorem row_writes {α : Type} (n : Nat) (t : Nat → Nat) (val : Nat → (Nat → α) → α)
    (U : Nat → Prop) (hU : ∀ k, k < n → U (t k))
    (hinj : ∀ k, k < n → ∀ k', k' < n → t k = t k' → k = k')
    (hval : ∀ k, k < n → ∀ s s' : Nat → α, (∀ idx, ¬ U idx → s idx = s' idx) →
      val k s = val k s')
    (s0 s1 : Nat → α) (h01 : ∀ idx, ¬ U idx → s1 idx = s0 idx) :
    (∀ k, k < n →
      forLoop n (fun k s => Function.update s (t k) (val k s)) s1 (t k) = val k s0) ∧
    (∀ idx, (¬ ∃ k, k < n ∧ idx = t k) →
      forLoop n (fun k s => Function.update s (t k) (val k s)) s1 idx = s1 idx) := by
  have key := forLoop_inv_idx
    (fun m (s : Nat → α) => m ≤ n ∧ (∀ k, k < m → s (t k) = val k s0) ∧
      (∀ idx, (¬ ∃ k, k < m ∧ idx = t k) → s idx = s1 idx))
    n (fun k s => Function.update s (t k) (val k s))
    (fun m hm s hP => ?_) s1 ⟨Nat.zero_le n, fun k hk => absurd hk (Nat.not_lt_zero k),
      fun idx _ => rfl⟩
  · exact ⟨key.2.1, key.2.2⟩
  · obtain ⟨_, hP1, hP2⟩ := hP
    refine ⟨hm, fun k hk => ?_, fun idx hidx => ?_⟩
    · rcases Nat.lt_succ_iff_lt_or_eq.mp hk with hk' | rfl
      · have hne : t k ≠ t m := fun h => by
          have := hinj k (Nat.lt_trans hk' hm) m hm h
          omega
        show Function.update s (t m) (val m s) (t k) = val k s0
        rw [Function.update_noteq hne]
        exact hP1 k hk'
      · show Function.update s (t k) (val k s) (t k) = val k s0
        rw [Function.update_same]
        refine hval k hm s s0 (fun idx hU' => ?_)
        rw [hP2 idx (fun ⟨k', hk', he⟩ => hU' (he ▸ hU k' (Nat.lt_trans hk' hm)))]
        exact h01 idx hU'
    · have hne : idx ≠ t m := fun h => hidx ⟨m, Nat.lt_succ_self m, h⟩
      show Function.update s (t m) (val m s) idx = s1 idx
      rw [Function.update_noteq hne]
      exact hP2 idx (fun ⟨k', hk', he⟩ => hidx ⟨k', Nat.lt_succ_of_lt hk', he⟩)

/-- Two nested loops that store into the distinct cells `tgt a b` values that depend only on
cells the loops never store into: afterwards the cell `tgt a b` holds the value computed from
the state before the loops, and every other cell is as before. -/
theorem nested_writes {α : Type} (n1 n2 : Nat) (tgt : Nat → Nat → Nat)
    (val : Nat → Nat → (Nat → α) → α)
    (hinj : ∀ a, a < n1 → ∀ b, b < n2 → ∀ a', a' < n1 → ∀ b', b' < n2 →
      tgt a b = tgt a' b' → a = a' ∧ b = b')
    (hval : ∀ a, a < n1 → ∀ b, b < n2 → ∀ s s' : Nat → α,
      (∀ idx, (¬ ∃ a', a' < n1 ∧ ∃ b', b' < n2 ∧ idx = tgt a' b') → s idx = s' idx) →
      val a b s = val a b s')
    (s0 : Nat → α) :
    (∀ a, a < n1 → ∀ b, b < n2 →
      forLoop n1 (fun a s =>
        forLoop n2 (fun b s => Function.update s (tgt a b) (val a b s)) s) s0 (tgt a b)
        = val a b s0) ∧
    (∀ idx, (¬ ∃ a, a < n1 ∧ ∃ b, b < n2 ∧ idx = tgt a b) →
      forLoop n1 (fun a s =>
        forLoop n2 (fun b s => Function.update s (tgt a b) (val a b s)) s) s0 idx
        = s0 idx) := by
  have key := forLoop_inv_idx
    (fun m (s : Nat → α) => m ≤ n1 ∧ (∀ a, a < m → ∀ b, b < n2 → s (tgt a b) = val a b s0) ∧
      (∀ idx, (¬ ∃ a, a < m ∧ ∃ b, b < n2 ∧ idx = tgt a b) → s idx = s0 idx))
    n1 (fun a s => forLoop n2 (fun b s => Function.update s (tgt a b) (val a b s)) s)
    (fun m hm s hP => ?_) s0 ⟨Nat.zero_le n1, fun a ha => absurd ha (Nat.not_lt_zero a),
      fun idx _ => rfl⟩
  · exact ⟨key.2.1, key.2.2⟩
  · obtain ⟨_, hP1, hP2⟩ := hP
    have hrow := row_writes n2 (tgt m) (val m)
      (fun idx => ∃ a', a' < n1 ∧ ∃ b', b' < n2 ∧ idx = tgt a' b')
      (fun b hb => ⟨m, hm, b, hb, rfl⟩)
      (fun b hb b' hb' h => (hinj m hm b hb m hm b' hb' h).2)
      (fun b hb s s' h => hval m hm b hb s s' h) s0 s
      (fun idx hU => hP2 idx (fun ⟨a, ha, b, hb, he⟩ =>
        hU ⟨a, Nat.lt_trans ha hm, b, hb, he⟩))
    obtain ⟨hr1, hr2⟩ := hrow
    refine ⟨hm, fun a ha b hb => ?_, fun idx hidx => ?_⟩
    · rcases Nat.lt_succ_iff_lt_or_eq.mp ha with ha' | rfl
      · show forLoop n2 (fun b s => Function.update s (tgt m b) (val m b s)) s (tgt a b) = _
        rw [hr2 (tgt a b) (fun ⟨b', hb', he⟩ => by
          have := (hinj a (Nat.lt_trans ha' hm) b hb m hm b' hb' he).1
          omega)]
        exact hP1 a ha' b hb
      · exact hr1 b hb
    · show forLoop n2 (fun b s => Function.update s (tgt m b) (val m b s)) s idx = _
      rw [hr2 idx (fun ⟨b', hb', he⟩ => hidx ⟨m, Nat.lt_succ_self m, b', hb', he⟩)]
      exact hP2 idx (fun ⟨a, ha, b, hb, he⟩ => hidx ⟨a, Nat.lt_succ_of_lt ha, b, hb, he⟩)

/-- The lemma `nested_writes` for loops over signed ranges. -/
theorem intNested_writes {α : Type} (lo1 hi1 lo2 hi2 : Int) (tgt : Int → Int → Nat)
    (val : Int → Int → (Nat → α) → α)
    (hinj : ∀ j, lo1 ≤ j → j < hi1 → ∀ k, lo2 ≤ k → k < hi2 →
      ∀ j', lo1 ≤ j' → j' < hi1 → ∀ k', lo2 ≤ k' → k' < hi2 →
      tgt j k = tgt j' k' → j = j' ∧ k = k')
    (hval : ∀ j, lo1 ≤ j → j < hi1 → ∀ k, lo2 ≤ k → k < hi2 → ∀ s s' : Nat → α,
      (∀ idx, (¬ ∃ j', lo1 ≤ j' ∧ j' < hi1 ∧ ∃ k', lo2 ≤ k' ∧ k' < hi2 ∧ idx = tgt j' k') →
        s idx = s' idx) → val j k s = val j k s')
    (s0 : Nat → α) :
    (∀ j, lo1 ≤ j → j < hi1 → ∀ k, lo2 ≤ k → k < hi2 →
      forIntRange lo1 hi1 (fun j s =>
        forIntRange lo2 hi2 (fun k s => Function.update s (tgt j k) (val j k s)) s) s0
          (tgt j k) = val j k s0) ∧
    (∀ idx, (¬ ∃ j, lo1 ≤ j ∧ j < hi1 ∧ ∃ k, lo2 ≤ k ∧ k < hi2 ∧ idx = tgt j k) →
      forIntRange lo1 hi1 (fun j s =>
        forIntRange lo2 hi2 (fun k s => Function.update s (tgt j k) (val j k s)) s) s0 idx
          = s0 idx) := by
  have key := nested_writes (hi1 - lo1).toNat (hi2 - lo2).toNat
    (fun a b => tgt (lo1 + (a : Int)) (lo2 + (b : Int)))
    (fun a b s => val (lo1 + (a : Int)) (lo2 + (b : Int)) s)
    (fun a ha b hb a' ha' b' hb' h => by
      have := hinj (lo1 + (a : Int)) (by omega) (by omega) (lo2 + (b : Int)) (by omega)
        (by omega) (lo1 + (a' : Int)) (by omega) (by omega) (lo2 + (b' : Int)) (by omega)
        (by omega) h
      omega)
    (fun a ha b hb s s' h =>
      hval (lo1 + (a : Int)) (by omega) (by omega) (lo2 + (b : Int)) (by omega) (by omega)
        s s' (fun idx hidx => h idx (fun ⟨a', ha', b', hb', he⟩ =>
          hidx ⟨lo1 + (a' : Int), by omega, by omega, lo2 + (b' : Int), by omega, by omega,
            he⟩)))
    s0
  obtain ⟨k1, k2⟩ := key
  constructor
  · intro j hj1 hj2 k hk1 hk2
    have e1 : lo1 + (((j - lo1).toNat : Nat) : Int) = j := by omega
    have e2 : lo2 + (((k - lo2).toNat : Nat) : Int) = k := by omega
    have := k1 (j - lo1).toNat (by omega) (k - lo2).toNat (by omega)
    rw [e1, e2] at this
    exact this
  · intro idx hidx
    refine k2 idx (fun ⟨a, ha, b, hb, he⟩ => hidx ⟨lo1 + (a : Int), by omega, by omega,
      lo2 + (b : Int), by omega, by omega, he⟩)


/-- For `gridY ≥ 2*boxY` and `gridZ ≥ 2*boxZ` the displacements `(j,k)` with `|j| < boxY`,
`|k| < boxZ` get distinct cells of `slice` from `IndexSliceD2matrix`. -/
theorem IndexSliceD2matrix_inj (g : MatVecGlobals R) (hgY : 2 * g.boxY ≤ g.gridY)
    (hgZ : 2 * g.boxZ ≤ g.gridZ) (j k j' k' : Int)
    (hj1 : -(g.boxY : Int) < j) (hj2 : j < g.boxY) (hk1 : -(g.boxZ : Int) < k)
    (hk2 : k < g.boxZ) (hj1' : -(g.boxY : Int) < j') (hj2' : j' < g.boxY)
    (hk1' : -(g.boxZ : Int) < k') (hk2' : k' < g.boxZ)
    (h : (IndexSliceD2matrix g j k).toNat = (IndexSliceD2matrix g j' k').toNat) :
    j = j' ∧ k = k' := by
  have dig : ∀ j k : Int, -(g.boxY : Int) < j → j < g.boxY → -(g.boxZ : Int) < k →
      k < g.boxZ →
      (0 ≤ (if j < 0 then j + (g.gridY : Int) else j) ∧
        (if j < 0 then j + (g.gridY : Int) else j) < g.gridY ∧
        ((if j < 0 then j + (g.gridY : Int) else j) < g.boxY → 
          (if j < 0 then j + (g.gridY : Int) else j) = j) ∧
        (¬ (if j < 0 then j + (g.gridY : Int) else j) < g.boxY → 
          (if j < 0 then j + (g.gridY : Int) else j) = j + g.gridY)) ∧
      (0 ≤ (if k < 0 then k + (g.gridZ : Int) else k) ∧
        (if k < 0 then k + (g.gridZ : Int) else k) < g.gridZ ∧
        ((if k < 0 then k + (g.gridZ : Int) else k) < g.boxZ → 
          (if k < 0 then k + (g.gridZ : Int) else k) = k) ∧
        (¬ (if k < 0 then k + (g.gridZ : Int) else k) < g.boxZ → 
          (if k < 0 then k + (g.gridZ : Int) else k) = k + g.gridZ)) := by
    intro j k h1 h2 h3 h4
    split_ifs <;>
      exact ⟨⟨by omega, by omega, fun _ => by omega, fun _ => by omega⟩,
        by omega, by omega, fun _ => by omega, fun _ => by omega⟩
  obtain ⟨⟨y1, y2, y4, y5⟩, z1, z2, z4, z5⟩ := dig j k hj1 hj2 hk1 hk2
  obtain ⟨⟨y1', y2', y4', y5'⟩, z1', z2', z4', z5'⟩ := dig j' k' hj1' hj2' hk1' hk2'
  unfold IndexSliceD2matrix at h
  dsimp only at h
  generalize (if j < 0 then j + (g.gridY : Int) else j) = y at *
  generalize (if k < 0 then k + (g.gridZ : Int) else k) = z at *
  generalize (if j' < 0 then j' + (g.gridY : Int) else j') = y' at *
  generalize (if k' < 0 then k' + (g.gridZ : Int) else k') = z' at *
  have n1 : 0 ≤ y * (g.gridZ : Int) := Int.mul_nonneg y1 (by omega)
  have n2 : 0 ≤ y' * (g.gridZ : Int) := Int.mul_nonneg y1' (by omega)
  have hI : y * (g.gridZ : Int) + z = y' * (g.gridZ : Int) + z' := by omega
  obtain ⟨e1, e2⟩ := radix_inj (g.gridZ : Int) y y' z z' z1 z2 z1' z2' hI
  subst e1 e2
  constructor
  · by_cases hy : y < g.boxY
    · rw [← y4 hy, ← y4' hy]
    · have a1 := y5 hy
      have a2 := y5' hy
      omega
  · by_cases hz : z < g.boxZ
    · rw [← z4 hz, ← z4' hz]
    · have a1 := z5 hz
      have a2 := z5' hz
      omega

/-- The zero fill and the copy loop of `InitDmatrix` with `reduced_FFT`: the cell of a
displacement `(j,k)` with `0 ≤ j < boxY`, `0 ≤ k < boxZ` holds the entry of `D2matrix` that
`IndexGarbledD` names, every other cell of `slice` is zero. -/
theorem fillSlice_spec (g : MatVecGlobals R) (x : Nat) (D2matrix slice : Nat → Cplx R)
    (hred : g.reduced_FFT = true) (hgY : 2 * g.boxY ≤ g.gridY) (hgZ : 2 * g.boxZ ≤ g.gridZ) :
    (∀ j k : Int, 0 ≤ j → j < g.boxY → 0 ≤ k → k < g.boxZ →
      fillSlice g (InitDmatrix_D2 g) x D2matrix slice (IndexSliceD2matrix g j k).toNat =
        D2matrix (IndexGarbledD g (InitDmatrix_D2 g) x j k (InitDmatrix_D2 g).lengthN).toNat) ∧
    (∀ idx, idx < g.gridYZ →
      (¬ ∃ j : Int, 0 ≤ j ∧ j < g.boxY ∧ ∃ k : Int, 0 ≤ k ∧ k < g.boxZ ∧
        idx = (IndexSliceD2matrix g j k).toNat) →
      fillSlice g (InitDmatrix_D2 g) x D2matrix slice idx = Cplx.zero) := by
  have hd : (InitDmatrix_D2 g).jstart = 0 ∧ (InitDmatrix_D2 g).kstart = 0 := by
    simp [InitDmatrix_D2, hred]
  generalize InitDmatrix_D2 g = d at *
  obtain ⟨hd1, hd2⟩ := hd
  have key := intNested_writes 0 (g.boxY : Int) 0 (g.boxZ : Int)
    (fun j k => (IndexSliceD2matrix g j k).toNat)
    (fun j k (_ : Nat → Cplx R) => D2matrix (IndexGarbledD g d x j k d.lengthN).toNat)
    (fun j a1 a2 k a3 a4 j' b1 b2 k' b3 b4 h =>
      IndexSliceD2matrix_inj g hgY hgZ j k j' k' (by omega) a2 (by omega) a4 (by omega) b2
        (by omega) b4 h)
    (fun _ _ _ _ _ _ _ _ _ => rfl)
    (forLoop g.gridYZ (fun ind s => Function.update s ind Cplx.zero) slice)
  obtain ⟨k1, k2⟩ := key
  unfold fillSlice
  dsimp only
  rw [hd1, hd2]
  refine ⟨fun j k a1 a2 a3 a4 => k1 j a1 a2 k a3 a4, fun idx hidx hn => ?_⟩
  rw [k2 idx hn]
  exact (forLoop_update_apply (fun _ _ => (Cplx.zero : Cplx R)) g.gridYZ slice idx).trans
    (if_pos hidx)

/-- The loop `// mirror along y` of `InitDmatrix`: the cell of `(j,k)` with `-boxY < j < 0`,
`0 ≤ k < boxZ` gets the mirrored value of the cell of `(-j,k)`, every other cell is kept. -/
theorem mirrorY_spec (g : MatVecGlobals R) (Dcomp : Nat) (s : Nat → Cplx R)
    (hgY : 2 * g.boxY ≤ g.gridY) (hgZ : 2 * g.boxZ ≤ g.gridZ) :
    (∀ j k : Int, -(g.boxY : Int) < j → j < 0 → 0 ≤ k → k < g.boxZ →
      forIntRange 1 (g.boxY : Int) (fun j s =>
        forIntRange 0 (g.boxZ : Int) (fun k s =>
          Function.update s (IndexSliceD2matrix g (-j) k).toNat
            (mirrorAlongY Dcomp (s (IndexSliceD2matrix g j k).toNat))) s) s
          (IndexSliceD2matrix g j k).toNat =
        mirrorAlongY Dcomp (s (IndexSliceD2matrix g (-j) k).toNat)) ∧
    (∀ idx, (¬ ∃ j : Int, -(g.boxY : Int) < j ∧ j < 0 ∧ ∃ k : Int, 0 ≤ k ∧ k < g.boxZ ∧
        idx = (IndexSliceD2matrix g j k).toNat) →
      forIntRange 1 (g.boxY : Int) (fun j s =>
        forIntRange 0 (g.boxZ : Int) (fun k s =>
          Function.update s (IndexSliceD2matrix g (-j) k).toNat
            (mirrorAlongY Dcomp (s (IndexSliceD2matrix g j k).toNat))) s) s idx = s idx) := by
  have key := intNested_writes 1 (g.boxY : Int) 0 (g.boxZ : Int)
    (fun j k => (IndexSliceD2matrix g (-j) k).toNat)
    (fun j k (s : Nat → Cplx R) => mirrorAlongY Dcomp (s (IndexSliceD2matrix g j k).toNat))
    (fun j a1 a2 k a3 a4 j' b1 b2 k' b3 b4 h => by
      have := IndexSliceD2matrix_inj g hgY hgZ (-j) k (-j') k' (by omega) (by omega)
        (by omega) a4 (by omega) (by omega) (by omega) b4 h
      omega)
    (fun j a1 a2 k a3 a4 s s' h => by
      show mirrorAlongY Dcomp (s _) = mirrorAlongY Dcomp (s' _)
      rw [h _ (fun ⟨j', b1, b2, k', b3, b4, he⟩ => by
        have := IndexSliceD2matrix_inj g hgY hgZ j k (-j') k' (by omega) (by omega)
          (by omega) a4 (by omega) (by omega) (by omega) b4 he
        omega)])
    s
  obtain ⟨k1, k2⟩ := key
  constructor
  · intro j k a1 a2 a3 a4
    have := k1 (-j) (by omega) (by omega) k a3 a4
    rwa [neg_neg] at this
  · intro idx hn
    refine k2 idx (fun ⟨j, b1, b2, k, b3, b4, he⟩ =>
      hn ⟨-j, by omega, by omega, k, b3, b4, he⟩)

/-- The loop `// mirror along z` of `InitDmatrix`: the cell of `(j,k)` with `|j| < boxY`,
`-boxZ < k < 0` gets the mirrored value of the cell of `(j,-k)`, every other cell is kept. -/
theorem mirrorZ_spec (g : MatVecGlobals R) (Dcomp : Nat) (s : Nat → Cplx R)
    (hgY : 2 * g.boxY ≤ g.gridY) (hgZ : 2 * g.boxZ ≤ g.gridZ) :
    (∀ j k : Int, -(g.boxY : Int) < j → j < g.boxY → -(g.boxZ : Int) < k → k < 0 →
      forIntRange (1 - (g.boxY : Int)) (g.boxY : Int) (fun j s =>
        forIntRange 1 (g.boxZ : Int) (fun k s =>
          Function.update s (IndexSliceD2matrix g j (-k)).toNat
            (mirrorAlongZ Dcomp (s (IndexSliceD2matrix g j k).toNat))) s) s
          (IndexSliceD2matrix g j k).toNat =
        mirrorAlongZ Dcomp (s (IndexSliceD2matrix g j (-k)).toNat)) ∧
    (∀ idx, (¬ ∃ j : Int, -(g.boxY : Int) < j ∧ j < g.boxY ∧
        ∃ k : Int, -(g.boxZ : Int) < k ∧ k < 0 ∧ idx = (IndexSliceD2matrix g j k).toNat) →
      forIntRange (1 - (g.boxY : Int)) (g.boxY : Int) (fun j s =>
        forIntRange 1 (g.boxZ : Int) (fun k s =>
          Function.update s (IndexSliceD2matrix g j (-k)).toNat
            (mirrorAlongZ Dcomp (s (IndexSliceD2matrix g j k).toNat))) s) s idx = s idx) := by
  have key := intNested_writes (1 - (g.boxY : Int)) (g.boxY : Int) 1 (g.boxZ : Int)
    (fun j k => (IndexSliceD2matrix g j (-k)).toNat)
    (fun j k (s : Nat → Cplx R) => mirrorAlongZ Dcomp (s (IndexSliceD2matrix g j k).toNat))
    (fun j a1 a2 k a3 a4 j' b1 b2 k' b3 b4 h => by
      have := IndexSliceD2matrix_inj g hgY hgZ j (-k) j' (-k') (by omega) a2
        (by omega) (by omega) (by omega) b2 (by omega) (by omega) h
      omega)
    (fun j a1 a2 k a3 a4 s s' h => by
      show mirrorAlongZ Dcomp (s _) = mirrorAlongZ Dcomp (s' _)
      rw [h _ (fun ⟨j', b1, b2, k', b3, b4, he⟩ => by
        have := IndexSliceD2matrix_inj g hgY hgZ j k j' (-k') (by omega) a2
          (by omega) a4 (by omega) b2 (by omega) (by omega) he
        omega)])
    s
  obtain ⟨k1, k2⟩ := key
  constructor
  · intro j k a1 a2 a3 a4
    have := k1 j (by omega) a2 (-k) (by omega) (by omega)
    rwa [neg_neg] at this
  · intro idx hn
    refine k2 idx (fun ⟨j, b1, b2, k, b3, b4, he⟩ =>
      hn ⟨j, by omega, b2, -k, by omega, by omega, he⟩)

/-- The two mirror loops of `InitDmatrix` together: the cell of a displacement `(j,k)` with
`|j| < boxY`, `|k| < boxZ` holds the value the cell of `(|j|,|k|)` had before, mirrored along
y when `j < 0` and along z when `k < 0`; every other cell is kept. -/
theorem mirrorSlice_spec (g : MatVecGlobals R) (Dcomp : Nat) (s : Nat → Cplx R)
    (hred : g.reduced_FFT = true) (hgY : 2 * g.boxY ≤ g.gridY) (hgZ : 2 * g.boxZ ≤ g.gridZ) :
    (∀ j k : Int, -(g.boxY : Int) < j → j < g.boxY → -(g.boxZ : Int) < k → k < g.boxZ →
      mirrorSlice g Dcomp s (IndexSliceD2matrix g j k).toNat =
        (if k < 0 then mirrorAlongZ Dcomp else id)
          ((if j < 0 then mirrorAlongY Dcomp else id)
            (s (IndexSliceD2matrix g |j| |k|).toNat))) ∧
    (∀ idx, (¬ ∃ j : Int, -(g.boxY : Int) < j ∧ j < g.boxY ∧
        ∃ k : Int, -(g.boxZ : Int) < k ∧ k < g.boxZ ∧
          idx = (IndexSliceD2matrix g j k).toNat) →
      mirrorSlice g Dcomp s idx = s idx) := by
  have inj := IndexSliceD2matrix_inj g hgY hgZ
  unfold mirrorSlice
  rw [if_pos hred]
  dsimp only
  constructor
  · intro j k a1 a2 a3 a4
    have hY : (forIntRange 1 (g.boxY : Int) (fun j s =>
        forIntRange 0 (g.boxZ : Int) (fun k s =>
          Function.update s (IndexSliceD2matrix g (-j) k).toNat
            (mirrorAlongY Dcomp (s (IndexSliceD2matrix g j k).toNat))) s) s
          (IndexSliceD2matrix g j |k|).toNat) =
        (if j < 0 then mirrorAlongY Dcomp else id) (s (IndexSliceD2matrix g |j| |k|).toNat) := by
      by_cases hj : j < 0
      · rw [(mirrorY_spec g Dcomp s hgY hgZ).1 j |k| a1 hj (abs_nonneg k)
          (abs_lt.mpr ⟨a3, a4⟩), if_pos hj, abs_of_neg hj]
      · rw [(mirrorY_spec g Dcomp s hgY hgZ).2 _ (fun ⟨j', b1, b2, k', b3, b4, he⟩ => by
          have := inj j |k| j' k' a1 a2 (by have := abs_nonneg k; omega)
            (abs_lt.mpr ⟨a3, a4⟩) b1 (by omega) (by omega) b4 he
          omega), if_neg hj, abs_of_nonneg (not_lt.mp hj)]
        rfl
    by_cases hk : k < 0
    · rw [(mirrorZ_spec g Dcomp _ hgY hgZ).1 j k a1 a2 a3 hk, if_pos hk]
      rw [← abs_of_neg hk, hY]
    · rw [(mirrorZ_spec g Dcomp _ hgY hgZ).2 _ (fun ⟨j', b1, b2, k', b3, b4, he⟩ => by
        have := inj j k j' k' a1 a2 a3 a4 b1 b2 b3 (by omega) he
        omega), if_neg hk]
      have hk' := abs_of_nonneg (not_lt.mp hk)
      rw [hk'] at hY
      rw [hY, hk']
      rfl
  · intro idx hn
    rw [(mirrorZ_spec g Dcomp _ hgY hgZ).2 idx (fun ⟨j', b1, b2, k', b3, b4, he⟩ =>
      hn ⟨j', b1, b2, k', b3, by omega, he⟩)]
    exact (mirrorY_spec g Dcomp s hgY hgZ).2 idx (fun ⟨j', b1, b2, k', b3, b4, he⟩ =>
      hn ⟨j', b1, by omega, k', by omega, b4, he⟩)

/-- Claim C21: mirror completion in `InitDmatrix` with `reduced_FFT`. For `gridY ≥ 2*boxY` and
`gridZ ≥ 2*boxZ`, after the zero fill, the copy loop and the two mirror loops, for every `j`
with `|j| < boxY`, every `k` with `|k| < boxZ` and every component `Dcomp`, the cell
`slice[IndexSliceD2matrix(j,k)]` holds `s * v(|j|,|k|)` with
`v(j,k) = D2matrix[IndexGarbledD(x,j,k,lengthN)]`, the value copied for the non-negative
displacement, and `s = (-1)^([j<0 and Dcomp in {1,4}] + [k<0 and Dcomp in {2,4}])`; every
other cell of `slice` (index below `gridYZ`) is zero. -/
theorem mirrorSlice_completion (g : MatVecGlobals R) (x Dcomp : Nat)
    (D2matrix slice : Nat → Cplx R) (hred : g.reduced_FFT = true)
    (hgY : 2 * g.boxY ≤ g.gridY) (hgZ : 2 * g.boxZ ≤ g.gridZ) :
    (∀ j k : Int, -(g.boxY : Int) < j → j < g.boxY → -(g.boxZ : Int) < k → k < g.boxZ →
      mirrorSlice g Dcomp (fillSlice g (InitDmatrix_D2 g) x D2matrix slice)
          (IndexSliceD2matrix g j k).toNat =
        cMultReal ((-1) ^ ((if j < 0 ∧ (Dcomp = 1 ∨ Dcomp = 4) then 1 else 0) +
            (if k < 0 ∧ (Dcomp = 2 ∨ Dcomp = 4) then 1 else 0)))
          (D2matrix (IndexGarbledD g (InitDmatrix_D2 g) x |j| |k|
            (InitDmatrix_D2 g).lengthN).toNat)) ∧
    (∀ idx, idx < g.gridYZ →
      (¬ ∃ j : Int, -(g.boxY : Int) < j ∧ j < g.boxY ∧
        ∃ k : Int, -(g.boxZ : Int) < k ∧ k < g.boxZ ∧
          idx = (IndexSliceD2matrix g j k).toNat) →
      mirrorSlice g Dcomp (fillSlice g (InitDmatrix_D2 g) x D2matrix slice) idx
        = Cplx.zero) := by
  obtain ⟨m1, m2⟩ := mirrorSlice_spec g Dcomp (fillSlice g (InitDmatrix_D2 g) x D2matrix slice)
    hred hgY hgZ
  obtain ⟨f1, f2⟩ := fillSlice_spec g x D2matrix slice hred hgY hgZ
  constructor
  · intro j k a1 a2 a3 a4
    rw [m1 j k a1 a2 a3 a4, f1 |j| |k| (abs_nonneg j) (abs_lt.mpr ⟨a1, a2⟩) (abs_nonneg k)
      (abs_lt.mpr ⟨a3, a4⟩)]
    generalize D2matrix (IndexGarbledD g (InitDmatrix_D2 g) x |j| |k|
      (InitDmatrix_D2 g).lengthN).toNat = v
    by_cases hj : j < 0 <;> by_cases hk : k < 0 <;>
      by_cases h1 : Dcomp = 1 ∨ Dcomp = 4 <;> by_cases h2 : Dcomp = 2 ∨ Dcomp = 4 <;>
      simp [mirrorAlongY, mirrorAlongZ, hj, hk, h1, h2, cInvSign_eq, cMultReal_one, cMultReal]
  · intro idx hidx hn
    rw [m2 idx hn]
    exact f2 idx hidx (fun ⟨j, b1, b2, k, b3, b4, he⟩ =>
      hn ⟨j, by omega, b2, k, by omega, b4, he⟩)


/-- Witness for C21: on the 4x4x4 sample grid with `boxY = boxZ = 2`, for the slice `x = 0`,
the component 1 and the displacement `(-1, 1)`, with `D2matrix[n] = n`. -/
theorem mirrorSlice_completion_witness :
    mirrorSlice sampleMirrorGlobals 1
        (fillSlice sampleMirrorGlobals (InitDmatrix_D2 sampleMirrorGlobals) 0
          (fun n => ⟨(n : ℚ), 0⟩) (fun _ => ⟨1, 1⟩))
        (IndexSliceD2matrix sampleMirrorGlobals (-1) 1).toNat =
      cMultReal ((-1) ^ ((if (-1 : Int) < 0 ∧ ((1 : Nat) = 1 ∨ (1 : Nat) = 4) then 1 else 0) +
          (if (1 : Int) < 0 ∧ ((1 : Nat) = 2 ∨ (1 : Nat) = 4) then 1 else 0)))
        (⟨(((IndexGarbledD sampleMirrorGlobals (InitDmatrix_D2 sampleMirrorGlobals) 0
          |(-1 : Int)| |(1 : Int)| (InitDmatrix_D2 sampleMirrorGlobals).lengthN).toNat : Nat)
            : ℚ), 0⟩ : Cplx ℚ) :=
  (mirrorSlice_completion sampleMirrorGlobals 0 1 (fun n => ⟨(n : ℚ), 0⟩) (fun _ => ⟨1, 1⟩)
    rfl (by decide) (by decide)).1 (-1) 1 (by decide) (by decide) (by decide) (by decide)

/-- The coordinates of an entry of `Xmatrix` of a run on `P` processes (`gridX = P*local_Nx`):
the component `c`, the row `zl*smallY + y`, the block `q` and the place `t` in the block. -/
theorem exchange_decompose (GX SY NZ P LX n : Nat) (hG : GX = P * LX)
    (hn : n < 3 * (GX * SY * NZ)) :
    ∃ c zl y q t, c < 3 ∧ zl < NZ ∧ y < SY ∧ q < P ∧ t < LX ∧
      n = c * (GX * SY * NZ) + (zl * SY + y) * GX + q * LX + t ∧
      n / (GX * SY * NZ) = c ∧ (n % (GX * SY * NZ)) / GX = zl * SY + y ∧
      ((n % (GX * SY * NZ)) % GX) / LX = q ∧ ((n % (GX * SY * NZ)) % GX) % LX = t := by
  have hN : 0 < GX * SY * NZ := by
    rcases Nat.eq_zero_or_pos (GX * SY * NZ) with h0 | h0
    · rw [h0] at hn; omega
    · exact h0
  have hXY : 0 < GX * SY := Nat.pos_of_mul_pos_right hN
  have hX : 0 < GX := Nat.pos_of_mul_pos_right hXY
  have hY : 0 < SY := Nat.pos_of_mul_pos_left hXY
  have hL : 0 < LX := by
    rcases Nat.eq_zero_or_pos LX with h0 | h0
    · rw [hG, h0] at hX; omega
    · exact h0
  have e1 := Nat.div_add_mod n (GX * SY * NZ)
  have e2 := Nat.div_add_mod (n % (GX * SY * NZ)) GX
  have e3 := Nat.div_add_mod ((n % (GX * SY * NZ)) / GX) SY
  have e4 := Nat.div_add_mod ((n % (GX * SY * NZ)) % GX) LX
  have hm : n % (GX * SY * NZ) < GX * SY * NZ := Nat.mod_lt _ hN
  have hcol : (n % (GX * SY * NZ)) % GX < GX := Nat.mod_lt _ hX
  have hrow : (n % (GX * SY * NZ)) / GX < SY * NZ := by
    rw [Nat.div_lt_iff_lt_mul hX]
    calc n % (GX * SY * NZ) < GX * SY * NZ := hm
      _ = SY * NZ * GX := by ring
  refine ⟨n / (GX * SY * NZ), (n % (GX * SY * NZ)) / GX / SY, (n % (GX * SY * NZ)) / GX % SY,
    ((n % (GX * SY * NZ)) % GX) / LX, ((n % (GX * SY * NZ)) % GX) % LX,
    (Nat.div_lt_iff_lt_mul hN).2 hn, ?_, Nat.mod_lt _ hY, ?_, Nat.mod_lt _ hL, ?_, rfl, ?_,
    rfl, rfl⟩
  · rw [Nat.div_lt_iff_lt_mul hY]
    calc (n % (GX * SY * NZ)) / GX < SY * NZ := hrow
      _ = NZ * SY := by ring
  · rw [Nat.div_lt_iff_lt_mul hL, ← hG]
    exact hcol
  · generalize n / (GX * SY * NZ) = c at *
    generalize n % (GX * SY * NZ) = m at *
    generalize m / GX = row at *
    generalize m % GX = col at *
    generalize row / SY = zl at *
    generalize row % SY = y at *
    generalize col / LX = q at *
    generalize col % LX = t at *
    rw [← e1, ← e2, ← e3, ← e4]
    ring
  · exact (Nat.div_add_mod' _ _).symm

/-- The row coordinates of the entry `c*local_Nsmall + (zl*smallY + y)*gridX + x` of
`Xmatrix`, and its place in the array. -/
theorem exchange_source (GX SY NZ c zl y x : Nat) (hc : c < 3) (hzl : zl < NZ) (hy : y < SY)
    (hx : x < GX) :
    c * (GX * SY * NZ) + (zl * SY + y) * GX + x < 3 * (GX * SY * NZ) ∧
    ((c * (GX * SY * NZ) + (zl * SY + y) * GX + x) / GX) % SY = y ∧
    ((c * (GX * SY * NZ) + (zl * SY + y) * GX + x) / (GX * SY)) % NZ = zl := by
  have hk : c * (GX * SY * NZ) + (zl * SY + y) * GX + x =
      (c * NZ + zl) * (SY * GX) + y * GX + x := by ring
  obtain ⟨-, -, h3, h4⟩ := xmatrix_coords GX SY (c * NZ + zl) y x _ hx hy hk
  have hzz : (c * NZ + zl) % NZ = zl := by
    rw [Nat.add_comm, Nat.mul_comm, Nat.add_mul_mod_self_left, Nat.mod_eq_of_lt hzl]
  refine ⟨?_, h3, by rw [h4, hzz]⟩
  rw [hk]
  refine xmatrix_row_lt _ _ _ _ _ _ ?_ hy hx
  have : (c + 1) * NZ ≤ 3 * NZ := Nat.mul_le_mul_right _ hc
  nlinarith


/-- The value the exchange leaves in an entry of `Xmatrix`: the entry of the same component and
row of the process `q` of the block, at the place of this process. -/
theorem BlockTransposeExchange_apply (g : MatVecGlobals R) (X : Nat → Nat → Cplx R)
    (c zl y q t n : Nat)
    (h1 : n / g.local_Nsmall = c) (h2 : (n % g.local_Nsmall) / g.gridX = zl * g.smallY + y)
    (h3 : ((n % g.local_Nsmall) % g.gridX) / g.local_Nx = q)
    (h4 : ((n % g.local_Nsmall) % g.gridX) % g.local_Nx = t) :
    BlockTransposeExchange g X n =
      X q (c * g.local_Nsmall + (zl * g.smallY + y) * g.gridX + (g.local_x0 + t)) := by
  unfold BlockTransposeExchange
  dsimp only
  rw [h1, h2, h3, h4, Nat.add_assoc]

/-- When `MatVec` calls `BlockTranspose` the first time, `Xmatrix` of the process `q` is zero
outside the rows of the box: the rows with `y < boxY` whose `z`, counted from the first layer
`q*local_Nz` of the process, is below `boxZ`. -/
theorem Xmatrix1_zero_outside_box (backend : FFTBackend) (g : MatVecGlobals R)
    (ext : MatVecExtern R) (T : Transform1D R) (her : Bool) (s : MatVecState R) (q : Nat)
    (hT : ∀ dir n m, m < n → T dir n (fun _ => Cplx.zero) m = Cplx.zero)
    (hfX : ∀ dir a, ext.fftX dir a = fftX backend g T dir a)
    (hNs : g.local_Nsmall = g.gridX * g.smallY * g.local_Nz) (hbY : g.boxY ≤ g.smallY)
    (hpos : ∀ i, i < g.local_nvoid_Ndip → g.position (3 * i) < g.gridX ∧
      g.position (3 * i + 1) < g.boxY ∧ g.position (3 * i + 2) < g.local_Nz ∧
      q * g.local_Nz + g.position (3 * i + 2) < g.boxZ) :
    ∀ k, k < 3 * g.local_Nsmall →
      ¬ ((k / g.gridX) % g.smallY < g.boxY ∧
        q * g.local_Nz + (k / (g.gridX * g.smallY)) % g.local_Nz < g.boxZ) →
      MatVec_Xmatrix1 g ext her s k = Cplx.zero := by
  intro k hk hn
  have h1 := scatter_zero_outside_box
    { g with boxZ := min (g.boxZ - q * g.local_Nz) g.local_Nz }
    (if her then nConj g s.argvec else s.argvec) s.Xmatrix hNs hbY (Nat.min_le_right _ _)
    (fun i hi => by
      obtain ⟨a1, a2, a3, a4⟩ := hpos i hi
      have a5 : g.position (3 * i + 2) < g.boxZ - q * g.local_Nz := by
        clear hi
        omega
      exact ⟨a1, a2, Nat.lt_min.2 ⟨a5, a3⟩⟩)
  have h2 := fftX_zero_outside_box backend
    { g with boxZ := min (g.boxZ - q * g.local_Nz) g.local_Nz } T hT hNs hbY .FFT_FORWARD
    _ h1 k ⟨hk, fun hb => hn ⟨hb.1, by
      have hb2 : (k / (g.gridX * g.smallY)) % g.local_Nz <
          min (g.boxZ - q * g.local_Nz) g.local_Nz := hb.2
      have hb3 := (Nat.lt_min.1 hb2).1
      clear hb h1
      omega⟩⟩
  unfold MatVec_Xmatrix1
  rw [hfX]
  exact h2

/-- The loop over the slices of a process with a kernel of zeros, started from an `Xmatrix`
that is zero outside the entries the loop stores into (the entries `IndexGarbledX(x,y,z)` of
the slices of the process with `y < boxY`, `z < boxZ`), leaves `Xmatrix` zero (on its
`3*local_Nsmall` entries). -/
theorem sliceLoop_zero_garbled (g : MatVecGlobals R) (ext : MatVecExtern R) (transposed : Bool)
    (hD : ∀ n, g.Dmatrix n = Cplx.zero) (hYZ : g.gridYZ = g.gridY * g.gridZ)
    (hbY : g.boxY ≤ g.gridY) (hbZ : g.boxZ ≤ g.gridZ)
    (hY : ∀ a, (∀ k, k < 3 * g.gridYZ → a k = Cplx.zero) →
      ∀ k, k < 3 * g.gridYZ → ext.fftY .FFT_BACKWARD a k = Cplx.zero)
    (hZ : ∀ a, (∀ k, k < 3 * g.gridYZ → a k = Cplx.zero) →
      ∀ k, k < 3 * g.gridYZ → ext.fftZ .FFT_BACKWARD a k = Cplx.zero)
    (s : (Nat → Cplx R) × (Nat → Cplx R) × (Nat → Cplx R))
    (hs : ∀ k, k < 3 * g.local_Nsmall →
      (¬ ∃ x, g.local_x0 ≤ x ∧ x < g.local_x1 ∧ ∃ y, y < g.boxY ∧ ∃ z, z < g.boxZ ∧
        ∃ c, c < 3 ∧ k = IndexGarbledX g x y z + c * g.local_Nsmall) →
      s.1 k = Cplx.zero) :
    ∀ k, k < 3 * g.local_Nsmall →
      (forRange g.local_x0 g.local_x1 (sliceBody g ext transposed) s).1 k = Cplx.zero := by
  have inv := forLoop_inv_idx
    (fun n (s : (Nat → Cplx R) × (Nat → Cplx R) × (Nat → Cplx R)) =>
      ∀ k, k < 3 * g.local_Nsmall →
        ((¬ ∃ x, g.local_x0 ≤ x ∧ x < g.local_x1 ∧ ∃ y, y < g.boxY ∧ ∃ z, z < g.boxZ ∧
          ∃ c, c < 3 ∧ k = IndexGarbledX g x y z + c * g.local_Nsmall) ∨
         (∃ x, g.local_x0 ≤ x ∧ x < g.local_x0 + n ∧ ∃ y, y < g.boxY ∧ ∃ z, z < g.boxZ ∧
          ∃ c, c < 3 ∧ k = IndexGarbledX g x y z + c * g.local_Nsmall)) →
        s.1 k = Cplx.zero)
    (g.local_x1 - g.local_x0) (fun n => sliceBody g ext transposed (g.local_x0 + n))
    (fun n _ s hsn k hk hcase => by
      have hsb := sliceBody_zero g ext transposed (g.local_x0 + n) hD hYZ hbY hbZ hY hZ s k
      by_cases hw : ∃ y, y < g.boxY ∧ ∃ z, z < g.boxZ ∧ ∃ c, c < 3 ∧
          k = IndexGarbledX g (g.local_x0 + n) y z + c * g.local_Nsmall
      · exact hsb.1 hw
      · rw [hsb.2 hw]
        refine hsn k hk ?_
        rcases hcase with hnb | ⟨x, hx0, hx1, hcell⟩
        · exact Or.inl hnb
        · right
          rcases Nat.lt_succ_iff_lt_or_eq.mp (by omega : x < (g.local_x0 + n) + 1)
            with h | h
          · exact ⟨x, hx0, h, hcell⟩
          · exact absurd (h ▸ hcell) hw)
    s (fun k hk hcase => by
      rcases hcase with hnb | ⟨x, hx0, hx1, -⟩
      · exact hs k hk hnb
      · omega)
  intro k hk
  refine inv k hk ?_
  by_cases hbox : ∃ x, g.local_x0 ≤ x ∧ x < g.local_x1 ∧ ∃ y, y < g.boxY ∧ ∃ z, z < g.boxZ ∧
      ∃ c, c < 3 ∧ k = IndexGarbledX g x y z + c * g.local_Nsmall
  · right
    obtain ⟨x, hx0, hx1, hcell⟩ := hbox
    exact ⟨x, hx0, by omega, hcell⟩
  · exact Or.inl hbox

/-- The entry `IndexGarbledX(x,y,z)` of the slice `x = local_x0 + t` of process `p` and the
layer `z = q*local_Nz + zl` lies in the row `zl*smallY + y`, in block `q`, at place `t`; in a
build without `PARALLEL` there is one process. -/
theorem IndexGarbledX_block (g : MatVecGlobals R) (P p q zl y t : Nat) (hp : p < P)
    (hq : q < P) (hseq : g.PARALLEL = false → P = 1) (hx0 : g.local_x0 = p * g.local_Nx)
    (hzl : zl < g.local_Nz) (ht : t < g.local_Nx) :
    IndexGarbledX g (g.local_x0 + t) y (q * g.local_Nz + zl) =
      (zl * g.smallY + y) * g.gridX + q * g.local_Nx + t := by
  unfold IndexGarbledX
  cases hpar : g.PARALLEL with
  | false =>
    have hP := hseq hpar
    have hp0 : p = 0 := by omega
    have hq0 : q = 0 := by omega
    simp only [Bool.false_eq_true, if_false]
    rw [hx0, hp0, hq0]
    ring
  | true =>
    simp only [if_true]
    have e1 : (q * g.local_Nz + zl) % g.local_Nz = zl := by
      rw [Nat.add_comm, Nat.mul_comm, Nat.add_mul_mod_self_left, Nat.mod_eq_of_lt hzl]
    have e2 : (q * g.local_Nz + zl) / g.local_Nz = q := by
      rw [Nat.add_comm, Nat.mul_comm, Nat.add_mul_div_left _ _ (by omega),
        Nat.div_eq_of_lt hzl, Nat.zero_add]
    have e3 : (g.local_x0 + t) % g.local_Nx = t := by
      rw [hx0, Nat.add_comm, Nat.mul_comm, Nat.add_mul_mod_self_left, Nat.mod_eq_of_lt ht]
    rw [e1, e2, e3]

/-- In a run of `MatVec` on `P` processes with a kernel of zeros, where `BlockTranspose` is
the exchange among the processes, `Xmatrix` of every process is zero (on its
`3*local_Nsmall` entries) when `BlockTranspose` is called the second time. -/
theorem MatVec_Xmatrix2_zero (backend : FFTBackend) (P : Nat) (g : Nat → MatVecGlobals R)
    (ext : Nat → MatVecExtern R) (T : Transform1D R) (her : Bool) (s : Nat → MatVecState R)
    (hT : ∀ dir n m, m < n → T dir n (fun _ => Cplx.zero) m = Cplx.zero)
    (hfX : ∀ p, p < P → ∀ dir a, (ext p).fftX dir a = fftX backend (g p) T dir a)
    (hfY : ∀ p, p < P → ∀ dir a, (ext p).fftY dir a = fftY backend (g p) T dir a)
    (hfZ : ∀ p, p < P → ∀ dir a, (ext p).fftZ dir a = fftZ backend (g p) T dir a)
    (hseq : ∀ p, p < P → (g p).PARALLEL = false → P = 1)
    (hshare : ∀ p, p < P → (g p).gridX = (g 0).gridX ∧ (g p).smallY = (g 0).smallY ∧
      (g p).local_Nz = (g 0).local_Nz ∧ (g p).local_Nx = (g 0).local_Nx ∧
      (g p).local_Nsmall = (g 0).local_Nsmall ∧ (g p).boxY = (g 0).boxY ∧
      (g p).boxZ = (g 0).boxZ)
    (hpart : ∀ p, p < P → (g p).local_x0 = p * (g p).local_Nx ∧
      (g p).local_x1 = (p + 1) * (g p).local_Nx ∧ (g p).gridX = P * (g p).local_Nx ∧
      (g p).smallZ = P * (g p).local_Nz)
    (hgrid : ∀ p, p < P → (g p).local_Nsmall = (g p).gridX * (g p).smallY * (g p).local_Nz ∧
      (g p).gridYZ = (g p).gridY * (g p).gridZ ∧ (g p).gridY = 2 * (g p).smallY ∧
      (g p).gridZ = 2 * (g p).smallZ ∧ (g p).boxY ≤ (g p).smallY ∧
      (g p).boxZ ≤ (g p).smallZ)
    (hpos : ∀ p, p < P → ∀ i, i < (g p).local_nvoid_Ndip →
      (g p).position (3 * i) < (g p).gridX ∧ (g p).position (3 * i + 1) < (g p).boxY ∧
      (g p).position (3 * i + 2) < (g p).local_Nz ∧
      p * (g p).local_Nz + (g p).position (3 * i + 2) < (g p).boxZ)
    (hD : ∀ p, p < P → ∀ n, (g p).Dmatrix n = Cplx.zero)
    (hBT1 : ∀ p, p < P → ∀ n, n < 3 * (g p).local_Nsmall →
      (ext p).BlockTranspose (MatVec_Xmatrix1 (g p) (ext p) her (s p)) n =
        BlockTransposeExchange (g p)
          (fun q => MatVec_Xmatrix1 (g q) (ext q) her (s q)) n)
    (p : Nat) (hp : p < P) :
    ∀ k, k < 3 * (g p).local_Nsmall →
      MatVec_Xmatrix2 (g p) (ext p) her (s p) k = Cplx.zero := by
  obtain ⟨hNs, hYZ, hgY, hgZ, hbY, hbZ⟩ := hgrid p hp
  obtain ⟨x0e, x1e, gXe, sZe⟩ := hpart p hp
  unfold MatVec_Xmatrix2
  refine sliceLoop_zero_garbled (g p) (ext p) _ (hD p hp) hYZ (by omega) (by omega)
    (fun a ha => by rw [hfY p hp]; exact fftY_zero backend (g p) T hT hYZ hgZ _ a ha)
    (fun a ha => by rw [hfZ p hp]; exact fftZ_zero backend (g p) T hT hYZ (by omega) _ a ha)
    _ (fun k hk hnb => ?_)
  show (ext p).BlockTranspose (MatVec_Xmatrix1 (g p) (ext p) her (s p)) k = Cplx.zero
  have hk' : k < 3 * ((g p).gridX * (g p).smallY * (g p).local_Nz) := by rw [← hNs]; exact hk
  obtain ⟨c, zl, y, q, t, hc, hzl, hy, hq, ht, hke, d1, d2, d3, d4⟩ :=
    exchange_decompose (g p).gridX (g p).smallY (g p).local_Nz P (g p).local_Nx k gXe hk'
  rw [← hNs] at d1 d2 d3 d4 hke
  rw [hBT1 p hp k hk, BlockTransposeExchange_apply (g p) _ c zl y q t k d1 d2 d3 d4]
  obtain ⟨p1, p2, p3, p4, p5, p6, p7⟩ := hshare p hp
  obtain ⟨q1, q2, q3, q4, q5, q6, q7⟩ := hshare q hq
  obtain ⟨hNsq, -, -, -, hbYq, -⟩ := hgrid q hq
  have hxt : (g p).local_x0 + t < (g p).gridX := by
    rw [x0e, gXe]
    calc p * (g p).local_Nx + t < p * (g p).local_Nx + (g p).local_Nx := by omega
      _ = (p + 1) * (g p).local_Nx := by ring
      _ ≤ P * (g p).local_Nx := Nat.mul_le_mul_right _ hp
  obtain ⟨s1, s2, s3⟩ := exchange_source (g p).gridX (g p).smallY (g p).local_Nz c zl y
    ((g p).local_x0 + t) hc hzl hy hxt
  rw [← hNs] at s1 s2 s3
  refine Xmatrix1_zero_outside_box backend (g q) (ext q) T her (s q) q hT (hfX q hq) hNsq hbYq
    (hpos q hq) _ (by rw [q5, ← p5]; exact s1) (fun hb => hnb ?_)
  rw [q1, q2, q3, q6, q7, ← p1, ← p2, ← p3, ← p6, ← p7, s2, s3] at hb
  refine ⟨(g p).local_x0 + t, Nat.le_add_right _ _, ?_, y, hb.1, q * (g p).local_Nz + zl,
    hb.2, c, hc, ?_⟩
  · rw [x1e, x0e]
    calc p * (g p).local_Nx + t < p * (g p).local_Nx + (g p).local_Nx := by omega
      _ = (p + 1) * (g p).local_Nx := by ring
  · rw [IndexGarbledX_block (g p) P p q zl y t hp hq (hseq p hp) x0e hzl ht, hke]
    ring

/-- The exchange of arrays that are zero (on their `3*local_Nsmall` entries) is zero there. -/
theorem BlockTransposeExchange_zero (g : MatVecGlobals R) (P p : Nat) (hp : p < P)
    (X : Nat → Nat → Cplx R)
    (hNs : g.local_Nsmall = g.gridX * g.smallY * g.local_Nz)
    (hx0 : g.local_x0 = p * g.local_Nx) (hgX : g.gridX = P * g.local_Nx)
    (hX : ∀ q, q < P → ∀ k, k < 3 * g.local_Nsmall → X q k = Cplx.zero) :
    ∀ k, k < 3 * g.local_Nsmall → BlockTransposeExchange g X k = Cplx.zero := by
  intro k hk
  have hk' : k < 3 * (g.gridX * g.smallY * g.local_Nz) := by rw [← hNs]; exact hk
  obtain ⟨c, zl, y, q, t, hc, hzl, hy, hq, ht, hke, d1, d2, d3, d4⟩ :=
    exchange_decompose g.gridX g.smallY g.local_Nz P g.local_Nx k hgX hk'
  rw [← hNs] at d1 d2 d3 d4
  rw [BlockTransposeExchange_apply g _ c zl y q t k d1 d2 d3 d4]
  have hxt : g.local_x0 + t < g.gridX := by
    rw [hx0, hgX]
    calc p * g.local_Nx + t < p * g.local_Nx + g.local_Nx := by omega
      _ = (p + 1) * g.local_Nx := by ring
      _ ≤ P * g.local_Nx := Nat.mul_le_mul_right _ hp
  obtain ⟨s1, -, -⟩ := exchange_source g.gridX g.smallY g.local_Nz c zl y
    (g.local_x0 + t) hc hzl hy hxt
  rw [← hNs] at s1
  exact hX q hq _ s1

/-- Claim C11: the identity round trip of the FFT `MatVec`, for a run on `P` processes (one
process in a build without `PARALLEL`). The processes `p < P` share the grid
(`gridX = P*local_Nx`, `smallZ = P*local_Nz`, `gridY = 2*smallY`, `gridZ = 2*smallZ`,
`gridYZ = gridY*gridZ`, `local_Nsmall = gridX*smallY*local_Nz`), process `p` owns the slices
from `p*local_Nx` to `(p+1)*local_Nx` and the layers from `p*local_Nz` on, and at each of its
two calls `BlockTranspose` leaves in the `3*local_Nsmall` entries of `Xmatrix` the exchange of
the arrays the processes hold at that call. With `fftX`, `fftY`, `fftZ` the batches of
one-dimensional transforms of `fft.c` (either backend) for a transform that maps the zero
vector to the zero vector, every entry of `Dmatrix` zero and every dipole inside the box: for
every `argvec` and both values of `her` the call returns on every process and `resultvec`
equals `argvec` in every component of every local dipole. -/
theorem MatVec_zero_kernel_identity (backend : FFTBackend) (P : Nat)
    (g : Nat → MatVecGlobals R) (ext : Nat → MatVecExtern R) (T : Transform1D R) (her : Bool)
    (s : Nat → MatVecState R)
    (hT : ∀ dir n m, m < n → T dir n (fun _ => Cplx.zero) m = Cplx.zero)
    (hfX : ∀ p, p < P → ∀ dir a, (ext p).fftX dir a = fftX backend (g p) T dir a)
    (hfY : ∀ p, p < P → ∀ dir a, (ext p).fftY dir a = fftY backend (g p) T dir a)
    (hfZ : ∀ p, p < P → ∀ dir a, (ext p).fftZ dir a = fftZ backend (g p) T dir a)
    (hseq : ∀ p, p < P → (g p).PARALLEL = false → P = 1)
    (hshare : ∀ p, p < P → (g p).gridX = (g 0).gridX ∧ (g p).smallY = (g 0).smallY ∧
      (g p).local_Nz = (g 0).local_Nz ∧ (g p).local_Nx = (g 0).local_Nx ∧
      (g p).local_Nsmall = (g 0).local_Nsmall ∧ (g p).boxY = (g 0).boxY ∧
      (g p).boxZ = (g 0).boxZ)
    (hpart : ∀ p, p < P → (g p).local_x0 = p * (g p).local_Nx ∧
      (g p).local_x1 = (p + 1) * (g p).local_Nx ∧ (g p).gridX = P * (g p).local_Nx ∧
      (g p).smallZ = P * (g p).local_Nz)
    (hgrid : ∀ p, p < P → (g p).local_Nsmall = (g p).gridX * (g p).smallY * (g p).local_Nz ∧
      (g p).gridYZ = (g p).gridY * (g p).gridZ ∧ (g p).gridY = 2 * (g p).smallY ∧
      (g p).gridZ = 2 * (g p).smallZ ∧ (g p).boxY ≤ (g p).smallY ∧
      (g p).boxZ ≤ (g p).smallZ)
    (hrows : ∀ p, p < P → (g p).nlocalRows = 3 * (g p).local_nvoid_Ndip)
    (hpos : ∀ p, p < P → ∀ i, i < (g p).local_nvoid_Ndip →
      (g p).position (3 * i) < (g p).gridX ∧ (g p).position (3 * i + 1) < (g p).boxY ∧
      (g p).position (3 * i + 2) < (g p).local_Nz ∧
      p * (g p).local_Nz + (g p).position (3 * i + 2) < (g p).boxZ)
    (hD : ∀ p, p < P → ∀ n, (g p).Dmatrix n = Cplx.zero)
    (hipr : ∀ p, p < P → (s p).inprod = none ∨ (g p).ipr_required = true)
    (hBT1 : ∀ p, p < P → ∀ n, n < 3 * (g p).local_Nsmall →
      (ext p).BlockTranspose (MatVec_Xmatrix1 (g p) (ext p) her (s p)) n =
        BlockTransposeExchange (g p)
          (fun q => MatVec_Xmatrix1 (g q) (ext q) her (s q)) n)
    (hBT2 : ∀ p, p < P → ∀ n, n < 3 * (g p).local_Nsmall →
      (ext p).BlockTranspose (MatVec_Xmatrix2 (g p) (ext p) her (s p)) n =
        BlockTransposeExchange (g p)
          (fun q => MatVec_Xmatrix2 (g q) (ext q) her (s q)) n) :
    ∀ p, p < P → ∃ s', MatVec (g p) (ext p) her (s p) = .ok s' ∧
      ∀ k, k < 3 * (g p).local_nvoid_Ndip → s'.resultvec k = (s p).argvec k := by
  intro p hp
  obtain ⟨hNs, hYZ, hgY, hgZ, hbY, hbZ⟩ := hgrid p hp
  obtain ⟨x0e, x1e, gXe, sZe⟩ := hpart p hp
  have hrw := hrows p hp
  have hX2 := MatVec_Xmatrix2_zero backend P g ext T her s hT hfX hfY hfZ hseq hshare hpart
    hgrid hpos hD hBT1
  have hB2 : ∀ k, k < 3 * (g p).local_Nsmall →
      (ext p).BlockTranspose (MatVec_Xmatrix2 (g p) (ext p) her (s p)) k = Cplx.zero := by
    intro k hk
    rw [hBT2 p hp k hk]
    refine BlockTransposeExchange_zero (g p) P p hp _ hNs x0e gXe (fun q hq k hk => ?_) k hk
    refine hX2 q hq k ?_
    rw [(hshare q hq).2.2.2.2.1, ← (hshare p hp).2.2.2.2.1]
    exact hk
  have hfin := fftX_zero backend (g p) T hT hNs hbY .FFT_BACKWARD _ hB2
  have hgather : ∀ i c, i < (g p).local_nvoid_Ndip → c < 3 →
      (ext p).fftX .FFT_BACKWARD
        ((ext p).BlockTranspose (MatVec_Xmatrix2 (g p) (ext p) her (s p)))
        (IndexXmatrix (g p) ((g p).position (3 * i)) ((g p).position (3 * i + 1))
          ((g p).position (3 * i + 2)) + c * (g p).local_Nsmall) = Cplx.zero := by
    intro i c hi hc
    obtain ⟨a1, a2, a3, -⟩ := hpos p hp i hi
    rw [hfX p hp]
    exact hfin _ (box_entry { g p with boxZ := (g p).local_Nz } hNs hbY (Nat.le_refl _)
      _ _ _ c a1 a2 a3 hc).2.2.2
  have hcond : ((s p).inprod.isSome && !(g p).ipr_required) = false := by
    rcases hipr p hp with h | h
    · simp [h]
    · simp [h]
  unfold MatVec
  simp only [hcond, Bool.false_eq_true, if_false]
  refine ⟨_, rfl, fun k hk => ?_⟩
  have hk3 : k = 3 * (k / 3) + k % 3 := (Nat.div_add_mod k 3).symm
  have hi : k / 3 < (g p).local_nvoid_Ndip := by omega
  have hc : k % 3 < 3 := Nat.mod_lt _ (by omega)
  cases her with
  | false =>
    simp only [Bool.false_eq_true, if_false]
    rw [hk3]
    exact gather_zero (g p) (s p).argvec _ _ hgather _ (k / 3) (k % 3) hi hc
  | true =>
    simp only [if_true]
    show nConj (g p) _ k = _
    rw [nConj, conjLoop_apply, if_pos (by omega : k < (g p).nlocalRows)]
    refine Eq.trans (congrArg cConj (?_ : _ = nConj (g p) (s p).argvec k)) ?_
    · rw [hk3]
      exact gather_zero (g p) (nConj (g p) (s p).argvec) _ _ hgather _ (k / 3) (k % 3) hi hc
    · rw [nConj, conjLoop_apply, if_pos (by omega : k < (g p).nlocalRows), cConj_cConj]

/-- With one process that owns all slices (`local_x0 = 0`, `local_Nx = gridX`) the exchange
leaves the array as it is: the `BlockTranspose` of a build without `PARALLEL`. -/
theorem BlockTransposeExchange_single {R : Type} [LinearOrderedField R] (g : MatVecGlobals R)
    (X : Nat → Nat → Cplx R) (hx0 : g.local_x0 = 0) (hNx : g.local_Nx = g.gridX) (n : Nat) :
    BlockTransposeExchange g X n = X 0 n := by
  unfold BlockTransposeExchange
  dsimp only
  have e1 : (n % g.local_Nsmall) % g.gridX / g.gridX = 0 := by
    rcases Nat.eq_zero_or_pos g.gridX with h0 | h0
    · rw [h0, Nat.div_zero]
    · exact Nat.div_eq_of_lt (Nat.mod_lt _ h0)
  have e2 := Nat.div_add_mod' (n % g.local_Nsmall) g.gridX
  have e3 := Nat.div_add_mod' n g.local_Nsmall
  rw [hx0, hNx, e1, Nat.mod_mod, Nat.add_zero, Nat.add_assoc, e2, e3]

/-- In the sample run on two processes every process holds the same `Xmatrix` when
`BlockTranspose` is called the first time. -/
theorem sampleSplit_Xmatrix1 (q p : Nat) :
    MatVec_Xmatrix1 (sampleSplitGlobals q) (sampleSplitExtern q) true (sampleState (some 5)) =
      MatVec_Xmatrix1 (sampleSplitGlobals p) (sampleSplitExtern p) true
        (sampleState (some 5)) := rfl

/-- The sample transform maps the zero vector to the zero vector. -/
theorem sampleTransform_zero (dir : Direction) (n m : Nat) :
    sampleTransform dir n (fun _ => Cplx.zero) m = Cplx.zero := by
  simp [sampleTransform, cAdd, cInvSign, Cplx.zero]

/-- The sample dipoles of process `p` of the sample run on two processes lie inside the box. -/
theorem sampleSplit_positions (p : Nat) (hp : p < 2) (i : Nat)
    (hi : i < (sampleSplitGlobals p).local_nvoid_Ndip) :
    (sampleSplitGlobals p).position (3 * i) < (sampleSplitGlobals p).gridX ∧
      (sampleSplitGlobals p).position (3 * i + 1) < (sampleSplitGlobals p).boxY ∧
      (sampleSplitGlobals p).position (3 * i + 2) < (sampleSplitGlobals p).local_Nz ∧
      p * (sampleSplitGlobals p).local_Nz + (sampleSplitGlobals p).position (3 * i + 2) <
        (sampleSplitGlobals p).boxZ := by
  have hi2 : i < 2 := hi
  interval_cases i <;> simp [sampleSplitGlobals, sampleGlobals] <;> omega

/-- In the sample run on two processes `Xmatrix` of every process is zero when `BlockTranspose`
is called the second time. -/
theorem sampleSplit_Xmatrix2_zero (q : Nat) (hq : q < 2) (k : Nat)
    (hk : k < 3 * (sampleSplitGlobals q).local_Nsmall) :
    MatVec_Xmatrix2 (sampleSplitGlobals q) (sampleSplitExtern q) true (sampleState (some 5)) k
      = Cplx.zero :=
  MatVec_Xmatrix2_zero .FFTW3 2 sampleSplitGlobals sampleSplitExtern sampleTransform true
    (fun _ => sampleState (some 5)) (fun dir n m _ => sampleTransform_zero dir n m)
    (fun _ _ _ _ => rfl) (fun _ _ _ _ => rfl) (fun _ _ _ _ => rfl)
    (fun _ _ h => Bool.noConfusion (show true = false from h))
    (fun _ _ => ⟨rfl, rfl, rfl, rfl, rfl, rfl, rfl⟩)
    (fun p _ => ⟨(Nat.mul_one p).symm, (Nat.mul_one (p + 1)).symm, rfl, rfl⟩)
    (fun _ _ => ⟨rfl, rfl, rfl, rfl, Nat.le_refl _, Nat.le_refl _⟩)
    sampleSplit_positions (fun _ _ _ => rfl)
    (fun p _ _ _ => congrFun (sampleSplit_Xmatrix1 p _) _) q hq k hk

/-- Witness for C11: the run on two processes over `ℚ` with `her` set, each process with the
two sample dipoles in its layer, the sample transform and a kernel of zeros; the result on
the second process. -/
theorem MatVec_zero_kernel_identity_witness :
    ∃ s', MatVec (sampleSplitGlobals 1) (sampleSplitExtern 1) true (sampleState (some 5))
        = .ok s' ∧
      ∀ k, k < 3 * (sampleSplitGlobals 1).local_nvoid_Ndip →
        s'.resultvec k = (sampleState (some 5)).argvec k :=
  MatVec_zero_kernel_identity .FFTW3 2 sampleSplitGlobals sampleSplitExtern sampleTransform true
    (fun _ => sampleState (some 5)) (fun dir n m _ => sampleTransform_zero dir n m)
    (fun _ _ _ _ => rfl) (fun _ _ _ _ => rfl) (fun _ _ _ _ => rfl)
    (fun _ _ h => Bool.noConfusion (show true = false from h))
    (fun _ _ => ⟨rfl, rfl, rfl, rfl, rfl, rfl, rfl⟩)
    (fun p _ => ⟨(Nat.mul_one p).symm, (Nat.mul_one (p + 1)).symm, rfl, rfl⟩)
    (fun _ _ => ⟨rfl, rfl, rfl, rfl, Nat.le_refl _, Nat.le_refl _⟩)
    (fun _ _ => rfl)
    sampleSplit_positions (fun _ _ _ => rfl) (fun _ _ => Or.inr rfl)
    (fun p _ _ _ => congrFun (sampleSplit_Xmatrix1 p _) _)
    (fun p hp n hn =>
      (BlockTransposeExchange_zero (sampleSplitGlobals p) 2 p hp _ rfl (Nat.mul_one p).symm rfl
        (fun _ _ k hk => sampleSplit_Xmatrix2_zero p hp k hk) n hn).trans
      (BlockTransposeExchange_zero (sampleSplitGlobals p) 2 p hp _ rfl (Nat.mul_one p).symm rfl
        (fun q hq k hk => sampleSplit_Xmatrix2_zero q hq k hk) n hn).symm)
    1 (by decide)

end Theorems

end ADDA
